import Mathlib

/-!
Shallow embedding of the maze generation / solving engine of the
`python-maze-solver` repository, together with proofs about the claims of
its specification.

Conventions of the embedding:
* A grid (`Grid`) is the Python `List[List[int]]`: a list of rows, each row a
  list of cell values, `1` = wall, `0` = passage.  `maze[y][x]` becomes
  `cellAt m (x, y)`.
* Positions are pairs `(x, y)` of integers (Python ints may go negative in
  intermediate neighbour computations before the bounds checks).
* Python's `random` module is modelled by an oracle `Rng : Nat → Nat`; each
  drawing consumes the head of the stream.  Quantifying over all oracles
  quantifies over all outcomes of the library's randomness.
* Python `while` loops become fuel-indexed recursions returning `Option`;
  `none` means the computation did not complete normally within the given
  fuel (fuel-sufficiency lemmas below show the chosen fuels are enough), or
  hit a runtime error (out-of-range `randrange`, missing dictionary key).
* Solvers additionally return the final grid, mirroring the fact that the
  Python list object is passed by reference and could in principle be
  mutated by the callee.
-/

abbrev Pos : Type := Int × Int

abbrev Grid : Type := List (List Nat)

/-- `len(maze)` : the number of rows. -/
def gridHeight (m : Grid) : Nat := m.length

/-- `len(maze[0])` : the length of the first row (Python raises on an empty
maze; all uses below are on nonempty grids). -/
def gridWidth (m : Grid) : Nat := (m.headD []).length

/-- `maze[y][x]`.  Reads in the source are always guarded by
`0 <= x < width` and `0 <= y < height`, so the default value is irrelevant
on rectangular grids. -/
def cellAt (m : Grid) (p : Pos) : Nat := (m.getD p.2.toNat []).getD p.1.toNat 1

/-- `maze[y][x] = v`. -/
def setCell (m : Grid) (p : Pos) (v : Nat) : Grid :=
  m.set p.2.toNat ((m.getD p.2.toNat []).set p.1.toNat v)

/-- `[[1 for _ in range(width)] for _ in range(height)]`. -/
def mkMaze (w h : Nat) : Grid := List.replicate h (List.replicate w 1)

/-- `0 <= x < width and 0 <= y < height`. -/
def inBounds (w h : Nat) (p : Pos) : Prop :=
  0 ≤ p.1 ∧ p.1 < (w : Int) ∧ 0 ≤ p.2 ∧ p.2 < (h : Int)

instance (w h : Nat) (p : Pos) : Decidable (inBounds w h p) := by
  unfold inBounds; infer_instance

/-- The two-step direction list `[(0, 2), (2, 0), (0, -2), (-2, 0)]` used by
all generators. -/
def dirs2 : List (Int × Int) := [(0, 2), (2, 0), (0, -2), (-2, 0)]

/-- The one-step direction list `[(0, 1), (1, 0), (0, -1), (-1, 0)]` used by
all solvers. -/
def dirs1 : List (Int × Int) := [(0, 1), (1, 0), (0, -1), (-1, 0)]

/-! ## The randomness oracle -/

abbrev Rng : Type := Nat → Nat

/-- Draw a number `< n` from the oracle (callers ensure `n ≠ 0`). -/
def drawNat (r : Rng) (n : Nat) : Nat × Rng := (r 0 % n, fun i => r (i + 1))

/-- Remove the `k`-th element of a list. -/
def pickNth : List α → Nat → Option (α × List α)
  | [], _ => none
  | x :: xs, 0 => some (x, xs)
  | x :: xs, k + 1 =>
    match pickNth xs k with
    | none => none
    | some (y, ys) => some (y, x :: ys)

def shuffleAux : Nat → Rng → List α → List α × Rng
  | 0, r, l => (l, r)
  | fuel + 1, r, l =>
    match l with
    | [] => ([], r)
    | _ :: _ =>
      let kr := drawNat r l.length
      match pickNth l kr.1 with
      | none => (l, kr.2)
      | some (x, rest) =>
        let tr := shuffleAux fuel kr.2 rest
        (x :: tr.1, tr.2)

/-- `random.shuffle(l)` : produces an oracle-chosen permutation of `l`.  As
the oracle ranges over all streams this ranges over all permutations. -/
def shuffle (r : Rng) (l : List α) : List α × Rng := shuffleAux l.length r l

/-- `random.randrange(start, stop, step)` for `step > 0`: `none` when the
range is empty (Python raises `ValueError`). -/
def randrange (r : Rng) (start stop step : Int) : Option (Int × Rng) :=
  let n : Nat := ((stop - start + step - 1) / step).toNat
  if n = 0 then none
  else
    let kr := drawNat r n
    some (start + step * (kr.1 : Int), kr.2)

/-! ## `DFSMazeGenerator.generate` (src/algorithms/maze_algorithms.py) -/

/-- The `for dx, dy in directions:` loop inside `carve_path`; the recursive
call of the enclosing closure is the parameter `recur`. -/
def DFSMazeGenerator.carveDirs
    (recur : Rng → Int → Int → Grid → Option (Grid × Rng)) (w h : Nat) (x y : Int) :
    Rng → Grid → List (Int × Int) → Option (Grid × Rng)
  | r, maze, [] => some (maze, r)
  | r, maze, (dx, dy) :: rest =>
    if inBounds w h (x + dx, y + dy) ∧ cellAt maze (x + dx, y + dy) = 1 then
      let maze := setCell maze (x + dx / 2, y + dy / 2) 0
      match recur r (x + dx) (y + dy) maze with
      | none => none
      | some mr => DFSMazeGenerator.carveDirs recur w h x y mr.2 mr.1 rest
    else
      DFSMazeGenerator.carveDirs recur w h x y r maze rest

/-- The recursive `carve_path(x, y)` closure: marks the cell as passage,
shuffles the two-step directions and recurses into still-walled neighbours,
carving the wall in between. -/
def DFSMazeGenerator.carvePath :
    Nat → Nat → Nat → Rng → Int → Int → Grid → Option (Grid × Rng)
  | 0, _, _, _, _, _, _ => none
  | fuel + 1, w, h, r, x, y, maze =>
    let maze := setCell maze (x, y) 0
    let dr := shuffle r dirs2
    DFSMazeGenerator.carveDirs
      (fun r' x' y' mz => DFSMazeGenerator.carvePath fuel w h r' x' y' mz)
      w h x y dr.2 maze dr.1

/-- `DFSMazeGenerator.generate(width, height)`: wall-filled maze, random even
start cell, recursive carving. -/
def DFSMazeGenerator.generate (r : Rng) (w h : Nat) : Option (Grid × Rng) :=
  let maze := mkMaze w h
  match randrange r 0 w 2 with
  | none => none
  | some sxr =>
    match randrange sxr.2 0 h 2 with
    | none => none
    | some syr =>
      DFSMazeGenerator.carvePath (w * h + 1) w h syr.2 sxr.1 syr.1 maze

/-! ## `BFSMazeGenerator.generate` -/

/-- One pass over the shuffled directions of a dequeued cell `(x, y)`:
for each in-bounds unvisited two-step neighbour, carve the connecting wall,
append the neighbour to the queue and mark it visited. -/
def BFSMazeGenerator.genDirs (w h : Nat) (x y : Int) :
    Grid × List Pos × List Pos → List (Int × Int) → Grid × List Pos × List Pos
  | st, [] => st
  | (maze, queue, visited), (dx, dy) :: rest =>
    if inBounds w h (x + dx, y + dy) ∧ (x + dx, y + dy) ∉ visited then
      BFSMazeGenerator.genDirs w h x y
        (setCell maze (x + dx / 2, y + dy / 2) 0,
          queue ++ [(x + dx, y + dy)],
          (x + dx, y + dy) :: visited) rest
    else
      BFSMazeGenerator.genDirs w h x y (maze, queue, visited) rest

/-- The `while queue:` loop of `BFSMazeGenerator.generate`. -/
def BFSMazeGenerator.genLoop :
    Nat → Rng → Nat → Nat → Grid → List Pos → List Pos → Option Grid
  | 0, _, _, _, _, _, _ => none
  | _ + 1, _, _, _, maze, [], _ => some maze
  | fuel + 1, r, w, h, maze, (x, y) :: queue, visited =>
    let maze := setCell maze (x, y) 0
    let dr := shuffle r dirs2
    let st := BFSMazeGenerator.genDirs w h x y (maze, queue, visited) dr.1
    BFSMazeGenerator.genLoop fuel dr.2 w h st.1 st.2.1 st.2.2

/-- `BFSMazeGenerator.generate(width, height)`: frontier expansion from the
fixed start `(1, 1)` with a FIFO queue, walls carved at enqueue time. -/
def BFSMazeGenerator.generate (r : Rng) (w h : Nat) : Option Grid :=
  BFSMazeGenerator.genLoop (w * h + 2) r w h (mkMaze w h) [((1 : Int), (1 : Int))]
    [((1 : Int), (1 : Int))]

/-! ## `AStarMazeGenerator.generate` -/

/-- `abs(a[0] - b[0]) + abs(a[1] - b[1])`. -/
def manhattan (a b : Pos) : Nat := (a.1 - b.1).natAbs + (a.2 - b.2).natAbs

/-- Strict lexicographic order on heap entries `(f, (x, y))` — Python's
tuple comparison, which `heapq` uses to select the smallest entry. -/
def keyLt (a b : Nat × Pos) : Prop :=
  a.1 < b.1 ∨ (a.1 = b.1 ∧ (a.2.1 < b.2.1 ∨ (a.2.1 = b.2.1 ∧ a.2.2 < b.2.2)))

instance (a b : Nat × Pos) : Decidable (keyLt a b) := by
  unfold keyLt; infer_instance

/-- `heapq.heappop`: extract a smallest element (first occurrence) from the
list of heap entries. -/
def extractMin (lt : α → α → Prop) [DecidableRel lt] :
    List α → Option (α × List α)
  | [] => none
  | x :: xs =>
    match extractMin lt xs with
    | none => some (x, [])
    | some mr => if lt mr.1 x then some (mr.1, x :: mr.2) else some (x, xs)

/-- Association-list model of a Python `dict` keyed by positions. -/
def alookup : List (Pos × β) → Pos → Option β
  | [], _ => none
  | (q, v) :: rest, p => if q = p then some v else alookup rest p

/-- `d[p] = v` on the association list. -/
def aset : List (Pos × β) → Pos → β → List (Pos × β)
  | [], p, v => [(p, v)]
  | (q, w) :: rest, p, v => if q = p then (p, v) :: rest else (q, w) :: aset rest p v

/-- `get_neighbors(x, y)` of the A* generator: all in-bounds two-step
neighbours (no wall check). -/
def AStarMazeGenerator.genNeighbors (w h : Nat) (p : Pos) : List Pos :=
  dirs2.filterMap fun d =>
    if inBounds w h (p.1 + d.1, p.2 + d.2) then some (p.1 + d.1, p.2 + d.2) else none

/-- State of the A* generator loop: the grid, the open heap, and the
`came_from` / `g_score` / `f_score` dictionaries. -/
structure AStarGenState where
  maze : Grid
  openL : List (Nat × Pos)
  cameFrom : List (Pos × Pos)
  gScore : List (Pos × Nat)
  fScore : List (Pos × Nat)
deriving DecidableEq

/-- The `for next_pos in get_neighbors(*current):` loop: standard relaxation,
re-pushing a neighbour (and carving the wall towards it!) whenever a strictly
better `g` is found.  `none` models the `KeyError` of `g_score[current]`. -/
def AStarMazeGenerator.genExpand (endP cur : Pos) :
    AStarGenState → List Pos → Option AStarGenState
  | st, [] => some st
  | st, q :: rest =>
    match alookup st.gScore cur with
    | none => none
    | some gCur =>
      let tentative := gCur + 1
      let keep : Bool :=
        match alookup st.gScore q with
        | none => true
        | some gq => decide (tentative < gq)
      if keep then
        let f := tentative + manhattan q endP
        let mid : Pos := ((cur.1 + q.1) / 2, (cur.2 + q.2) / 2)
        AStarMazeGenerator.genExpand endP cur
          { maze := setCell st.maze mid 0
            openL := st.openL ++ [(f, q)]
            cameFrom := aset st.cameFrom q cur
            gScore := aset st.gScore q tentative
            fScore := aset st.fScore q f } rest
      else
        AStarMazeGenerator.genExpand endP cur st rest

/-- The `while open_set:` loop of the A* generator: pop the smallest entry,
carve its cell, stop at the end corner, otherwise relax its neighbours. -/
def AStarMazeGenerator.genLoop (w h : Nat) (endP : Pos) :
    Nat → AStarGenState → Option Grid
  | 0, _ => none
  | fuel + 1, st =>
    match extractMin keyLt st.openL with
    | none => some st.maze
    | some er =>
      let cur := er.1.2
      let maze := setCell st.maze cur 0
      if cur = endP then some maze
      else
        match AStarMazeGenerator.genExpand endP cur
            { st with maze := maze, openL := er.2 }
            (AStarMazeGenerator.genNeighbors w h cur) with
        | none => none
        | some st' => AStarMazeGenerator.genLoop w h endP fuel st'

/-- `AStarMazeGenerator.generate(width, height)`: deterministic priority
growth from `(1, 1)` towards `(width - 2, height - 2)`. -/
def AStarMazeGenerator.generate (w h : Nat) : Option Grid :=
  let start : Pos := (1, 1)
  let endP : Pos := ((w : Int) - 2, (h : Int) - 2)
  AStarMazeGenerator.genLoop w h endP ((w * h + 2) * (w * h + 2))
    { maze := mkMaze w h
      openL := [(0, start)]
      cameFrom := []
      gScore := [(start, 0)]
      fScore := [(start, manhattan start endP)] }

/-! ## `PrimMazeGenerator.generate` (src/algorithms/maze_algorithms.py)

Note: this variant's `walls` list stores cells **two** steps away from a
carved cell (together with the cell they came from), and on a successful
pick carves that stored cell and the cell four steps out — it never touches
the cells at distance one. -/

/-- `for dx, dy: if in bounds: walls.append((new_x, new_y, from_x, from_y))`. -/
def PrimMazeGenerator.addWalls (w h : Nat) (x y : Int) (walls : List (Pos × Pos)) :
    List (Pos × Pos) :=
  walls ++ dirs2.filterMap fun d =>
    if inBounds w h (x + d.1, y + d.2) then some ((x + d.1, y + d.2), (x, y)) else none

/-- `addWalls` but with the extra `maze[new_y][new_x] == 1` guard used when
expanding from a newly carved cell. -/
def PrimMazeGenerator.addWallsUnvisited (w h : Nat) (maze : Grid) (x y : Int)
    (walls : List (Pos × Pos)) : List (Pos × Pos) :=
  walls ++ dirs2.filterMap fun d =>
    if inBounds w h (x + d.1, y + d.2) ∧ cellAt maze (x + d.1, y + d.2) = 1 then
      some ((x + d.1, y + d.2), (x, y))
    else none

/-- The `while walls:` loop: pop a uniformly random entry, mirror the source
cell through it, and carve both cells when the far cell is still a wall. -/
def PrimMazeGenerator.genLoop :
    Nat → Rng → Nat → Nat → Grid → List (Pos × Pos) → Option Grid
  | 0, _, _, _, _, _ => none
  | fuel + 1, r, w, h, maze, walls =>
    let kr := drawNat r walls.length
    match pickNth walls kr.1 with
    | none => some maze
    | some wr =>
      let wallP := wr.1.1
      let fromP := wr.1.2
      let toP : Pos := (wallP.1 + (wallP.1 - fromP.1), wallP.2 + (wallP.2 - fromP.2))
      if inBounds w h toP ∧ cellAt maze toP = 1 then
        let maze := setCell maze wallP 0
        let maze := setCell maze toP 0
        PrimMazeGenerator.genLoop fuel kr.2 w h maze
          (PrimMazeGenerator.addWallsUnvisited w h maze toP.1 toP.2 wr.2)
      else
        PrimMazeGenerator.genLoop fuel kr.2 w h maze wr.2

/-- `PrimMazeGenerator.generate(width, height)` from maze_algorithms.py. -/
def PrimMazeGenerator.generate (r : Rng) (w h : Nat) : Option Grid :=
  let maze := mkMaze w h
  match randrange r 1 ((w : Int) - 1) 2 with
  | none => none
  | some sxr =>
    match randrange sxr.2 1 ((h : Int) - 1) 2 with
    | none => none
    | some syr =>
      let maze := setCell maze (sxr.1, syr.1) 0
      PrimMazeGenerator.genLoop (5 * (w * h) + 5) syr.2 w h maze
        (PrimMazeGenerator.addWalls w h sxr.1 syr.1 [])

/-! ## `PrimMazeGenerator.generate` (src/generators/prim_generator.py) -/

namespace prim_generator

/-- `_add_frontier_cells(x, y, frontier)`: unvisited cells two steps away,
deduplicated against the current frontier. -/
def addFrontierCells (w h : Nat) (maze : Grid) (x y : Int) (frontier : List Pos) :
    List Pos :=
  dirs2.foldl
    (fun fr d =>
      if inBounds w h (x + d.1, y + d.2) ∧ cellAt maze (x + d.1, y + d.2) = 1 ∧
          (x + d.1, y + d.2) ∉ fr then
        fr ++ [(x + d.1, y + d.2)]
      else fr)
    frontier

/-- `_get_visited_neighbors(x, y)`: carved cells two steps away. -/
def getVisitedNeighbors (w h : Nat) (maze : Grid) (x y : Int) : List Pos :=
  dirs2.filterMap fun d =>
    if inBounds w h (x + d.1, y + d.2) ∧ cellAt maze (x + d.1, y + d.2) = 0 then
      some (x + d.1, y + d.2)
    else none

/-- The `while frontier:` loop of `prim_generator.PrimMazeGenerator.generate`:
pick a random frontier cell, connect it to a random visited two-step
neighbour through the true midpoint cell. -/
def genLoop : Nat → Rng → Nat → Nat → Grid → List Pos → Option Grid
  | 0, _, _, _, _, _ => none
  | fuel + 1, r, w, h, maze, frontier =>
    let kr := drawNat r frontier.length
    match pickNth frontier kr.1 with
    | none => some maze
    | some cr =>
      let x := cr.1.1
      let y := cr.1.2
      let ns := getVisitedNeighbors w h maze x y
      match ns with
      | [] => genLoop fuel kr.2 w h maze cr.2
      | _ :: _ =>
        let nr := drawNat kr.2 ns.length
        match ns.get? nr.1 with
        | none => none
        | some n =>
          let maze := setCell maze (x, y) 0
          let maze := setCell maze ((x + n.1) / 2, (y + n.2) / 2) 0
          genLoop fuel nr.2 w h maze (addFrontierCells w h maze x y cr.2)

/-- `prim_generator.PrimMazeGenerator.generate(width, height)`: random start
anywhere in the grid (`random.randint(0, width - 1)`), frontier growth. -/
def generate (r : Rng) (w h : Nat) : Option Grid :=
  if w = 0 ∨ h = 0 then none
  else
    let sxr := drawNat r w
    let syr := drawNat sxr.2 h
    let sx : Int := sxr.1
    let sy : Int := syr.1
    let maze := setCell (mkMaze w h) (sx, sy) 0
    genLoop (5 * (w * h) + 5) syr.2 w h maze (addFrontierCells w h maze sx sy [])

end prim_generator

/-! ## `DFSMazeGenerator.solve` -/

/-- `get_neighbors(x, y)` of the DFS solver: in-bounds one-step neighbours
that are passage cells, in the fixed order `[(0,1), (1,0), (0,-1), (-1,0)]`. -/
def DFSMazeGenerator.getNeighbors (m : Grid) (x y : Int) : List Pos :=
  dirs1.filterMap fun d =>
    if inBounds (gridWidth m) (gridHeight m) (x + d.1, y + d.2) ∧
        cellAt m (x + d.1, y + d.2) = 0 then
      some (x + d.1, y + d.2)
    else none

/-- The `for next_x, next_y in get_neighbors(x, y):` loop of `dfs`; the
enclosing closure's recursive call is the parameter `recur`. -/
def DFSMazeGenerator.dfsDirs
    (recur : Grid → Pos → List Pos → List Pos → Option (Bool × List Pos × List Pos × Grid))
    (c : Pos) :
    Grid → List Pos → List Pos → List Pos → Option (Bool × List Pos × List Pos × Grid)
  | m, visited, path, [] => some (false, visited, path, m)
  | m, visited, path, n :: rest =>
    if n ∉ visited then
      match recur m n visited path with
      | none => none
      | some (true, visited, path, m) => some (true, visited, path ++ [c], m)
      | some (false, visited, path, m) =>
        DFSMazeGenerator.dfsDirs recur c m visited path rest
    else
      DFSMazeGenerator.dfsDirs recur c m visited path rest

/-- The recursive `dfs(x, y)` closure of `DFSMazeGenerator.solve`.  The
mutable `visited` set and `path` list (built back-to-front) are threaded
through, as is the grid (which the closure only reads). -/
def DFSMazeGenerator.dfsAux :
    Nat → Grid → Pos → Pos → List Pos → List Pos → Option (Bool × List Pos × List Pos × Grid)
  | 0, _, _, _, _, _ => none
  | fuel + 1, m, endP, c, visited, path =>
    if c = endP then some (true, visited, path ++ [c], m)
    else
      DFSMazeGenerator.dfsDirs (fun mz n v p => DFSMazeGenerator.dfsAux fuel mz endP n v p)
        c m (c :: visited) path (DFSMazeGenerator.getNeighbors m c.1 c.2)

/-- `DFSMazeGenerator.solve(maze, start, end)`: recursive depth-first walk;
the path is accumulated end-first and reversed, `[]` on failure. -/
def DFSMazeGenerator.solve (m : Grid) (s e : Pos) : Option (List Pos × Grid) :=
  match DFSMazeGenerator.dfsAux (gridWidth m * gridHeight m + 3) m e s [] [] with
  | none => none
  | some (found, _, path, m) => if found then some (path.reverse, m) else some ([], m)

/-! ## `BFSMazeGenerator.solve` -/

/-- The `for dx, dy in [(0,1), (1,0), (0,-1), (-1,0)]:` loop of the BFS
solver: push each in-bounds, passage, unvisited neighbour with its extended
path and mark it visited at enqueue time. -/
def BFSMazeGenerator.solveDirs (m : Grid) (x y : Int) (path : List Pos) :
    List (Pos × List Pos) × List Pos → List (Int × Int) → List (Pos × List Pos) × List Pos
  | st, [] => st
  | (queue, visited), (dx, dy) :: rest =>
    if inBounds (gridWidth m) (gridHeight m) (x + dx, y + dy) ∧
        cellAt m (x + dx, y + dy) = 0 ∧ (x + dx, y + dy) ∉ visited then
      BFSMazeGenerator.solveDirs m x y path
        (queue ++ [((x + dx, y + dy), path ++ [(x + dx, y + dy)])],
          (x + dx, y + dy) :: visited) rest
    else
      BFSMazeGenerator.solveDirs m x y path (queue, visited) rest

/-- The `while queue:` loop of `BFSMazeGenerator.solve`. -/
def BFSMazeGenerator.solveLoop :
    Nat → Grid → Pos → List (Pos × List Pos) → List Pos → Option (List Pos × Grid)
  | 0, _, _, _, _ => none
  | _ + 1, m, _, [], _ => some ([], m)
  | fuel + 1, m, endP, ((x, y), path) :: queue, visited =>
    if (x, y) = endP then some (path, m)
    else
      let st := BFSMazeGenerator.solveDirs m x y path (queue, visited) dirs1
      BFSMazeGenerator.solveLoop fuel m endP st.1 st.2

/-- `BFSMazeGenerator.solve(maze, start, end)`: breadth-first search carrying
whole paths in the queue, visited marked at enqueue; `[]` when the queue is
exhausted. -/
def BFSMazeGenerator.solve (m : Grid) (s e : Pos) : Option (List Pos × Grid) :=
  BFSMazeGenerator.solveLoop (gridWidth m * gridHeight m + 2) m e [(s, [s])] [s]

/-! ## `AStarMazeGenerator.solve` -/

/-- Strict order on `(x, y)` pairs — Python tuple comparison. -/
def posLt (a b : Pos) : Prop := a.1 < b.1 ∨ (a.1 = b.1 ∧ a.2 < b.2)

instance (a b : Pos) : Decidable (posLt a b) := by
  unfold posLt; infer_instance

/-- Strict lexicographic order on paths — Python list comparison. -/
def pathLt : List Pos → List Pos → Prop
  | [], [] => False
  | [], _ :: _ => True
  | _ :: _, [] => False
  | a :: as_, b :: bs => posLt a b ∨ (a = b ∧ pathLt as_ bs)

instance : (p q : List Pos) → Decidable (pathLt p q)
  | [], [] => isFalse (by simp [pathLt])
  | [], _ :: _ => isTrue (by simp [pathLt])
  | _ :: _, [] => isFalse (by simp [pathLt])
  | a :: as_, b :: bs =>
    have : Decidable (pathLt as_ bs) := instDecidablePathLt as_ bs
    by unfold pathLt; infer_instance

/-- Strict order on the A* solver's heap entries `(f, current, path)` —
Python tuple comparison as used by `heapq`. -/
def entryLt (a b : Nat × Pos × List Pos) : Prop :=
  a.1 < b.1 ∨ (a.1 = b.1 ∧ (posLt a.2.1 b.2.1 ∨ (a.2.1 = b.2.1 ∧ pathLt a.2.2 b.2.2)))

instance (a b : Nat × Pos × List Pos) : Decidable (entryLt a b) := by
  unfold entryLt; infer_instance

/-- The neighbour loop of the A* solver: push each in-bounds, passage,
not-yet-closed neighbour with `f = len(path) + manhattan(next, end)`. -/
def AStarMazeGenerator.solveDirs (m : Grid) (endP cur : Pos) (path : List Pos)
    (closed : List Pos) :
    List (Nat × Pos × List Pos) → List (Int × Int) → List (Nat × Pos × List Pos)
  | openL, [] => openL
  | openL, (dx, dy) :: rest =>
    if inBounds (gridWidth m) (gridHeight m) (cur.1 + dx, cur.2 + dy) ∧
        cellAt m (cur.1 + dx, cur.2 + dy) = 0 ∧ (cur.1 + dx, cur.2 + dy) ∉ closed then
      AStarMazeGenerator.solveDirs m endP cur path closed
        (openL ++ [(path.length + manhattan (cur.1 + dx, cur.2 + dy) endP,
          (cur.1 + dx, cur.2 + dy), path ++ [(cur.1 + dx, cur.2 + dy)])]) rest
    else
      AStarMazeGenerator.solveDirs m endP cur path closed openL rest

/-- The `while open_set:` loop of `AStarMazeGenerator.solve`: pop the
smallest `(f, current, path)`, return at the end cell, skip closed cells,
otherwise close the cell and push its eligible neighbours. -/
def AStarMazeGenerator.solveLoop :
    Nat → Grid → Pos → List (Nat × Pos × List Pos) → List Pos → Option (List Pos × Grid)
  | 0, _, _, _, _ => none
  | fuel + 1, m, endP, openL, closed =>
    match extractMin entryLt openL with
    | none => some ([], m)
    | some er =>
      if er.1.2.1 = endP then some (er.1.2.2, m)
      else if er.1.2.1 ∈ closed then
        AStarMazeGenerator.solveLoop fuel m endP er.2 closed
      else
        AStarMazeGenerator.solveLoop fuel m endP
          (AStarMazeGenerator.solveDirs m endP er.1.2.1 er.1.2.2 (er.1.2.1 :: closed)
            er.2 dirs1)
          (er.1.2.1 :: closed)

/-- `AStarMazeGenerator.solve(maze, start, end)`. -/
def AStarMazeGenerator.solve (m : Grid) (s e : Pos) : Option (List Pos × Grid) :=
  AStarMazeGenerator.solveLoop (5 * (gridWidth m * gridHeight m) + 8) m e [(0, s, [s])] []

/-! ## `prim_generator.PrimMazeGenerator.solve` -/

namespace prim_generator

/-- The `for dx, dy in [(0,1), (1,0), (0,-1), (-1,0)]:` loop of the Prim
class's `dfs`; the enclosing closure's recursive call is the parameter
`recur`. -/
def solveDfsDirs
    (recur : Grid → Pos → List Pos → List Pos → Option (Bool × List Pos × List Pos × Grid))
    (cur : Pos) :
    Grid → List Pos → List Pos → List (Int × Int) → Option (Bool × List Pos × List Pos × Grid)
  | m, visited, path, [] => some (false, visited, path, m)
  | m, visited, path, (dx, dy) :: rest =>
    if inBounds (gridWidth m) (gridHeight m) (cur.1 + dx, cur.2 + dy) ∧
        cellAt m (cur.1 + dx, cur.2 + dy) = 0 ∧ (cur.1 + dx, cur.2 + dy) ∉ visited then
      match recur m (cur.1 + dx, cur.2 + dy) visited (path ++ [(cur.1 + dx, cur.2 + dy)]) with
      | none => none
      | some (true, visited, path, m) => some (true, visited, path, m)
      | some (false, visited, path, m) =>
        solveDfsDirs recur cur m visited path.dropLast rest
    else
      solveDfsDirs recur cur m visited path rest

/-- The recursive `dfs(current)` closure of the Prim class's solver: the
`path` list is mutated eagerly (append before the recursive call, `pop()`
after a failed one). -/
def solveDfs :
    Nat → Grid → Pos → Pos → List Pos → List Pos → Option (Bool × List Pos × List Pos × Grid)
  | 0, _, _, _, _, _ => none
  | fuel + 1, m, endP, cur, visited, path =>
    if cur = endP then some (true, visited, path, m)
    else
      solveDfsDirs (fun mz n v p => solveDfs fuel mz endP n v p) cur m (cur :: visited)
        path dirs1

/-- `prim_generator.PrimMazeGenerator.solve(maze, start, end)`: seeds the
path with `[start]`, runs `dfs(start)` and returns the path *whether or not
the search succeeded* (the `if not start or not end` guard of the source is
vacuous for coordinate pairs, which are always truthy). -/
def solve (m : Grid) (s e : Pos) : Option (List Pos × Grid) :=
  match solveDfs (gridWidth m * gridHeight m + 3) m e s [] [s] with
  | none => none
  | some (_, _, path, m) => some (path, m)

end prim_generator

/-! ## The algorithm registry (src/app.py, src/algorithms/algorithm_types.py) -/

/-- `AlgorithmMetadata` dataclass. -/
structure AlgorithmMetadata where
  display_name : String
  complexity : String
  description : String
deriving DecidableEq

/-- The `AlgorithmType` enumeration of src/algorithms/algorithm_types.py. -/
inductive AlgorithmType where
  | DFS
  | BFS
  | ASTAR
  | PRIM
deriving DecidableEq

/-- `.name` of the enum member. -/
def AlgorithmType.name : AlgorithmType → String
  | .DFS => "DFS"
  | .BFS => "BFS"
  | .ASTAR => "ASTAR"
  | .PRIM => "PRIM"

/-- The metadata value attached to each enum member (`AlgorithmType.meta`). -/
def AlgorithmType.meta : AlgorithmType → AlgorithmMetadata
  | .DFS =>
    ⟨"Depth First Search", "O(V + E)",
      "Explores maze by going as deep as possible before backtracking"⟩
  | .BFS => ⟨"Breadth First Search", "O(V + E)", "Explores maze level by level"⟩
  | .ASTAR => ⟨"A* Search", "O(E log V)", "Finds shortest path using heuristic search"⟩
  | .PRIM =>
    ⟨"Prim" ++ String.singleton (Char.ofNat 39) ++ "s Algorithm", "O(E log V)",
      "Generates maze using minimum spanning tree"⟩

/-- A generator/solver pair, the interface `MazeAlgorithm` of the source. -/
structure MazeAlgorithmImpl where
  generate : Rng → Nat → Nat → Option Grid
  solve : Grid → Pos → Pos → Option (List Pos × Grid)

def dfsImpl : MazeAlgorithmImpl :=
  ⟨fun r w h => (DFSMazeGenerator.generate r w h).map Prod.fst, DFSMazeGenerator.solve⟩

def bfsImpl : MazeAlgorithmImpl := ⟨BFSMazeGenerator.generate, BFSMazeGenerator.solve⟩

/-- `ControlPanel.__init__` (src/app.py): the registry dictionary
`self.algorithms` maps only `DFS` and `BFS`; the other enum members are not
keys (the source comment reads "Add other algorithms as they're
implemented").  `.get` on a missing key yields `None`, modelled by
`Option`. -/
def ControlPanel.algorithms : AlgorithmType → Option MazeAlgorithmImpl
  | .DFS => some dfsImpl
  | .BFS => some bfsImpl
  | _ => none

/-- The fields of the global `state` read and written by
`ControlPanel.generate_maze`. -/
structure ControlState where
  running : Bool
  maze : Grid
  algorithm : AlgorithmType
  width : Nat
  height : Nat

/-- `ControlPanel.generate_maze` with the logger made explicit: the second
component is `some message` exactly when `logger.error` is called.  An
unregistered algorithm is logged and execution continues; no exception is
raised. -/
def ControlPanel.generateMaze (r : Rng) (st : ControlState) :
    Option (ControlState × Option String) :=
  if st.running then some (st, none)
  else
    let st := { st with running := true }
    match ControlPanel.algorithms st.algorithm with
    | some alg =>
      match alg.generate r st.width st.height with
      | none => none
      | some m => some ({ st with maze := m }, none)
    | none => some (st, some ("Algorithm " ++ st.algorithm.name ++ " not implemented"))

/-! ## Specification-side vocabulary: adjacency, paths, reachability -/

/-- Two positions are 4-adjacent (differ by one in exactly one coordinate). -/
def adjacent (p q : Pos) : Prop :=
  (q.1 = p.1 ∧ (q.2 = p.2 + 1 ∨ q.2 = p.2 - 1)) ∨
  (q.2 = p.2 ∧ (q.1 = p.1 + 1 ∨ q.1 = p.1 - 1))

instance (p q : Pos) : Decidable (adjacent p q) := by
  unfold adjacent; infer_instance

/-- `p` is an in-bounds PASSAGE cell of `m`. -/
def passage (m : Grid) (p : Pos) : Prop :=
  inBounds (gridWidth m) (gridHeight m) p ∧ cellAt m p = 0

instance (m : Grid) (p : Pos) : Decidable (passage m p) := by
  unfold passage; infer_instance

/-- A valid path of the data model: from `a` to `b` inclusive, consecutive
positions 4-adjacent, every position a passage cell. -/
inductive ValidPath (m : Grid) : Pos → Pos → List Pos → Prop
  | single (a : Pos) (ha : passage m a) : ValidPath m a a [a]
  | cons (a b c : Pos) (l : List Pos) (hab : adjacent a b) (ha : passage m a)
      (h : ValidPath m b c l) : ValidPath m a c (a :: l)

/-- `b` is reachable from `a` through the 4-connected passage graph. -/
def Reach (m : Grid) (a b : Pos) : Prop := ∃ p, ValidPath m a b p

/-- A path realising the shortest cell-count distance between its ends. -/
def ShortestPath (m : Grid) (a b : Pos) (p : List Pos) : Prop :=
  ValidPath m a b p ∧ ∀ q, ValidPath m a b q → p.length ≤ q.length

/-- All grid rows have the nominal width (Python code indexes `maze[y][x]`
with `x < len(maze[0])`, so ragged rows would raise). -/
def rectangular (m : Grid) : Prop := ∀ row ∈ m, row.length = gridWidth m

/-! ## Enumerations of cells, rooms and the perfect-maze property -/

/-- All in-bounds positions of a `w × h` grid, row by row. -/
def allCells (w h : Nat) : List Pos :=
  (List.range h).flatMap fun y => (List.range w).map fun x => (Int.ofNat x, Int.ofNat y)

/-- The list of passage cells of a grid. -/
def passageList (m : Grid) : List Pos :=
  (allCells (gridWidth m) (gridHeight m)).filter fun p => cellAt m p == 0

/-- Room cells of the two-step carving convention with parity anchor `par`:
both coordinates share parity with `par`. -/
def isRoom (par p : Pos) : Prop := p.1 % 2 = par.1 % 2 ∧ p.2 % 2 = par.2 % 2

instance (par p : Pos) : Decidable (isRoom par p) := by
  unfold isRoom; infer_instance

/-- Connecting-wall ("mid") cells: exactly one coordinate shares parity with
the room anchor `par`; such a cell sits between two adjacent rooms. -/
def isMid (par p : Pos) : Prop :=
  (p.1 % 2 = par.1 % 2 ∧ ¬p.2 % 2 = par.2 % 2) ∨
  (¬p.1 % 2 = par.1 % 2 ∧ p.2 % 2 = par.2 % 2)

instance (par p : Pos) : Decidable (isMid par p) := by
  unfold isMid; infer_instance

/-- The in-bounds room cells of a `w × h` grid for parity anchor `par`. -/
def roomList (w h : Nat) (par : Pos) : List Pos :=
  (allCells w h).filter fun p => decide (isRoom par p)

/-- Ordered count of adjacent pairs of `P` (twice the number of undirected
edges of the passage graph induced on `P`). -/
def adjPairs (P : List Pos) : Nat :=
  (P.map fun p => (P.filter fun q => decide (adjacent p q)).length).sum

/-- The spec's **perfectness** property for a generated grid, with room
parity anchor `par`: every room is carved (no isolated rooms); the passage
cells lie in a single connected component; the number of carved cells that
are not rooms ("carved connecting walls") is `rooms - 1`; and the passage
graph has the vertex/edge count of a tree (`V = E + 1`, which together with
connectedness excludes cycles). -/
def PerfectMaze (m : Grid) (par : Pos) : Prop :=
  (∀ rm ∈ roomList (gridWidth m) (gridHeight m) par, cellAt m rm = 0) ∧
  (∀ p ∈ passageList m, ∀ q ∈ passageList m, Reach m p q) ∧
  ((passageList m).filter fun c =>
      !((roomList (gridWidth m) (gridHeight m) par).contains c)).length =
    (roomList (gridWidth m) (gridHeight m) par).length - 1 ∧
  2 * (passageList m).length = adjPairs (passageList m) + 2

/-! ## A decidable over-approximation of reachability

`reachableCells m s` computes, by saturation, a list containing every cell
reachable from `s`; its completeness lemma turns `decide`-able
non-membership into `¬ Reach` facts for concrete grids. -/

/-- Add to `acc` every member of `P` adjacent to some member of `acc`. -/
def stepClosure (P acc : List Pos) : List Pos :=
  acc ++ P.filter fun q => !acc.contains q && acc.any fun p => decide (adjacent p q)

def iterClosure : Nat → List Pos → List Pos → List Pos
  | 0, _, acc => acc
  | n + 1, P, acc => iterClosure n P (stepClosure P acc)

/-- All cells reachable from `s` (and `s` itself). -/
def reachableCells (m : Grid) (s : Pos) : List Pos :=
  iterClosure (passageList m).length (passageList m) [s]

/-- The all-zeroes randomness oracle, used to instantiate theorems about
randomised generators at a concrete outcome. -/
def rng0 : Rng := fun _ => 0

/-! ## Lemmas about the reachability closure -/

theorem mem_stepClosure_iff {P acc : List Pos} {q : Pos} :
    q ∈ stepClosure P acc ↔ q ∈ acc ∨ (q ∈ P ∧ q ∉ acc ∧ ∃ a ∈ acc, adjacent a q) := by
  unfold stepClosure
  simp [List.mem_filter]

theorem subset_stepClosure (P acc : List Pos) : acc ⊆ stepClosure P acc :=
  fun _ ha => mem_stepClosure_iff.2 (Or.inl ha)

theorem mem_stepClosure_of_adjacent {P acc : List Pos} {a q : Pos}
    (ha : a ∈ acc) (hq : q ∈ P) (hadj : adjacent a q) : q ∈ stepClosure P acc := by
  by_cases hmem : q ∈ acc
  · exact subset_stepClosure P acc hmem
  · exact mem_stepClosure_iff.2 (Or.inr ⟨hq, hmem, a, ha, hadj⟩)

/-- Elements of `P` still missing from `acc`. -/
def newCount (P acc : List Pos) : Nat := (P.filter fun p => !acc.contains p).length

theorem countP_lt_of_witness {α : Type} (l : List α) (p q : α → Bool)
    (himp : ∀ a ∈ l, p a = true → q a = true)
    (hwit : ∃ a ∈ l, p a = false ∧ q a = true) :
    l.countP p < l.countP q := by
  induction l with
  | nil => rcases hwit with ⟨a, ha, _⟩; exact absurd ha (List.not_mem_nil a)
  | cons x xs ih =>
    rcases hwit with ⟨a, ha, hpa, hqa⟩
    have hle : xs.countP p ≤ xs.countP q :=
      List.countP_mono_left fun b hb => himp b (List.mem_cons_of_mem _ hb)
    rcases List.mem_cons.1 ha with rfl | ha
    · rw [List.countP_cons, List.countP_cons, hpa, hqa]
      simp only [decide_True, decide_False, if_true, if_false]
      simp
      omega
    · have hlt : xs.countP p < xs.countP q :=
        ih (fun b hb => himp b (List.mem_cons_of_mem _ hb)) ⟨a, ha, hpa, hqa⟩
      have hx : (if p x = true then 1 else 0) ≤ (if q x = true then 1 else 0) := by
        by_cases hpx : p x = true
        · simp [hpx, himp x (List.mem_cons_self x xs) hpx]
        · simp [hpx]
      rw [List.countP_cons, List.countP_cons]
      omega

theorem notMem_of_newCount_zero {P acc : List Pos} (h : newCount P acc = 0)
    {q : Pos} (hq : q ∈ P) : q ∈ acc := by
  by_contra hc
  have hq' : q ∈ P.filter fun p => !acc.contains p :=
    List.mem_filter.2 ⟨hq, by simpa using hc⟩
  have : 0 < newCount P acc := List.length_pos.2 (List.ne_nil_of_mem hq')
  omega

theorem stepClosure_stall_or_decrease (P acc : List Pos) :
    stepClosure P acc = acc ∨ newCount P (stepClosure P acc) < newCount P acc := by
  by_cases h : (P.filter fun q => !acc.contains q && acc.any fun p => decide (adjacent p q)) = []
  · left
    unfold stepClosure
    rw [h, List.append_nil]
  · right
    rcases List.exists_mem_of_ne_nil _ h with ⟨q, hq⟩
    have hqP := (List.mem_filter.1 hq).1
    have hqf := (List.mem_filter.1 hq).2
    have hqnotacc : q ∉ acc := by
      simp only [Bool.and_eq_true, Bool.not_eq_true'] at hqf
      simpa using hqf.1
    have hqstep : q ∈ stepClosure P acc := by
      unfold stepClosure; exact List.mem_append_right _ hq
    unfold newCount
    rw [← List.countP_eq_length_filter, ← List.countP_eq_length_filter]
    refine countP_lt_of_witness P _ _ ?_ ⟨q, hqP, ?_, ?_⟩
    · intro a _ hpa
      have ha : a ∉ stepClosure P acc := by simpa using hpa
      have : a ∉ acc := fun hmem => ha (subset_stepClosure P acc hmem)
      simpa using this
    · simpa using hqstep
    · simpa using hqnotacc

theorem iterClosure_of_stall {P acc : List Pos} (h : stepClosure P acc = acc) :
    ∀ n, iterClosure n P acc = acc := by
  intro n
  induction n with
  | zero => rfl
  | succ n ih => simpa [iterClosure, h] using ih

/-- With fuel at least `newCount P acc`, the closure is closed under
adjacency steps into `P`. -/
theorem iterClosure_closed :
    ∀ (n : Nat) (P acc : List Pos), newCount P acc ≤ n →
      ∀ a ∈ iterClosure n P acc, ∀ q ∈ P, adjacent a q → q ∈ iterClosure n P acc := by
  intro n
  induction n with
  | zero =>
    intro P acc hle a ha q hq hadj
    simp only [iterClosure] at ha ⊢
    exact notMem_of_newCount_zero (by omega) hq
  | succ n ih =>
    intro P acc hle a ha q hq hadj
    rcases stepClosure_stall_or_decrease P acc with hstall | hdec
    · have hrw : iterClosure (n + 1) P acc = acc := by
        show iterClosure n P (stepClosure P acc) = acc
        rw [hstall]; exact iterClosure_of_stall hstall n
      rw [hrw] at ha ⊢
      have := mem_stepClosure_of_adjacent ha hq hadj
      rwa [hstall] at this
    · have hle' : newCount P (stepClosure P acc) ≤ n := by omega
      exact ih P (stepClosure P acc) hle' a ha q hq hadj

theorem newCount_le_length (P acc : List Pos) : newCount P acc ≤ P.length := by
  unfold newCount
  exact List.length_filter_le _ _

theorem mem_allCells {w h : Nat} {p : Pos} : p ∈ allCells w h ↔ inBounds w h p := by
  unfold allCells inBounds
  constructor
  · intro hp
    simp only [List.mem_flatMap, List.mem_map, List.mem_range] at hp
    obtain ⟨y, hy, x, hx, rfl⟩ := hp
    dsimp only
    simp only [Int.ofNat_eq_natCast]
    refine ⟨by omega, by omega, by omega, by omega⟩
  · intro hp
    obtain ⟨h1, h2, h3, h4⟩ := hp
    simp only [List.mem_flatMap, List.mem_map, List.mem_range]
    refine ⟨p.2.toNat, by omega, p.1.toNat, by omega, ?_⟩
    cases p
    dsimp only at h1 h3 ⊢
    simp only [Int.ofNat_eq_natCast]
    congr 1 <;> omega

theorem passage_mem_passageList {m : Grid} {p : Pos} (h : passage m p) :
    p ∈ passageList m := by
  unfold passageList
  exact List.mem_filter.2 ⟨mem_allCells.2 h.1, by simpa using h.2⟩

theorem validPath_start_passage {m : Grid} {s e : Pos} {pa : List Pos}
    (h : ValidPath m s e pa) : passage m s := by
  cases h with
  | single _ ha => exact ha
  | cons _ _ _ _ _ ha _ => exact ha

theorem subset_iterClosure :
    ∀ (n : Nat) (P acc : List Pos), acc ⊆ iterClosure n P acc := by
  intro n
  induction n with
  | zero => exact fun P acc a ha => ha
  | succ n ih =>
    intro P acc a ha
    exact ih P (stepClosure P acc) (subset_stepClosure P acc ha)

theorem validPath_end_mem {m : Grid} {s e : Pos} {pa : List Pos}
    (h : ValidPath m s e pa) (acc : List Pos) (hs : s ∈ acc)
    (hclosed : ∀ a ∈ acc, ∀ q ∈ passageList m, adjacent a q → q ∈ acc) : e ∈ acc := by
  induction h generalizing acc with
  | single a _ => exact hs
  | cons a b c l hab _ hbc ih =>
    have hb : passage m b := validPath_start_passage hbc
    exact ih acc (hclosed a hs b (passage_mem_passageList hb) hab) hclosed

/-- Completeness of the closure: every reachable cell is listed. -/
theorem reach_mem_reachableCells {m : Grid} {s e : Pos} (h : Reach m s e) :
    e ∈ reachableCells m s := by
  rcases h with ⟨pa, hpa⟩
  unfold reachableCells
  exact validPath_end_mem hpa _
    (subset_iterClosure _ _ _ (List.mem_singleton_self s))
    (iterClosure_closed _ _ _ (newCount_le_length _ _))

/-- Contrapositive used on concrete grids: `decide` non-membership, conclude
unreachability. -/
theorem not_reach_of_not_mem {m : Grid} {s e : Pos} (h : e ∉ reachableCells m s) :
    ¬ Reach m s e := fun hr => h (reach_mem_reachableCells hr)

/-! ## Concrete grids used to instantiate and refute claims -/

/-- The (deterministic) output of `AStarMazeGenerator.generate(5, 5)`. -/
def aStarGrid55 : Grid :=
  [[1, 1, 1, 1, 1], [1, 0, 0, 1, 1], [1, 0, 1, 1, 1], [1, 0, 0, 0, 1], [1, 1, 1, 1, 1]]

/-- The output of `PrimMazeGenerator.generate(5, 5)` (maze_algorithms.py)
under the all-zeroes oracle: only the start cell is carved, because both
mirrored targets fall out of bounds on a 5×5 grid. -/
def primGrid55 : Grid :=
  [[1, 1, 1, 1, 1], [1, 0, 1, 1, 1], [1, 1, 1, 1, 1], [1, 1, 1, 1, 1], [1, 1, 1, 1, 1]]

/-- The output of `BFSMazeGenerator.generate(5, 5)` under the all-zeroes
oracle: four odd-coordinate rooms joined by three connecting cells. -/
def bfsGrid55 : Grid :=
  [[1, 1, 1, 1, 1], [1, 0, 0, 0, 1], [1, 0, 1, 1, 1], [1, 0, 0, 0, 1], [1, 1, 1, 1, 1]]

/-- A 1×3 grid whose two passage cells `(0,0)` and `(2,0)` are separated by
a wall: the smallest disconnected instance. -/
def gridRow3 : Grid := [[0, 1, 0]]

/-- C1, counterexample.  The claim quantifies over all four generators; it
fails for two of them.  The A*-ordered generator (deterministically, at
width = height = 5) stops as soon as the target corner is popped and leaves
room `(3, 1)` filled, so the rooms are not all connected into the passage
component; the Prim generator of maze_algorithms.py (here under the
all-zeroes oracle) carves no cell besides its start room, leaving rooms
`(1, 3)`, `(3, 1)`, `(3, 3)` isolated.  Parity anchor `(1, 1)` is the room
convention both generators actually start from (the spec's even-coordinate
anchor `(0, 0)` would fail even more bluntly: all even-coordinate cells
remain walls). -/
theorem C1_counterexample :
    (AStarMazeGenerator.generate 5 5 = some aStarGrid55 ∧
      ¬ PerfectMaze aStarGrid55 (1, 1)) ∧
    (PrimMazeGenerator.generate rng0 5 5 = some primGrid55 ∧
      ¬ PerfectMaze primGrid55 (1, 1)) := by
  refine ⟨⟨by decide, fun hp => ?_⟩, ⟨by decide, fun hp => ?_⟩⟩
  · exact absurd (hp.1 (3, 1) (by decide)) (by decide)
  · exact absurd (hp.1 (1, 3) (by decide)) (by decide)

/-- C4, counterexample.  The A*-ordered generator (like BFS and Prim) starts
at `(1, 1)`: the carved cell `(1, 1)` has both coordinates odd, so it is
neither an even-coordinate room nor a connecting wall between two
even-coordinate rooms, contradicting the claim that rooms are carved only at
even coordinates. -/
theorem C4_counterexample :
    AStarMazeGenerator.generate 5 5 = some aStarGrid55 ∧
    passage aStarGrid55 (1, 1) ∧
    ¬ (isRoom (0, 0) (1, 1) ∨ isMid (0, 0) (1, 1)) := by
  exact ⟨by decide, by decide, by decide⟩

/-- C5, counterexample.  `DFSMazeGenerator.generate(1, 1)` — both dimensions
far below the documented minimum of 3 — does not fail fast: it runs to
completion with no error and returns the 1×1 grid `[[0]]`. -/
theorem C5_counterexample :
    (DFSMazeGenerator.generate rng0 1 1).map Prod.fst = some [[0]] := by decide

/-- C3, counterexample.  On the 1×3 grid `[[0,1,0]]` the passage cells
`(0,0)` and `(2,0)` lie in different components, yet the Prim class's solver
(src/generators/prim_generator.py) returns the non-empty single-cell path
`[start]` rather than the empty sequence — indistinguishable from the
`start == end` result. -/
theorem C3_counterexample :
    ¬ Reach gridRow3 (0, 0) (2, 0) ∧
    passage gridRow3 (0, 0) ∧ passage gridRow3 (2, 0) ∧
    (prim_generator.solve gridRow3 (0, 0) (2, 0)).map Prod.fst = some [(0, 0)] := by
  refine ⟨not_reach_of_not_mem (by decide), by decide, by decide, by decide⟩

/-- C7, counterexample.  Start and end are passage cells, the returned path
of the Prim class's solver is non-empty, but it does not run from start to
end: its last element is the start cell, not the end cell. -/
theorem C7_counterexample :
    passage gridRow3 (0, 0) ∧ passage gridRow3 (2, 0) ∧
    (prim_generator.solve gridRow3 (0, 0) (2, 0)).map Prod.fst = some [(0, 0)] ∧
    ([((0 : Int), (0 : Int))] ≠ ([] : List Pos)) ∧
    (((0 : Int), (0 : Int)) : Pos) ≠ (2, 0) := by decide

/-- C8, counterexample.  The registry dictionary built in
`ControlPanel.__init__` maps only `DFS` and `BFS`; looking up the enum
member `ASTAR` yields nothing, so the lookup is not total over the closed
enumeration. -/
theorem C8_counterexample : ControlPanel.algorithms AlgorithmType.ASTAR = none := rfl

/-- C8 (amended): the registry resolves exactly `DFS` and `BFS` to
generator/solver pairs; metadata is total over the enumeration, but `ASTAR`
and `PRIM` are not registered, and `generate_maze` on an unregistered
identifier logs an error and continues (a recoverable runtime condition, not
a fast failure). -/
theorem C8_theorem :
    (ControlPanel.algorithms AlgorithmType.DFS).isSome = true ∧
    (ControlPanel.algorithms AlgorithmType.BFS).isSome = true ∧
    ControlPanel.algorithms AlgorithmType.ASTAR = none ∧
    ControlPanel.algorithms AlgorithmType.PRIM = none ∧
    (∀ t : AlgorithmType, (t.meta.display_name).length ≠ 0) ∧
    (∀ (r : Rng) (st : ControlState), st.running = false →
      ControlPanel.algorithms st.algorithm = none →
      ControlPanel.generateMaze r st =
        some ({ st with running := true },
          some ("Algorithm " ++ st.algorithm.name ++ " not implemented"))) := by
  refine ⟨rfl, rfl, rfl, rfl, fun t => by cases t <;> decide, ?_⟩
  intro r st h1 h2
  unfold ControlPanel.generateMaze
  simp [h1, h2]

/-- Witness for C8: the amended behaviour at the concrete unregistered
member `ASTAR`. -/
theorem C8_witness :
    ControlPanel.generateMaze rng0 ⟨false, [], AlgorithmType.ASTAR, 5, 5⟩ =
      some (⟨true, [], AlgorithmType.ASTAR, 5, 5⟩,
        some "Algorithm ASTAR not implemented" ) := by
  have h := C8_theorem.2.2.2.2.2 rng0 ⟨false, [], AlgorithmType.ASTAR, 5, 5⟩ rfl rfl
  exact h

/-! ## Grid preservation by the solvers (claim C6) -/

theorem BFSMazeGenerator.bfs_solveLoop_grid :
    ∀ (fuel : Nat) (m : Grid) (endP : Pos) (q : List (Pos × List Pos)) (v : List Pos)
      (p : List Pos) (m' : Grid),
      BFSMazeGenerator.solveLoop fuel m endP q v = some (p, m') → m' = m := by
  intro fuel
  induction fuel with
  | zero => intro m endP q v p m' h; simp [BFSMazeGenerator.solveLoop] at h
  | succ fuel ih =>
    intro m endP q v p m' h
    match q with
    | [] =>
      simp [BFSMazeGenerator.solveLoop] at h
      exact h.2.symm
    | ((x, y), path) :: queue =>
      rw [BFSMazeGenerator.solveLoop] at h
      split at h
      · simp at h
        exact h.2.symm
      · exact ih m endP _ _ p m' h

theorem AStarMazeGenerator.astar_solveLoop_grid :
    ∀ (fuel : Nat) (m : Grid) (endP : Pos) (o : List (Nat × Pos × List Pos)) (c : List Pos)
      (p : List Pos) (m' : Grid),
      AStarMazeGenerator.solveLoop fuel m endP o c = some (p, m') → m' = m := by
  intro fuel
  induction fuel with
  | zero => intro m endP o c p m' h; simp [AStarMazeGenerator.solveLoop] at h
  | succ fuel ih =>
    intro m endP o c p m' h
    rw [AStarMazeGenerator.solveLoop] at h
    rcases hext : extractMin entryLt o with _ | er <;> rw [hext] at h <;> dsimp only at h
    · simp at h
      exact h.2.symm
    · by_cases h1 : er.1.2.1 = endP
      · rw [if_pos h1] at h
        simp at h
        exact h.2.symm
      · rw [if_neg h1] at h
        by_cases h2 : er.1.2.1 ∈ c
        · rw [if_pos h2] at h
          exact ih m endP _ _ p m' h
        · rw [if_neg h2] at h
          exact ih m endP _ _ p m' h

theorem DFSMazeGenerator.dfsDirs_grid
    (recur : Grid → Pos → List Pos → List Pos → Option (Bool × List Pos × List Pos × Grid))
    (hrec : ∀ mz n v pa res, recur mz n v pa = some res → res.2.2.2 = mz) :
    ∀ (c : Pos) (m : Grid) (v pa ns : List Pos) (res : Bool × List Pos × List Pos × Grid),
      DFSMazeGenerator.dfsDirs recur c m v pa ns = some res → res.2.2.2 = m := by
  intro c m v pa ns
  induction ns generalizing m v pa with
  | nil =>
    intro res h
    simp [DFSMazeGenerator.dfsDirs] at h
    rw [← h]
  | cons n rest ih =>
    intro res h
    rw [DFSMazeGenerator.dfsDirs] at h
    split at h
    · match hr : recur m n v pa with
      | none => rw [hr] at h; exact absurd h (by simp)
      | some (true, v', pa', m2) =>
        rw [hr] at h
        have hm2 : m2 = m := hrec m n v pa _ hr
        simp at h
        rw [← h]
        exact hm2
      | some (false, v', pa', m2) =>
        rw [hr] at h
        have hm2 : m2 = m := hrec m n v pa _ hr
        simp only [] at h
        exact (ih m2 v' pa' res h).trans hm2
    · exact ih m v pa res h

theorem DFSMazeGenerator.dfsAux_grid :
    ∀ (fuel : Nat) (m : Grid) (endP c : Pos) (v pa : List Pos)
      (res : Bool × List Pos × List Pos × Grid),
      DFSMazeGenerator.dfsAux fuel m endP c v pa = some res → res.2.2.2 = m := by
  intro fuel
  induction fuel with
  | zero => intro m endP c v pa res h; simp [DFSMazeGenerator.dfsAux] at h
  | succ fuel ih =>
    intro m endP c v pa res h
    rw [DFSMazeGenerator.dfsAux] at h
    split at h
    · simp at h
      rw [← h]
    · exact DFSMazeGenerator.dfsDirs_grid _ (fun mz n v' pa' res' h' => ih mz endP n v' pa' res' h')
        c m _ _ _ res h

theorem prim_generator.solveDfsDirs_grid
    (recur : Grid → Pos → List Pos → List Pos → Option (Bool × List Pos × List Pos × Grid))
    (hrec : ∀ mz n v pa res, recur mz n v pa = some res → res.2.2.2 = mz) :
    ∀ (cur : Pos) (m : Grid) (v pa : List Pos) (ds : List (Int × Int))
      (res : Bool × List Pos × List Pos × Grid),
      prim_generator.solveDfsDirs recur cur m v pa ds = some res → res.2.2.2 = m := by
  intro cur m v pa ds
  induction ds generalizing m v pa with
  | nil =>
    intro res h
    simp [prim_generator.solveDfsDirs] at h
    rw [← h]
  | cons d rest ih =>
    intro res h
    match d with
    | (dx, dy) =>
      rw [prim_generator.solveDfsDirs] at h
      split at h
      · match hr : recur m (cur.1 + dx, cur.2 + dy) v (pa ++ [(cur.1 + dx, cur.2 + dy)]) with
        | none => rw [hr] at h; exact absurd h (by simp)
        | some (true, v', pa', m2) =>
          rw [hr] at h
          have hm2 : m2 = m := hrec _ _ _ _ _ hr
          simp at h
          rw [← h]
          exact hm2
        | some (false, v', pa', m2) =>
          rw [hr] at h
          have hm2 : m2 = m := hrec _ _ _ _ _ hr
          simp only [] at h
          exact (ih m2 v' pa'.dropLast res h).trans hm2
      · exact ih m v pa res h

theorem prim_generator.solveDfs_grid :
    ∀ (fuel : Nat) (m : Grid) (endP cur : Pos) (v pa : List Pos)
      (res : Bool × List Pos × List Pos × Grid),
      prim_generator.solveDfs fuel m endP cur v pa = some res → res.2.2.2 = m := by
  intro fuel
  induction fuel with
  | zero => intro m endP cur v pa res h; simp [prim_generator.solveDfs] at h
  | succ fuel ih =>
    intro m endP cur v pa res h
    rw [prim_generator.solveDfs] at h
    split at h
    · simp at h
      rw [← h]
    · exact prim_generator.solveDfsDirs_grid _
        (fun mz n v' pa' res' h' => ih mz endP n v' pa' res' h') cur m _ _ _ res h

/-- C6: solving never mutates the grid: for every grid, start and end, each
of the four solvers, whenever it completes, hands back the very grid it was
given, cell for cell. -/
theorem C6_theorem (m : Grid) (s e : Pos) :
    (∀ p m', DFSMazeGenerator.solve m s e = some (p, m') → m' = m) ∧
    (∀ p m', BFSMazeGenerator.solve m s e = some (p, m') → m' = m) ∧
    (∀ p m', AStarMazeGenerator.solve m s e = some (p, m') → m' = m) ∧
    (∀ p m', prim_generator.solve m s e = some (p, m') → m' = m) := by
  refine ⟨?_, ?_, ?_, ?_⟩
  · intro p m' h
    unfold DFSMazeGenerator.solve at h
    rcases hr : DFSMazeGenerator.dfsAux (gridWidth m * gridHeight m + 3) m e s [] []
      with _ | ⟨found, v, pa, m2⟩
    · rw [hr] at h
      simp at h
    · rw [hr] at h
      have hm2 := DFSMazeGenerator.dfsAux_grid _ m e s [] [] _ hr
      simp only [] at hm2
      cases found
      · simp at h
        rw [← h.2]
        exact hm2
      · simp at h
        rw [← h.2]
        exact hm2
  · intro p m' h
    exact BFSMazeGenerator.bfs_solveLoop_grid _ m e _ _ p m' h
  · intro p m' h
    exact AStarMazeGenerator.astar_solveLoop_grid _ m e _ _ p m' h
  · intro p m' h
    unfold prim_generator.solve at h
    rcases hr : prim_generator.solveDfs (gridWidth m * gridHeight m + 3) m e s [] [s]
      with _ | ⟨found, v, pa, m2⟩
    · rw [hr] at h
      simp at h
    · rw [hr] at h
      have hm2 := prim_generator.solveDfs_grid _ m e s [] [s] _ hr
      simp only [] at hm2
      simp at h
      rw [← h.2]
      exact hm2

/-- Witness for C6: the BFS solver on the concrete 1×3 grid returns the
grid unchanged. -/
theorem C6_witness :
    BFSMazeGenerator.solve gridRow3 (0, 0) (2, 0) = some ([], gridRow3) ∧
    gridRow3 = gridRow3 :=
  ⟨by decide, (C6_theorem gridRow3 (0, 0) (2, 0)).2.1 [] gridRow3 (by decide)⟩


/-! ## Grid cell lemmas -/

theorem set_self_getElem {α : Type} (l : List α) (n : Nat) (h : n < l.length) :
    l.set n l[n] = l := by
  apply List.ext_getElem?
  intro i
  rw [List.getElem?_set]
  split
  · next hni =>
    subst hni
    simp [List.getElem?_eq_getElem h]
  · rfl

theorem getD_set_lt {α : Type} (l : List α) (n : Nat) (a d : α) (h : n < l.length) :
    (l.set n a).getD n d = a := by
  rw [List.getD_eq_getElem?_getD, List.getElem?_set_eq_of_lt _ h, Option.getD_some]

theorem getD_set_ne {α : Type} (l : List α) (i j : Nat) (a d : α) (h : i ≠ j) :
    (l.set i a).getD j d = l.getD j d := by
  rw [List.getD_eq_getElem?_getD, List.getElem?_set_ne h, ← List.getD_eq_getElem?_getD]

theorem map_length_setCell (m : Grid) (p : Pos) (v : Nat) :
    (setCell m p v).map List.length = m.map List.length := by
  unfold setCell
  rw [List.map_set]
  by_cases hy : p.2.toNat < m.length
  · have hget : m.getD p.2.toNat [] = m[p.2.toNat] := by
      rw [List.getD_eq_getElem?_getD, List.getElem?_eq_getElem hy]
      rfl
    rw [hget, List.length_set]
    have hlt : p.2.toNat < (m.map List.length).length := by simpa using hy
    have hsame : (m.map List.length).get ⟨p.2.toNat, hlt⟩ = m[p.2.toNat].length := by
      simp
    rw [← hsame]
    exact set_self_getElem _ _ hlt
  · rw [List.set_eq_of_length_le]
    simpa using Nat.le_of_not_lt hy

theorem gridHeight_setCell (m : Grid) (p : Pos) (v : Nat) :
    gridHeight (setCell m p v) = gridHeight m := by
  unfold gridHeight setCell
  exact List.length_set m _ _

theorem gridWidth_eq_map_length (m : Grid) : gridWidth m = (m.map List.length).headD 0 := by
  cases m <;> rfl

theorem gridWidth_setCell (m : Grid) (p : Pos) (v : Nat) :
    gridWidth (setCell m p v) = gridWidth m := by
  rw [gridWidth_eq_map_length, gridWidth_eq_map_length, map_length_setCell]

theorem rectangular_setCell {m : Grid} (hrect : rectangular m) (p : Pos) (v : Nat) :
    rectangular (setCell m p v) := by
  intro row hrow
  rw [gridWidth_setCell]
  have hmem : row.length ∈ (setCell m p v).map List.length := List.mem_map_of_mem _ hrow
  rw [map_length_setCell] at hmem
  rcases List.mem_map.1 hmem with ⟨row', hrow', hlen⟩
  rw [← hlen]
  exact hrect row' hrow'

theorem cellAt_setCell_same {m : Grid} {p : Pos} (v : Nat)
    (hrect : rectangular m) (hp : inBounds (gridWidth m) (gridHeight m) p) :
    cellAt (setCell m p v) p = v := by
  obtain ⟨h1, h2, h3, h4⟩ := hp
  have hy : p.2.toNat < m.length := by
    unfold gridHeight at h4
    omega
  have hget : m.getD p.2.toNat [] = m[p.2.toNat] := by
    rw [List.getD_eq_getElem?_getD, List.getElem?_eq_getElem hy]
    rfl
  have hrowlen : m[p.2.toNat].length = gridWidth m :=
    hrect _ (List.getElem_mem hy)
  have hx : p.1.toNat < m[p.2.toNat].length := by
    rw [hrowlen]
    omega
  have hx2 : p.1.toNat < (m.getD p.2.toNat []).length := by
    rw [hget]
    exact hx
  unfold cellAt setCell
  rw [getD_set_lt m _ _ _ hy, getD_set_lt _ _ _ _ hx2]

theorem cellAt_setCell_ne {m : Grid} {p q : Pos} (v : Nat) (hpq : q ≠ p)
    (hp : inBounds (gridWidth m) (gridHeight m) p)
    (hq : inBounds (gridWidth m) (gridHeight m) q) :
    cellAt (setCell m p v) q = cellAt m q := by
  obtain ⟨hp1, hp2, hp3, hp4⟩ := hp
  obtain ⟨hq1, hq2, hq3, hq4⟩ := hq
  unfold cellAt setCell
  by_cases hyy : p.2.toNat = q.2.toNat
  · have hxx : p.1.toNat ≠ q.1.toNat := by
      have hd : q.1 ≠ p.1 ∨ q.2 ≠ p.2 := by
        by_contra hc
        push_neg at hc
        exact hpq (Prod.ext hc.1 hc.2)
      rcases hd with hd | hd
      · omega
      · omega
    have hy : p.2.toNat < m.length := by
      unfold gridHeight at hp4
      omega
    rw [← hyy, getD_set_lt m _ _ _ hy, getD_set_ne _ _ _ _ _ hxx]
  · rw [getD_set_ne _ _ _ _ _ hyy]

theorem cellAt_setCell_cases (m : Grid) (p q : Pos) (v : Nat) :
    cellAt (setCell m p v) q = cellAt m q ∨ cellAt (setCell m p v) q = v := by
  unfold cellAt setCell
  by_cases hy : p.2.toNat < m.length
  · by_cases hyy : p.2.toNat = q.2.toNat
    · rw [← hyy, getD_set_lt m _ _ _ hy]
      by_cases hxx : p.1.toNat = q.1.toNat
      · by_cases hx : p.1.toNat < (m.getD p.2.toNat []).length
        · right
          rw [← hxx, getD_set_lt _ _ _ _ hx]
        · left
          rw [← hxx, List.getD_eq_default _ _ (by rw [List.length_set]; omega),
            List.getD_eq_default _ _ (by omega)]
      · left
        rw [getD_set_ne _ _ _ _ _ hxx]
    · left
      rw [getD_set_ne _ _ _ _ _ hyy]
  · left
    rw [List.set_eq_of_length_le (Nat.le_of_not_lt hy)]

/-! ## Monotone carving -/

/-- `m'` is obtained from `m` by clearing some cells to `0` (and nothing
else): the shape is unchanged and every cell is either unchanged or `0`. -/
def Carved (m m' : Grid) : Prop :=
  m'.map List.length = m.map List.length ∧
  ∀ p : Pos, cellAt m' p = cellAt m p ∨ cellAt m' p = 0

theorem Carved.refl (m : Grid) : Carved m m := ⟨Eq.refl _, fun _ => Or.inl (Eq.refl _)⟩

theorem Carved.trans {m₁ m₂ m₃ : Grid} (h12 : Carved m₁ m₂) (h23 : Carved m₂ m₃) :
    Carved m₁ m₃ := by
  refine ⟨h23.1.trans h12.1, fun p => ?_⟩
  rcases h23.2 p with h | h
  · rw [h]
    exact h12.2 p
  · exact Or.inr h

theorem Carved.setCell_zero (m : Grid) (p : Pos) : Carved m (setCell m p 0) :=
  ⟨map_length_setCell m p 0, fun q => cellAt_setCell_cases m p q 0⟩

theorem Carved.gridWidth_eq {m m' : Grid} (h : Carved m m') : gridWidth m' = gridWidth m := by
  rw [gridWidth_eq_map_length, gridWidth_eq_map_length, h.1]

theorem Carved.gridHeight_eq {m m' : Grid} (h : Carved m m') : gridHeight m' = gridHeight m := by
  have := congrArg List.length h.1
  simpa [gridHeight] using this

theorem Carved.rectangular {m m' : Grid} (h : Carved m m') (hrect : rectangular m) :
    rectangular m' := by
  intro row hrow
  rw [h.gridWidth_eq]
  have hmem : row.length ∈ m'.map List.length := List.mem_map_of_mem _ hrow
  rw [h.1] at hmem
  rcases List.mem_map.1 hmem with ⟨row', hrow', hlen⟩
  rw [← hlen]
  exact hrect row' hrow'

/-- The number of wall cells of a grid. -/
def wallCount (m : Grid) : Nat :=
  ((allCells (gridWidth m) (gridHeight m)).filter fun p => cellAt m p == 1).length

theorem Carved.wallCount_mono {m m' : Grid} (h : Carved m m') : wallCount m' ≤ wallCount m := by
  unfold wallCount
  rw [h.gridWidth_eq, h.gridHeight_eq, ← List.countP_eq_length_filter,
    ← List.countP_eq_length_filter]
  refine List.countP_mono_left fun p _ hp => ?_
  rcases h.2 p with hc | hc
  · rwa [hc] at hp
  · rw [hc] at hp
    exact absurd hp (by simp)

theorem Carved.wallCount_lt {m m' : Grid} (h : Carved m m') {q : Pos}
    (hq : inBounds (gridWidth m) (gridHeight m) q)
    (h1 : cellAt m q = 1) (h0 : cellAt m' q = 0) : wallCount m' < wallCount m := by
  unfold wallCount
  rw [h.gridWidth_eq, h.gridHeight_eq, ← List.countP_eq_length_filter,
    ← List.countP_eq_length_filter]
  refine countP_lt_of_witness _ _ _ ?_ ⟨q, mem_allCells.2 hq, ?_, ?_⟩
  · intro p _ hp
    rcases h.2 p with hc | hc
    · rwa [hc] at hp
    · rw [hc] at hp
      exact absurd hp (by simp)
  · simp [h0]
  · simp [h1]

/-! ## Shuffle is a permutation -/

theorem pickNth_perm :
    ∀ (l : List α) (k : Nat) (x : α) (rest : List α),
      pickNth l k = some (x, rest) → l.Perm (x :: rest) := by
  intro l
  induction l with
  | nil => intro k x rest h; simp [pickNth] at h
  | cons a as ih =>
    intro k x rest h
    match k with
    | 0 =>
      simp [pickNth] at h
      rw [h.1, h.2]
    | k + 1 =>
      rw [pickNth] at h
      match hr : pickNth as k with
      | none => rw [hr] at h; simp at h
      | some (y, ys) =>
        rw [hr] at h
        simp at h
        rw [← h.1, ← h.2]
        exact (List.Perm.cons a (ih k y ys hr)).trans (List.Perm.swap y a ys)

theorem pickNth_isSome :
    ∀ (l : List α) (k : Nat), k < l.length → ∃ x rest, pickNth l k = some (x, rest) := by
  intro l
  induction l with
  | nil => intro k h; simp at h
  | cons a as ih =>
    intro k h
    match k with
    | 0 => exact ⟨a, as, rfl⟩
    | k + 1 =>
      have hk : k < as.length := by simpa using h
      rcases ih k hk with ⟨x, rest, hr⟩
      exact ⟨x, a :: rest, by rw [pickNth, hr]⟩

theorem shuffleAux_perm :
    ∀ (fuel : Nat) (r : Rng) (l : List α), l.length ≤ fuel →
      (shuffleAux fuel r l).1.Perm l := by
  intro fuel
  induction fuel with
  | zero =>
    intro r l hl
    have : l = [] := List.length_eq_zero.1 (Nat.le_zero.1 hl)
    subst this
    exact List.Perm.refl _
  | succ fuel ih =>
    intro r l hl
    match l with
    | [] => simp [shuffleAux]
    | a :: as =>
      rw [shuffleAux]
      have hlen : (drawNat r (a :: as).length).1 < (a :: as).length :=
        Nat.mod_lt _ (by simp)
      rcases pickNth_isSome _ _ hlen with ⟨x, rest, hr⟩
      rw [hr]
      have hperm := pickNth_perm _ _ _ _ hr
      have hrest : rest.length ≤ fuel := by
        have hlen2 : (a :: as).length = (x :: rest).length := hperm.length_eq
        simp only [List.length_cons] at hlen2 hl
        omega
      exact ((ih _ rest hrest).cons x).trans hperm.symm

theorem shuffle_perm (r : Rng) (l : List α) : (shuffle r l).1.Perm l :=
  shuffleAux_perm l.length r l le_rfl

theorem shuffle_dirs2_mem (r : Rng) {d : Int × Int} (hd : d ∈ (shuffle r dirs2).1) :
    d ∈ dirs2 := (shuffle_perm r dirs2).mem_iff.1 hd

/-! ## Fuel sufficiency: the DFS generator -/

theorem length_allCells (w h : Nat) : (allCells w h).length = w * h := by
  unfold allCells
  rw [List.length_flatMap]
  have hmap : List.map (List.length ∘ fun y => (List.range w).map
      fun x => (Int.ofNat x, Int.ofNat y)) (List.range h) = List.map (fun _ => w) (List.range h) := by
    refine List.map_congr_left fun y _ => ?_
    simp
  rw [hmap]
  simp [Nat.mul_comm]

theorem wallCount_le (m : Grid) : wallCount m ≤ gridWidth m * gridHeight m := by
  unfold wallCount
  calc ((allCells (gridWidth m) (gridHeight m)).filter _).length
      ≤ (allCells (gridWidth m) (gridHeight m)).length := List.length_filter_le _ _
    _ = gridWidth m * gridHeight m := length_allCells _ _

theorem rectangular_mkMaze (w h : Nat) : rectangular (mkMaze w h) := by
  intro row hrow
  unfold mkMaze at hrow
  have := List.eq_of_mem_replicate hrow
  subst this
  cases h with
  | zero => simp [mkMaze] at hrow
  | succ h =>
    show _ = gridWidth (mkMaze w (h + 1))
    unfold mkMaze gridWidth
    rw [List.replicate_succ]
    simp

theorem gridHeight_mkMaze (w h : Nat) : gridHeight (mkMaze w h) = h := by
  simp [mkMaze, gridHeight]

theorem gridWidth_mkMaze (w h : Nat) (hh : 1 ≤ h) : gridWidth (mkMaze w h) = w := by
  cases h with
  | zero => omega
  | succ h =>
    unfold mkMaze gridWidth
    rw [List.replicate_succ]
    simp

theorem cellAt_mkMaze (w h : Nat) (p : Pos) : cellAt (mkMaze w h) p = 1 := by
  unfold cellAt mkMaze
  have hrow : (List.replicate h (List.replicate w 1) : Grid).getD p.2.toNat [] =
        List.replicate w 1 ∨
      (List.replicate h (List.replicate w 1) : Grid).getD p.2.toNat [] = [] := by
    by_cases hy : p.2.toNat < h
    · left
      rw [List.getD_eq_getElem?_getD, List.getElem?_eq_getElem (by simpa using hy)]
      simp
    · right
      rw [List.getD_eq_default _ _ (by simpa using Nat.le_of_not_lt hy)]
  rcases hrow with hrow | hrow <;> rw [hrow]
  · by_cases hx : p.1.toNat < w
    · rw [List.getD_eq_getElem?_getD, List.getElem?_eq_getElem (by simpa using hx)]
      simp
    · rw [List.getD_eq_default _ _ (by simpa using Nat.le_of_not_lt hx)]
  · rw [List.getD_eq_default _ _ (by simp)]

theorem dirs2_cases {d : Int × Int} (hd : d ∈ dirs2) :
    d = (0, 2) ∨ d = (2, 0) ∨ d = (0, -2) ∨ d = (-2, 0) := by
  simpa [dirs2] using hd

theorem mid_inBounds {w h : Nat} {x y : Int} {d : Int × Int} (hd : d ∈ dirs2)
    (hxy : inBounds w h (x, y)) (ht : inBounds w h (x + d.1, y + d.2)) :
    inBounds w h (x + d.1 / 2, y + d.2 / 2) := by
  obtain ⟨a1, a2, a3, a4⟩ := hxy
  obtain ⟨b1, b2, b3, b4⟩ := ht
  simp only at a1 a2 a3 a4 b1 b2 b3 b4
  rcases dirs2_cases hd with rfl | rfl | rfl | rfl <;>
    exact ⟨by simp <;> omega, by simp <;> omega, by simp <;> omega, by simp <;> omega⟩

theorem mid_ne_target {x y : Int} {d : Int × Int} (hd : d ∈ dirs2) :
    (x + d.1 / 2, y + d.2 / 2) ≠ (x + d.1, y + d.2) := by
  rcases dirs2_cases hd with rfl | rfl | rfl | rfl <;>
    (intro hc; rw [Prod.mk.injEq] at hc; omega)

theorem wallCount_pos {m : Grid} {p : Pos}
    (hp : inBounds (gridWidth m) (gridHeight m) p) (hcell : cellAt m p = 1) :
    0 < wallCount m := by
  unfold wallCount
  exact List.length_pos.2 (List.ne_nil_of_mem
    (List.mem_filter.2 ⟨mem_allCells.2 hp, by simp [hcell]⟩))

theorem DFSMazeGenerator.carveDirs_some (w h fuel : Nat)
    (recur : Rng → Int → Int → Grid → Option (Grid × Rng))
    (hrec : ∀ (r : Rng) (x y : Int) (maze : Grid),
      gridWidth maze = w → gridHeight maze = h → rectangular maze →
      inBounds w h (x, y) → cellAt maze (x, y) = 1 → wallCount maze ≤ fuel →
      ∃ out, recur r x y maze = some out ∧ Carved maze out.1) :
    ∀ (ds : List (Int × Int)) (r : Rng) (x y : Int) (maze : Grid),
      (∀ d ∈ ds, d ∈ dirs2) →
      gridWidth maze = w → gridHeight maze = h → rectangular maze →
      inBounds w h (x, y) → wallCount maze ≤ fuel →
      ∃ out, DFSMazeGenerator.carveDirs recur w h x y r maze ds = some out ∧
        Carved maze out.1 := by
  intro ds
  induction ds with
  | nil =>
    intro r x y maze _ _ _ _ _ _
    exact ⟨(maze, r), rfl, Carved.refl maze⟩
  | cons d rest ih =>
    intro r x y maze hds hgw hgh hrect hxy hwc
    match d with
    | (dx, dy) =>
      rw [DFSMazeGenerator.carveDirs]
      by_cases hg : inBounds w h (x + dx, y + dy) ∧ cellAt maze (x + dx, y + dy) = 1
      · rw [if_pos hg]
        dsimp only
        have hdd : ((dx, dy) : Int × Int) ∈ dirs2 := hds _ (List.mem_cons_self _ _)
        have hcar2 : Carved maze (setCell maze (x + dx / 2, y + dy / 2) 0) :=
          Carved.setCell_zero maze _
        have hgw2 : gridWidth (setCell maze (x + dx / 2, y + dy / 2) 0) = w := by
          rw [gridWidth_setCell, hgw]
        have hgh2 : gridHeight (setCell maze (x + dx / 2, y + dy / 2) 0) = h := by
          rw [gridHeight_setCell, hgh]
        have hrect2 : rectangular (setCell maze (x + dx / 2, y + dy / 2) 0) :=
          rectangular_setCell hrect _ _
        have hcell2 : cellAt (setCell maze (x + dx / 2, y + dy / 2) 0) (x + dx, y + dy) = 1 := by
          rw [cellAt_setCell_ne 0 (mid_ne_target hdd).symm
            (by rw [hgw, hgh]; exact mid_inBounds hdd hxy hg.1)
            (by rw [hgw, hgh]; exact hg.1)]
          exact hg.2
        have hwc2 : wallCount (setCell maze (x + dx / 2, y + dy / 2) 0) ≤ fuel :=
          le_trans hcar2.wallCount_mono hwc
        obtain ⟨out1, hout1, hcar3⟩ :=
          hrec r (x + dx) (y + dy) _ hgw2 hgh2 hrect2 hg.1 hcell2 hwc2
        rcases out1 with ⟨mz3, r3⟩
        rw [hout1]
        have hwc3 : wallCount mz3 ≤ fuel := le_trans hcar3.wallCount_mono hwc2
        obtain ⟨out, hout, hcar4⟩ := ih r3 x y mz3
          (fun d' hd' => hds d' (List.mem_cons_of_mem _ hd'))
          (by rw [hcar3.gridWidth_eq, hgw2]) (by rw [hcar3.gridHeight_eq, hgh2])
          (hcar3.rectangular hrect2) hxy hwc3
        refine ⟨out, ?_, (hcar2.trans hcar3).trans hcar4⟩
        exact hout
      · rw [if_neg hg]
        exact ih r x y maze (fun d' hd' => hds d' (List.mem_cons_of_mem _ hd'))
          hgw hgh hrect hxy hwc

theorem DFSMazeGenerator.carvePath_some :
    ∀ (fuel w h : Nat) (r : Rng) (x y : Int) (maze : Grid),
      gridWidth maze = w → gridHeight maze = h → rectangular maze →
      inBounds w h (x, y) → cellAt maze (x, y) = 1 → wallCount maze ≤ fuel →
      ∃ out, DFSMazeGenerator.carvePath fuel w h r x y maze = some out ∧
        Carved maze out.1 := by
  intro fuel
  induction fuel with
  | zero =>
    intro w h r x y maze hgw hgh hrect hxy hcell hwc
    exfalso
    have := wallCount_pos (p := (x, y)) (by rw [hgw, hgh]; exact hxy) hcell
    omega
  | succ fuel ih =>
    intro w h r x y maze hgw hgh hrect hxy hcell hwc
    rw [DFSMazeGenerator.carvePath]
    have hcar1 : Carved maze (setCell maze (x, y) 0) := Carved.setCell_zero maze _
    have hwc1 : wallCount (setCell maze (x, y) 0) < wallCount maze :=
      hcar1.wallCount_lt (by rw [hgw, hgh]; exact hxy) hcell
        (cellAt_setCell_same 0 hrect (by rw [hgw, hgh]; exact hxy))
    obtain ⟨out, hout, hcarv⟩ := DFSMazeGenerator.carveDirs_some w h fuel _
      (fun r' x' y' mz hg1 hg2 hg3 hg4 hg5 hg6 => ih w h r' x' y' mz hg1 hg2 hg3 hg4 hg5 hg6)
      (shuffle r dirs2).1 (shuffle r dirs2).2 x y (setCell maze (x, y) 0)
      (fun d hd => shuffle_dirs2_mem r hd)
      (by rw [gridWidth_setCell, hgw]) (by rw [gridHeight_setCell, hgh])
      (rectangular_setCell hrect _ _) hxy (by omega)
    exact ⟨out, hout, hcar1.trans hcarv⟩

theorem DFSMazeGenerator.dfs_generate_some (r : Rng) (w h : Nat) (hw : 1 ≤ w) (hh : 1 ≤ h) :
    ∃ out, DFSMazeGenerator.generate r w h = some out ∧
      gridWidth out.1 = w ∧ gridHeight out.1 = h ∧ Carved (mkMaze w h) out.1 := by
  unfold DFSMazeGenerator.generate
  have hx : randrange r 0 w 2 =
      some ((0 + 2 * ((r 0 % ((w + 1) / 2) : Nat) : Int)), fun i => r (i + 1)) := by
    unfold randrange drawNat
    have hn : (((w : Int) - 0 + 2 - 1) / 2).toNat = (w + 1) / 2 := by omega
    rw [hn, if_neg (by omega)]
  rw [hx]
  dsimp only
  have hy : randrange (fun i => r (i + 1)) 0 h 2 =
      some ((0 + 2 * (((fun i => r (i + 1)) 0 % ((h + 1) / 2) : Nat) : Int)),
        fun i => (fun j => r (j + 1)) (i + 1)) := by
    unfold randrange drawNat
    have hn : (((h : Int) - 0 + 2 - 1) / 2).toNat = (h + 1) / 2 := by omega
    rw [hn, if_neg (by omega)]
  rw [hy]
  dsimp only
  have hsb : inBounds w h
      ((0 + 2 * ((r 0 % ((w + 1) / 2) : Nat) : Int)),
        (0 + 2 * ((r 1 % ((h + 1) / 2) : Nat) : Int))) := by
    have h1 : r 0 % ((w + 1) / 2) < (w + 1) / 2 := Nat.mod_lt _ (by omega)
    have h2 : r 1 % ((h + 1) / 2) < (h + 1) / 2 := Nat.mod_lt _ (by omega)
    refine ⟨by omega, by simp only [] <;> omega, by omega, by simp only [] <;> omega⟩
  obtain ⟨out, hout, hcarv⟩ := DFSMazeGenerator.carvePath_some (w * h + 1) w h _ _ _ (mkMaze w h)
    (gridWidth_mkMaze w h hh) (gridHeight_mkMaze w h) (rectangular_mkMaze w h)
    hsb (cellAt_mkMaze w h _)
    (by
      have := wallCount_le (mkMaze w h)
      rw [gridWidth_mkMaze w h hh, gridHeight_mkMaze w h] at this
      omega)
  refine ⟨out, hout, ?_, ?_, hcarv⟩
  · rw [hcarv.gridWidth_eq, gridWidth_mkMaze w h hh]
  · rw [hcarv.gridHeight_eq, gridHeight_mkMaze w h]

/-! ## Fuel sufficiency: the BFS generator -/

theorem newCount_cons_lt {P acc : List Pos} {q : Pos} (hqP : q ∈ P) (hq : q ∉ acc) :
    newCount P (q :: acc) < newCount P acc := by
  unfold newCount
  rw [← List.countP_eq_length_filter, ← List.countP_eq_length_filter]
  refine countP_lt_of_witness P _ _ ?_ ⟨q, hqP, ?_, ?_⟩
  · intro a _ hpa
    have ha : a ∉ q :: acc := by simpa using hpa
    have : a ∉ acc := fun hmem => ha (List.mem_cons_of_mem _ hmem)
    simpa using this
  · simp
  · simpa using hq

theorem newCount_cons_le (P acc : List Pos) (q : Pos) :
    newCount P (q :: acc) ≤ newCount P acc := by
  unfold newCount
  rw [← List.countP_eq_length_filter, ← List.countP_eq_length_filter]
  refine List.countP_mono_left fun a _ hpa => ?_
  have ha : a ∉ q :: acc := by simpa using hpa
  have : a ∉ acc := fun hmem => ha (List.mem_cons_of_mem _ hmem)
  simpa using this

theorem BFSMazeGenerator.genDirs_measure (w h : Nat) (x y : Int) :
    ∀ (ds : List (Int × Int)) (maze : Grid) (queue visited : List Pos),
      (BFSMazeGenerator.genDirs w h x y (maze, queue, visited) ds).2.1.length +
          newCount (allCells w h)
            (BFSMazeGenerator.genDirs w h x y (maze, queue, visited) ds).2.2 ≤
        queue.length + newCount (allCells w h) visited := by
  intro ds
  induction ds with
  | nil => intro maze queue visited; exact le_rfl
  | cons d rest ih =>
    intro maze queue visited
    match d with
    | (dx, dy) =>
      rw [BFSMazeGenerator.genDirs]
      by_cases hg : inBounds w h (x + dx, y + dy) ∧ (x + dx, y + dy) ∉ visited
      · rw [if_pos hg]
        have hlt : newCount (allCells w h) ((x + dx, y + dy) :: visited) <
            newCount (allCells w h) visited :=
          newCount_cons_lt (mem_allCells.2 hg.1) hg.2
        have := ih (setCell maze (x + dx / 2, y + dy / 2) 0) (queue ++ [(x + dx, y + dy)])
          ((x + dx, y + dy) :: visited)
        rw [List.length_append] at this
        simp only [List.length_cons, List.length_nil] at this
        omega
      · rw [if_neg hg]
        exact ih maze queue visited

theorem BFSMazeGenerator.bfs_genLoop_some :
    ∀ (fuel : Nat) (r : Rng) (w h : Nat) (maze : Grid) (queue visited : List Pos),
      queue.length + newCount (allCells w h) visited < fuel →
      ∃ g, BFSMazeGenerator.genLoop fuel r w h maze queue visited = some g := by
  intro fuel
  induction fuel with
  | zero => intro r w h maze queue visited hm; omega
  | succ fuel ih =>
    intro r w h maze queue visited hm
    match queue with
    | [] => exact ⟨maze, rfl⟩
    | (x, y) :: queue =>
      rw [BFSMazeGenerator.genLoop]
      have hme := BFSMazeGenerator.genDirs_measure w h x y (shuffle r dirs2).1
        (setCell maze (x, y) 0) queue visited
      simp only [List.length_cons] at hm
      exact ih (shuffle r dirs2).2 w h _ _ _ (by omega)

theorem BFSMazeGenerator.bfs_generate_some (r : Rng) (w h : Nat) :
    ∃ g, BFSMazeGenerator.generate r w h = some g := by
  unfold BFSMazeGenerator.generate
  refine BFSMazeGenerator.bfs_genLoop_some _ r w h _ _ _ ?_
  have h1 : newCount (allCells w h) [((1 : Int), (1 : Int))] ≤ (allCells w h).length :=
    newCount_le_length _ _
  rw [length_allCells] at h1
  simp only [List.length_cons, List.length_nil]
  omega

/-! ## Fuel sufficiency: the solvers -/

theorem newCount_anti {P acc acc' : List Pos} (h : acc ⊆ acc') :
    newCount P acc' ≤ newCount P acc := by
  unfold newCount
  rw [← List.countP_eq_length_filter, ← List.countP_eq_length_filter]
  refine List.countP_mono_left fun a _ hpa => ?_
  have ha : a ∉ acc' := by simpa using hpa
  have : a ∉ acc := fun hmem => ha (h hmem)
  simpa using this

theorem newCount_pos {P acc : List Pos} {q : Pos} (hqP : q ∈ P) (hq : q ∉ acc) :
    0 < newCount P acc := by
  unfold newCount
  exact List.length_pos.2 (List.ne_nil_of_mem (List.mem_filter.2 ⟨hqP, by simpa using hq⟩))

theorem BFSMazeGenerator.solveDirs_measure (m : Grid) (x y : Int) (path : List Pos) :
    ∀ (ds : List (Int × Int)) (queue : List (Pos × List Pos)) (visited : List Pos),
      (BFSMazeGenerator.solveDirs m x y path (queue, visited) ds).1.length +
          newCount (allCells (gridWidth m) (gridHeight m))
            (BFSMazeGenerator.solveDirs m x y path (queue, visited) ds).2 ≤
        queue.length + newCount (allCells (gridWidth m) (gridHeight m)) visited := by
  intro ds
  induction ds with
  | nil => intro queue visited; exact le_rfl
  | cons d rest ih =>
    intro queue visited
    match d with
    | (dx, dy) =>
      rw [BFSMazeGenerator.solveDirs]
      by_cases hg : inBounds (gridWidth m) (gridHeight m) (x + dx, y + dy) ∧
          cellAt m (x + dx, y + dy) = 0 ∧ (x + dx, y + dy) ∉ visited
      · rw [if_pos hg]
        have hlt : newCount (allCells (gridWidth m) (gridHeight m))
            ((x + dx, y + dy) :: visited) <
            newCount (allCells (gridWidth m) (gridHeight m)) visited :=
          newCount_cons_lt (mem_allCells.2 hg.1) hg.2.2
        have := ih (queue ++ [((x + dx, y + dy), path ++ [(x + dx, y + dy)])])
          ((x + dx, y + dy) :: visited)
        rw [List.length_append] at this
        simp only [List.length_cons, List.length_nil] at this
        omega
      · rw [if_neg hg]
        exact ih queue visited

theorem BFSMazeGenerator.bfs_solveLoop_some :
    ∀ (fuel : Nat) (m : Grid) (endP : Pos) (queue : List (Pos × List Pos))
      (visited : List Pos),
      queue.length + newCount (allCells (gridWidth m) (gridHeight m)) visited < fuel →
      ∃ res, BFSMazeGenerator.solveLoop fuel m endP queue visited = some res := by
  intro fuel
  induction fuel with
  | zero => intro m endP queue visited hm; omega
  | succ fuel ih =>
    intro m endP queue visited hm
    match queue with
    | [] => exact ⟨([], m), rfl⟩
    | ((x, y), path) :: queue =>
      rw [BFSMazeGenerator.solveLoop]
      by_cases he : (x, y) = endP
      · rw [if_pos he]
        exact ⟨(path, m), rfl⟩
      · rw [if_neg he]
        have hme := BFSMazeGenerator.solveDirs_measure m x y path dirs1 queue visited
        simp only [List.length_cons] at hm
        exact ih m endP _ _ (by omega)

theorem BFSMazeGenerator.bfs_solve_some (m : Grid) (s e : Pos) :
    ∃ res, BFSMazeGenerator.solve m s e = some res := by
  unfold BFSMazeGenerator.solve
  refine BFSMazeGenerator.bfs_solveLoop_some _ m e _ _ ?_
  have h1 : newCount (allCells (gridWidth m) (gridHeight m)) [s] ≤
      (allCells (gridWidth m) (gridHeight m)).length := newCount_le_length _ _
  rw [length_allCells] at h1
  simp only [List.length_cons, List.length_nil]
  omega

theorem extractMin_none_iff {α : Type} (lt : α → α → Prop) [DecidableRel lt] (l : List α) :
    extractMin lt l = none ↔ l = [] := by
  match l with
  | [] => simp [extractMin]
  | x :: xs =>
    rw [extractMin]
    constructor
    · intro h
      match hr : extractMin lt xs with
      | none => rw [hr] at h; simp at h
      | some mr =>
        rw [hr] at h
        by_cases hlt : lt mr.1 x <;> simp [hlt] at h
    · intro h
      simp at h

theorem extractMin_spec {α : Type} (lt : α → α → Prop) [DecidableRel lt] :
    ∀ (l : List α) (e : α) (rest : List α), extractMin lt l = some (e, rest) →
      e ∈ l ∧ (∀ x ∈ rest, x ∈ l) ∧ rest.length + 1 = l.length := by
  intro l
  induction l with
  | nil => intro e rest h; simp [extractMin] at h
  | cons x xs ih =>
    intro e rest h
    rw [extractMin] at h
    match hr : extractMin lt xs with
    | none =>
      rw [hr] at h
      have hxs : xs = [] := (extractMin_none_iff lt xs).1 hr
      simp at h
      subst hxs
      obtain ⟨rfl, rfl⟩ := h
      exact ⟨List.mem_cons_self x [], by simp, by simp⟩
    | some mr =>
      rw [hr] at h
      rcases mr with ⟨me, mrest⟩
      obtain ⟨hmem, hsub, hlen⟩ := ih me mrest hr
      dsimp only at h
      by_cases hlt : lt me x
      · rw [if_pos hlt] at h
        simp at h
        obtain ⟨rfl, rfl⟩ := h
        refine ⟨List.mem_cons_of_mem _ hmem, ?_, by simp [← hlen]⟩
        intro z hz
        rcases List.mem_cons.1 hz with rfl | hz
        · exact List.mem_cons_self _ _
        · exact List.mem_cons_of_mem _ (hsub z hz)
      · rw [if_neg hlt] at h
        simp at h
        obtain ⟨rfl, rfl⟩ := h
        exact ⟨List.mem_cons_self _ _, fun z hz => List.mem_cons_of_mem _ hz, by simp⟩

theorem AStarMazeGenerator.solveDirs_spec (m : Grid) (endP cur : Pos) (path : List Pos)
    (closed : List Pos) :
    ∀ (ds : List (Int × Int)) (openL : List (Nat × Pos × List Pos)),
      (AStarMazeGenerator.solveDirs m endP cur path closed openL ds).length ≤
          openL.length + ds.length ∧
        ∀ en ∈ AStarMazeGenerator.solveDirs m endP cur path closed openL ds,
          en ∈ openL ∨ inBounds (gridWidth m) (gridHeight m) en.2.1 := by
  intro ds
  induction ds with
  | nil =>
    intro openL
    rw [AStarMazeGenerator.solveDirs]
    exact ⟨by simp, fun en hen => Or.inl hen⟩
  | cons d rest ih =>
    intro openL
    match d with
    | (dx, dy) =>
      rw [AStarMazeGenerator.solveDirs]
      by_cases hg : inBounds (gridWidth m) (gridHeight m) (cur.1 + dx, cur.2 + dy) ∧
          cellAt m (cur.1 + dx, cur.2 + dy) = 0 ∧ (cur.1 + dx, cur.2 + dy) ∉ closed
      · rw [if_pos hg]
        obtain ⟨hlen, hmem⟩ := ih (openL ++ [(path.length + manhattan (cur.1 + dx, cur.2 + dy)
          endP, (cur.1 + dx, cur.2 + dy), path ++ [(cur.1 + dx, cur.2 + dy)])])
        constructor
        · rw [List.length_append] at hlen
          simp only [List.length_cons, List.length_nil] at hlen ⊢
          omega
        · intro en hen
          rcases hmem en hen with hmem' | hmem'
          · rcases List.mem_append.1 hmem' with hmem'' | hmem''
            · exact Or.inl hmem''
            · right
              have : en = (path.length + manhattan (cur.1 + dx, cur.2 + dy) endP,
                  (cur.1 + dx, cur.2 + dy), path ++ [(cur.1 + dx, cur.2 + dy)]) := by
                simpa using hmem''
              rw [this]
              exact hg.1
          · exact Or.inr hmem'
      · rw [if_neg hg]
        obtain ⟨hlen, hmem⟩ := ih openL
        exact ⟨by simp only [List.length_cons] at *; omega, hmem⟩

theorem AStarMazeGenerator.astar_solveLoop_some :
    ∀ (fuel : Nat) (m : Grid) (endP s : Pos) (openL : List (Nat × Pos × List Pos))
      (closed : List Pos),
      (∀ en ∈ openL, en.2.1 ∈ s :: allCells (gridWidth m) (gridHeight m)) →
      openL.length + 5 * newCount (s :: allCells (gridWidth m) (gridHeight m)) closed < fuel →
      ∃ res, AStarMazeGenerator.solveLoop fuel m endP openL closed = some res := by
  intro fuel
  induction fuel with
  | zero => intro m endP s openL closed hop hm; omega
  | succ fuel ih =>
    intro m endP s openL closed hop hm
    rw [AStarMazeGenerator.solveLoop]
    rcases hext : extractMin entryLt openL with _ | er
    · exact ⟨([], m), rfl⟩
    · rcases er with ⟨en, rest⟩
      obtain ⟨hmem, hsub, hlen⟩ := extractMin_spec entryLt openL en rest hext
      dsimp only
      by_cases h1 : en.2.1 = endP
      · rw [if_pos h1]
        exact ⟨(en.2.2, m), rfl⟩
      · rw [if_neg h1]
        by_cases h2 : en.2.1 ∈ closed
        · rw [if_pos h2]
          exact ih m endP s rest closed (fun x hx => hop x (hsub x hx)) (by omega)
        · rw [if_neg h2]
          obtain ⟨hdlen, hdmem⟩ := AStarMazeGenerator.solveDirs_spec m endP en.2.1 en.2.2
            (en.2.1 :: closed) dirs1 rest
          have hnc : newCount (s :: allCells (gridWidth m) (gridHeight m))
              (en.2.1 :: closed) <
              newCount (s :: allCells (gridWidth m) (gridHeight m)) closed :=
            newCount_cons_lt (hop en hmem) h2
          refine ih m endP s _ _ ?_ ?_
          · intro x hx
            rcases hdmem x hx with hx' | hx'
            · exact hop x (hsub x hx')
            · exact List.mem_cons_of_mem _ (mem_allCells.2 hx')
          · have h4 : dirs1.length = 4 := rfl
            rw [h4] at hdlen
            omega

theorem AStarMazeGenerator.astar_solve_some (m : Grid) (s e : Pos) :
    ∃ res, AStarMazeGenerator.solve m s e = some res := by
  unfold AStarMazeGenerator.solve
  refine AStarMazeGenerator.astar_solveLoop_some _ m e s _ _ ?_ ?_
  · intro en hen
    have : en = ((0 : Nat), s, [s]) := by simpa using hen
    rw [this]
    exact List.mem_cons_self _ _
  · have h1 : newCount (s :: allCells (gridWidth m) (gridHeight m)) [] ≤
        (s :: allCells (gridWidth m) (gridHeight m)).length := newCount_le_length _ _
    simp only [List.length_cons, length_allCells] at h1
    simp only [List.length_cons, List.length_nil]
    omega

theorem DFSMazeGenerator.getNeighbors_inBounds {m : Grid} {x y : Int} {n : Pos}
    (hn : n ∈ DFSMazeGenerator.getNeighbors m x y) :
    inBounds (gridWidth m) (gridHeight m) n := by
  unfold DFSMazeGenerator.getNeighbors at hn
  rcases List.mem_filterMap.1 hn with ⟨d, _, hd⟩
  by_cases hg : inBounds (gridWidth m) (gridHeight m) (x + d.1, y + d.2) ∧
      cellAt m (x + d.1, y + d.2) = 0
  · rw [if_pos hg] at hd
    cases hd
    exact hg.1
  · rw [if_neg hg] at hd
    cases hd

theorem DFSMazeGenerator.dfsDirs_some (fuel : Nat)
    (recur : Grid → Pos → List Pos → List Pos → Option (Bool × List Pos × List Pos × Grid))
    (m : Grid)
    (hrec : ∀ (mz : Grid) (n : Pos) (v pa : List Pos), mz = m →
      newCount (allCells (gridWidth m) (gridHeight m)) (n :: v) + 1 ≤ fuel →
      ∃ res, recur mz n v pa = some res ∧ v ⊆ res.2.1 ∧ res.2.2.2 = mz) :
    ∀ (ns : List Pos) (c : Pos) (v pa : List Pos),
      (∀ n ∈ ns, n ∈ allCells (gridWidth m) (gridHeight m)) →
      newCount (allCells (gridWidth m) (gridHeight m)) v ≤ fuel →
      ∃ res, DFSMazeGenerator.dfsDirs recur c m v pa ns = some res ∧ v ⊆ res.2.1 ∧
        res.2.2.2 = m := by
  intro ns
  induction ns with
  | nil =>
    intro c v pa _ _
    exact ⟨(false, v, pa, m), rfl, fun a ha => ha, rfl⟩
  | cons n rest ih =>
    intro c v pa hns hnc
    rw [DFSMazeGenerator.dfsDirs]
    by_cases hv : n ∉ v
    · rw [if_pos hv]
      have hnP : n ∈ allCells (gridWidth m) (gridHeight m) := hns n (List.mem_cons_self _ _)
      have hpos : 0 < newCount (allCells (gridWidth m) (gridHeight m)) v :=
        newCount_pos hnP hv
      have hlt : newCount (allCells (gridWidth m) (gridHeight m)) (n :: v) <
          newCount (allCells (gridWidth m) (gridHeight m)) v := newCount_cons_lt hnP hv
      obtain ⟨res1, hres1, hsub1, hm1⟩ := hrec m n v pa rfl (by omega)
      rcases res1 with ⟨found, v1, pa1, m1⟩
      rw [hres1]
      simp only at hm1
      subst m1
      cases found
      · have hnc1 : newCount (allCells (gridWidth m) (gridHeight m)) v1 ≤ fuel :=
          le_trans (newCount_anti hsub1) hnc
        obtain ⟨res, hres, hsub, hmr⟩ := ih c v1 pa1
          (fun n' hn' => hns n' (List.mem_cons_of_mem _ hn')) hnc1
        exact ⟨res, hres, fun a ha => hsub (hsub1 ha), hmr⟩
      · exact ⟨(true, v1, pa1 ++ [c], m), rfl, hsub1, rfl⟩
    · rw [if_neg hv]
      exact ih c v pa (fun n' hn' => hns n' (List.mem_cons_of_mem _ hn')) hnc

theorem DFSMazeGenerator.dfsAux_some :
    ∀ (fuel : Nat) (m : Grid) (e c : Pos) (v pa : List Pos),
      newCount (allCells (gridWidth m) (gridHeight m)) (c :: v) + 1 ≤ fuel →
      ∃ res, DFSMazeGenerator.dfsAux fuel m e c v pa = some res ∧ v ⊆ res.2.1 ∧
        res.2.2.2 = m := by
  intro fuel
  induction fuel with
  | zero => intro m e c v pa h; omega
  | succ fuel ih =>
    intro m e c v pa hnc
    rw [DFSMazeGenerator.dfsAux]
    by_cases he : c = e
    · rw [if_pos he]
      exact ⟨(true, v, pa ++ [c], m), rfl, fun a ha => ha, rfl⟩
    · rw [if_neg he]
      have hdd := DFSMazeGenerator.dfsDirs_some fuel
        (fun mz n v' p' => DFSMazeGenerator.dfsAux fuel mz e n v' p') m
        (fun mz n v' pa' hmz hb => by
          subst hmz
          obtain ⟨res, h1, h2, h3⟩ := ih mz e n v' pa' hb
          exact ⟨res, h1, h2, h3⟩)
        (DFSMazeGenerator.getNeighbors m c.1 c.2) c (c :: v) pa
        (fun n hn => mem_allCells.2 (DFSMazeGenerator.getNeighbors_inBounds hn))
        (by omega)
      obtain ⟨res, hres, hsub, hmr⟩ := hdd
      exact ⟨res, hres, fun a ha => hsub (List.mem_cons_of_mem _ ha), hmr⟩

theorem DFSMazeGenerator.dfs_solve_some (m : Grid) (s e : Pos) :
    ∃ res, DFSMazeGenerator.solve m s e = some res := by
  unfold DFSMazeGenerator.solve
  have h1 : newCount (allCells (gridWidth m) (gridHeight m)) (s :: []) ≤
      (allCells (gridWidth m) (gridHeight m)).length := newCount_le_length _ _
  rw [length_allCells] at h1
  obtain ⟨res, hres, _, _⟩ := DFSMazeGenerator.dfsAux_some
    (gridWidth m * gridHeight m + 3) m e s [] [] (by omega)
  rw [hres]
  rcases res with ⟨found, v, pa, m'⟩
  cases found
  · exact ⟨([], m'), by simp⟩
  · exact ⟨(pa.reverse, m'), by simp⟩

theorem prim_generator.solveDfsDirs_some (fuel : Nat)
    (recur : Grid → Pos → List Pos → List Pos → Option (Bool × List Pos × List Pos × Grid))
    (m : Grid)
    (hrec : ∀ (mz : Grid) (n : Pos) (v pa : List Pos), mz = m →
      newCount (allCells (gridWidth m) (gridHeight m)) (n :: v) + 1 ≤ fuel →
      ∃ res, recur mz n v pa = some res ∧ v ⊆ res.2.1 ∧ res.2.2.2 = mz) :
    ∀ (ds : List (Int × Int)) (cur : Pos) (v pa : List Pos),
      newCount (allCells (gridWidth m) (gridHeight m)) v ≤ fuel →
      ∃ res, prim_generator.solveDfsDirs recur cur m v pa ds = some res ∧ v ⊆ res.2.1 ∧
        res.2.2.2 = m := by
  intro ds
  induction ds with
  | nil =>
    intro cur v pa _
    exact ⟨(false, v, pa, m), rfl, fun a ha => ha, rfl⟩
  | cons d rest ih =>
    intro cur v pa hnc
    match d with
    | (dx, dy) =>
      rw [prim_generator.solveDfsDirs]
      by_cases hg : inBounds (gridWidth m) (gridHeight m) (cur.1 + dx, cur.2 + dy) ∧
          cellAt m (cur.1 + dx, cur.2 + dy) = 0 ∧ (cur.1 + dx, cur.2 + dy) ∉ v
      · rw [if_pos hg]
        have hnP : (cur.1 + dx, cur.2 + dy) ∈ allCells (gridWidth m) (gridHeight m) :=
          mem_allCells.2 hg.1
        have hpos : 0 < newCount (allCells (gridWidth m) (gridHeight m)) v :=
          newCount_pos hnP hg.2.2
        obtain ⟨res1, hres1, hsub1, hm1⟩ :=
          hrec m (cur.1 + dx, cur.2 + dy) v (pa ++ [(cur.1 + dx, cur.2 + dy)]) rfl
            (by have := newCount_cons_lt hnP hg.2.2; omega)
        rcases res1 with ⟨found, v1, pa1, m1⟩
        rw [hres1]
        simp only at hm1
        subst m1
        cases found
        · have hnc1 : newCount (allCells (gridWidth m) (gridHeight m)) v1 ≤ fuel :=
            le_trans (newCount_anti hsub1) hnc
          obtain ⟨res, hres, hsub, hmr⟩ := ih cur v1 pa1.dropLast hnc1
          exact ⟨res, hres, fun a ha => hsub (hsub1 ha), hmr⟩
        · exact ⟨(true, v1, pa1, m), rfl, hsub1, rfl⟩
      · rw [if_neg hg]
        exact ih cur v pa hnc

theorem prim_generator.solveDfs_some :
    ∀ (fuel : Nat) (m : Grid) (e cur : Pos) (v pa : List Pos),
      newCount (allCells (gridWidth m) (gridHeight m)) (cur :: v) + 1 ≤ fuel →
      ∃ res, prim_generator.solveDfs fuel m e cur v pa = some res ∧ v ⊆ res.2.1 ∧
        res.2.2.2 = m := by
  intro fuel
  induction fuel with
  | zero => intro m e cur v pa h; omega
  | succ fuel ih =>
    intro m e cur v pa hnc
    rw [prim_generator.solveDfs]
    by_cases he : cur = e
    · rw [if_pos he]
      exact ⟨(true, v, pa, m), rfl, fun a ha => ha, rfl⟩
    · rw [if_neg he]
      obtain ⟨res, hres, hsub, hmr⟩ := prim_generator.solveDfsDirs_some fuel
        (fun mz n v' p' => prim_generator.solveDfs fuel mz e n v' p') m
        (fun mz n v' pa' hmz hb => by
          subst hmz
          obtain ⟨res, h1, h2, h3⟩ := ih mz e n v' pa' hb
          exact ⟨res, h1, h2, h3⟩)
        dirs1 cur (cur :: v) pa (by omega)
      exact ⟨res, hres, fun a ha => hsub (List.mem_cons_of_mem _ ha), hmr⟩

theorem prim_generator.pg_solve_some (m : Grid) (s e : Pos) :
    ∃ res, prim_generator.solve m s e = some res := by
  unfold prim_generator.solve
  have h1 : newCount (allCells (gridWidth m) (gridHeight m)) (s :: []) ≤
      (allCells (gridWidth m) (gridHeight m)).length := newCount_le_length _ _
  rw [length_allCells] at h1
  obtain ⟨res, hres, _, _⟩ := prim_generator.solveDfs_some
    (gridWidth m * gridHeight m + 3) m e s [] [s] (by omega)
  rw [hres]
  rcases res with ⟨found, v, pa, m'⟩
  exact ⟨(pa, m'), rfl⟩

/-! ## Fuel sufficiency: the Prim generator of maze_algorithms.py -/

theorem pickNth_length {l : List α} {k : Nat} {x : α} {rest : List α}
    (h : pickNth l k = some (x, rest)) : rest.length + 1 = l.length := by
  have := (pickNth_perm l k x rest h).length_eq
  simp at this
  omega

theorem pickNth_mem {l : List α} {k : Nat} {x : α} {rest : List α}
    (h : pickNth l k = some (x, rest)) : x ∈ l ∧ ∀ z ∈ rest, z ∈ l := by
  have hp := pickNth_perm l k x rest h
  refine ⟨hp.mem_iff.2 (List.mem_cons_self _ _), fun z hz => ?_⟩
  exact hp.mem_iff.2 (List.mem_cons_of_mem _ hz)

theorem PrimMazeGenerator.addWallsUnvisited_mem {w h : Nat} {maze : Grid} {x y : Int}
    {walls : List (Pos × Pos)} {e : Pos × Pos}
    (he : e ∈ PrimMazeGenerator.addWallsUnvisited w h maze x y walls) :
    e ∈ walls ∨ ∃ d ∈ dirs2, e = ((x + d.1, y + d.2), (x, y)) ∧
      inBounds w h (x + d.1, y + d.2) := by
  unfold PrimMazeGenerator.addWallsUnvisited at he
  rcases List.mem_append.1 he with he | he
  · exact Or.inl he
  · rcases List.mem_filterMap.1 he with ⟨d, hd, hde⟩
    by_cases hg : inBounds w h (x + d.1, y + d.2) ∧ cellAt maze (x + d.1, y + d.2) = 1
    · rw [if_pos hg] at hde
      cases hde
      exact Or.inr ⟨d, hd, rfl, hg.1⟩
    · rw [if_neg hg] at hde
      cases hde

theorem PrimMazeGenerator.addWallsUnvisited_length {w h : Nat} {maze : Grid} {x y : Int}
    (walls : List (Pos × Pos)) :
    (PrimMazeGenerator.addWallsUnvisited w h maze x y walls).length ≤ walls.length + 4 := by
  unfold PrimMazeGenerator.addWallsUnvisited
  rw [List.length_append]
  have := List.length_filterMap_le
    (fun d : Int × Int =>
      if inBounds w h (x + d.1, y + d.2) ∧ cellAt maze (x + d.1, y + d.2) = 1 then
        some ((x + d.1, y + d.2), (x, y)) else none) dirs2
  simp only [dirs2] at this ⊢
  simp at this ⊢
  omega

theorem PrimMazeGenerator.addWalls_mem {w h : Nat} {x y : Int}
    {walls : List (Pos × Pos)} {e : Pos × Pos}
    (he : e ∈ PrimMazeGenerator.addWalls w h x y walls) :
    e ∈ walls ∨ ∃ d ∈ dirs2, e = ((x + d.1, y + d.2), (x, y)) ∧
      inBounds w h (x + d.1, y + d.2) := by
  unfold PrimMazeGenerator.addWalls at he
  rcases List.mem_append.1 he with he | he
  · exact Or.inl he
  · rcases List.mem_filterMap.1 he with ⟨d, hd, hde⟩
    by_cases hg : inBounds w h (x + d.1, y + d.2)
    · rw [if_pos hg] at hde
      cases hde
      exact Or.inr ⟨d, hd, rfl, hg⟩
    · rw [if_neg hg] at hde
      cases hde

theorem PrimMazeGenerator.addWalls_length {w h : Nat} {x y : Int}
    (walls : List (Pos × Pos)) :
    (PrimMazeGenerator.addWalls w h x y walls).length ≤ walls.length + 4 := by
  unfold PrimMazeGenerator.addWalls
  rw [List.length_append]
  have := List.length_filterMap_le
    (fun d : Int × Int =>
      if inBounds w h (x + d.1, y + d.2) then some ((x + d.1, y + d.2), (x, y)) else none) dirs2
  simp only [dirs2] at this ⊢
  simp at this ⊢
  omega

theorem dirs2_ne_zero {d : Int × Int} (hd : d ∈ dirs2) : (d.1, d.2) ≠ ((0 : Int), (0 : Int)) := by
  rcases dirs2_cases hd with rfl | rfl | rfl | rfl <;> simp

theorem PrimMazeGenerator.prim_genLoop_some :
    ∀ (fuel : Nat) (r : Rng) (w h : Nat) (maze : Grid) (walls : List (Pos × Pos)),
      gridWidth maze = w → gridHeight maze = h → rectangular maze →
      (∀ e ∈ walls, inBounds w h e.1 ∧ e.1 ≠ e.2) →
      walls.length + 5 * wallCount maze < fuel →
      ∃ g, PrimMazeGenerator.genLoop fuel r w h maze walls = some g := by
  intro fuel
  induction fuel with
  | zero => intro r w h maze walls _ _ _ _ hm; omega
  | succ fuel ih =>
    intro r w h maze walls hgw hgh hrect hinv hm
    match walls with
    | [] =>
      refine ⟨maze, ?_⟩
      rw [PrimMazeGenerator.genLoop]
      rfl
    | e0 :: walls' =>
      rw [PrimMazeGenerator.genLoop]
      rcases hpick : pickNth (e0 :: walls') (drawNat r (e0 :: walls').length).1
        with _ | ⟨⟨wp, fp⟩, rest⟩
      · exact ⟨maze, rfl⟩
      · dsimp only
        obtain ⟨hwmem, hrest⟩ := pickNth_mem hpick
        have hlen := pickNth_length hpick
        have htoP := hinv _ hwmem
        by_cases hg : inBounds w h (wp.1 + (wp.1 - fp.1), wp.2 + (wp.2 - fp.2)) ∧
            cellAt maze (wp.1 + (wp.1 - fp.1), wp.2 + (wp.2 - fp.2)) = 1
        · rw [if_pos hg]
          have hne : ((wp.1 + (wp.1 - fp.1), wp.2 + (wp.2 - fp.2)) : Pos) ≠ wp := by
            intro hc
            rw [Prod.mk.injEq] at hc
            apply htoP.2
            rcases wp with ⟨a, b⟩
            rcases fp with ⟨c, d⟩
            simp only at hc ⊢
            rw [Prod.mk.injEq]
            omega
          have hcar1 : Carved maze (setCell maze wp 0) := Carved.setCell_zero maze wp
          have hcar2 : Carved (setCell maze wp 0)
              (setCell (setCell maze wp 0) (wp.1 + (wp.1 - fp.1), wp.2 + (wp.2 - fp.2)) 0) :=
            Carved.setCell_zero _ _
          have hcar : Carved maze
              (setCell (setCell maze wp 0) (wp.1 + (wp.1 - fp.1), wp.2 + (wp.2 - fp.2)) 0) :=
            hcar1.trans hcar2
          have hgw1 : gridWidth (setCell maze wp 0) = w := by rw [gridWidth_setCell, hgw]
          have hgh1 : gridHeight (setCell maze wp 0) = h := by rw [gridHeight_setCell, hgh]
          have hrect1 : rectangular (setCell maze wp 0) := rectangular_setCell hrect _ _
          have hc1 : cellAt (setCell maze wp 0)
              (wp.1 + (wp.1 - fp.1), wp.2 + (wp.2 - fp.2)) = 1 := by
            rw [cellAt_setCell_ne 0 hne (by rw [hgw, hgh]; exact htoP.1)
              (by rw [hgw, hgh]; exact hg.1)]
            exact hg.2
          have hc0 : cellAt
              (setCell (setCell maze wp 0) (wp.1 + (wp.1 - fp.1), wp.2 + (wp.2 - fp.2)) 0)
              (wp.1 + (wp.1 - fp.1), wp.2 + (wp.2 - fp.2)) = 0 :=
            cellAt_setCell_same 0 hrect1 (by rw [hgw1, hgh1]; exact hg.1)
          have hwc : wallCount
              (setCell (setCell maze wp 0) (wp.1 + (wp.1 - fp.1), wp.2 + (wp.2 - fp.2)) 0) <
              wallCount maze :=
            hcar.wallCount_lt (by rw [hgw, hgh]; exact hg.1) hg.2 hc0
          have hawl := @PrimMazeGenerator.addWallsUnvisited_length w h
            (setCell (setCell maze wp 0) (wp.1 + (wp.1 - fp.1), wp.2 + (wp.2 - fp.2)) 0)
            (wp.1 + (wp.1 - fp.1)) (wp.2 + (wp.2 - fp.2)) rest
          refine ih _ w h _ _ (by rw [hcar.gridWidth_eq, hgw]) (by rw [hcar.gridHeight_eq, hgh])
            (hcar.rectangular hrect) ?_ ?_
          · intro e he
            rcases PrimMazeGenerator.addWallsUnvisited_mem he with he' | ⟨d, hd, rfl, hb⟩
            · exact hinv e (hrest e he')
            · refine ⟨hb, ?_⟩
              have hdz := dirs2_ne_zero hd
              intro hc
              rw [Prod.mk.injEq] at hc
              apply hdz
              rw [Prod.mk.injEq]
              omega
          · simp only [List.length_cons] at hm hlen
            omega
        · rw [if_neg hg]
          refine ih _ w h maze rest hgw hgh hrect (fun e he => hinv e (hrest e he)) ?_
          simp only [List.length_cons] at hm hlen
          omega

theorem PrimMazeGenerator.prim_generate_some (r : Rng) (w h : Nat) (hw : 3 ≤ w) (hh : 3 ≤ h) :
    ∃ g, PrimMazeGenerator.generate r w h = some g := by
  unfold PrimMazeGenerator.generate
  have hx : randrange r 1 ((w : Int) - 1) 2 =
      some ((1 + 2 * ((r 0 % ((w - 1) / 2) : Nat) : Int)), fun i => r (i + 1)) := by
    unfold randrange drawNat
    have hn : ((((w : Int) - 1) - 1 + 2 - 1) / 2).toNat = (w - 1) / 2 := by omega
    rw [hn, if_neg (by omega)]
  rw [hx]
  dsimp only
  have hy : randrange (fun i => r (i + 1)) 1 ((h : Int) - 1) 2 =
      some ((1 + 2 * (((fun i => r (i + 1)) 0 % ((h - 1) / 2) : Nat) : Int)),
        fun i => (fun j => r (j + 1)) (i + 1)) := by
    unfold randrange drawNat
    have hn : ((((h : Int) - 1) - 1 + 2 - 1) / 2).toNat = (h - 1) / 2 := by omega
    rw [hn, if_neg (by omega)]
  rw [hy]
  dsimp only
  simp only [Nat.zero_add]
  have h1 : r 0 % ((w - 1) / 2) < (w - 1) / 2 := Nat.mod_lt _ (by omega)
  have h2 : r 1 % ((h - 1) / 2) < (h - 1) / 2 := Nat.mod_lt _ (by omega)
  have hgw0 : gridWidth (setCell (mkMaze w h) ((1 + 2 * ((r 0 % ((w - 1) / 2) : Nat) : Int)),
      (1 + 2 * ((r 1 % ((h - 1) / 2) : Nat) : Int))) 0) = w := by
    rw [gridWidth_setCell, gridWidth_mkMaze w h (by omega)]
  have hgh0 : gridHeight (setCell (mkMaze w h) ((1 + 2 * ((r 0 % ((w - 1) / 2) : Nat) : Int)),
      (1 + 2 * ((r 1 % ((h - 1) / 2) : Nat) : Int))) 0) = h := by
    rw [gridHeight_setCell, gridHeight_mkMaze]
  refine PrimMazeGenerator.prim_genLoop_some _ _ w h _ _ hgw0 hgh0
    (rectangular_setCell (rectangular_mkMaze w h) _ _) ?_ ?_
  · intro e he
    rcases PrimMazeGenerator.addWalls_mem he with he' | ⟨d, hd, rfl, hb⟩
    · simp at he'
    · refine ⟨hb, ?_⟩
      have hdz := dirs2_ne_zero hd
      intro hc
      rw [Prod.mk.injEq] at hc
      apply hdz
      rw [Prod.mk.injEq]
      omega
  · have hwcb : wallCount (setCell (mkMaze w h) ((1 + 2 * ((r 0 % ((w - 1) / 2) : Nat) :
        Int)), (1 + 2 * ((r 1 % ((h - 1) / 2) : Nat) : Int))) 0) ≤ w * h := by
      have hb := wallCount_le (setCell (mkMaze w h) ((1 + 2 * ((r 0 % ((w - 1) / 2) : Nat) :
        Int)), (1 + 2 * ((r 1 % ((h - 1) / 2) : Nat) : Int))) 0)
      rw [hgw0, hgh0] at hb
      exact hb
    have hwl := @PrimMazeGenerator.addWalls_length w h
      (1 + 2 * ((r 0 % ((w - 1) / 2) : Nat) : Int))
      (1 + 2 * ((r 1 % ((h - 1) / 2) : Nat) : Int)) []
    simp only [List.length_nil] at hwl
    omega

/-! ## Fuel sufficiency: the Prim generator of prim_generator.py -/

theorem prim_generator.afc_fold_mem (w h : Nat) (maze : Grid) (x y : Int) :
    ∀ (ds : List (Int × Int)) (fr : List Pos) (e : Pos),
      e ∈ ds.foldl (fun fr d =>
        if inBounds w h (x + d.1, y + d.2) ∧ cellAt maze (x + d.1, y + d.2) = 1 ∧
            (x + d.1, y + d.2) ∉ fr then fr ++ [(x + d.1, y + d.2)] else fr) fr →
      e ∈ fr ∨ ∃ d ∈ ds, e = (x + d.1, y + d.2) ∧ inBounds w h (x + d.1, y + d.2) ∧
        cellAt maze (x + d.1, y + d.2) = 1 := by
  intro ds
  induction ds with
  | nil => intro fr e he; exact Or.inl he
  | cons d rest ih =>
    intro fr e he
    rw [List.foldl_cons] at he
    by_cases hg : inBounds w h (x + d.1, y + d.2) ∧ cellAt maze (x + d.1, y + d.2) = 1 ∧
        (x + d.1, y + d.2) ∉ fr
    · rw [if_pos hg] at he
      rcases ih _ e he with he' | ⟨d', hd', he'⟩
      · rcases List.mem_append.1 he' with he'' | he''
        · exact Or.inl he''
        · have : e = (x + d.1, y + d.2) := by simpa using he''
          exact Or.inr ⟨d, List.mem_cons_self _ _, this, hg.1, hg.2.1⟩
      · exact Or.inr ⟨d', List.mem_cons_of_mem _ hd', he'⟩
    · rw [if_neg hg] at he
      rcases ih _ e he with he' | ⟨d', hd', he'⟩
      · exact Or.inl he'
      · exact Or.inr ⟨d', List.mem_cons_of_mem _ hd', he'⟩

theorem prim_generator.afc_fold_length (w h : Nat) (maze : Grid) (x y : Int) :
    ∀ (ds : List (Int × Int)) (fr : List Pos),
      (ds.foldl (fun fr d =>
        if inBounds w h (x + d.1, y + d.2) ∧ cellAt maze (x + d.1, y + d.2) = 1 ∧
            (x + d.1, y + d.2) ∉ fr then fr ++ [(x + d.1, y + d.2)] else fr) fr).length ≤
      fr.length + ds.length := by
  intro ds
  induction ds with
  | nil => intro fr; simp
  | cons d rest ih =>
    intro fr
    rw [List.foldl_cons]
    by_cases hg : inBounds w h (x + d.1, y + d.2) ∧ cellAt maze (x + d.1, y + d.2) = 1 ∧
        (x + d.1, y + d.2) ∉ fr
    · rw [if_pos hg]
      have := ih (fr ++ [(x + d.1, y + d.2)])
      rw [List.length_append] at this
      simp only [List.length_cons, List.length_nil] at this ⊢
      omega
    · rw [if_neg hg]
      have := ih fr
      simp only [List.length_cons] at this ⊢
      omega

theorem prim_generator.afc_fold_nodup (w h : Nat) (maze : Grid) (x y : Int) :
    ∀ (ds : List (Int × Int)) (fr : List Pos), fr.Nodup →
      (ds.foldl (fun fr d =>
        if inBounds w h (x + d.1, y + d.2) ∧ cellAt maze (x + d.1, y + d.2) = 1 ∧
            (x + d.1, y + d.2) ∉ fr then fr ++ [(x + d.1, y + d.2)] else fr) fr).Nodup := by
  intro ds
  induction ds with
  | nil => intro fr hnd; exact hnd
  | cons d rest ih =>
    intro fr hnd
    rw [List.foldl_cons]
    by_cases hg : inBounds w h (x + d.1, y + d.2) ∧ cellAt maze (x + d.1, y + d.2) = 1 ∧
        (x + d.1, y + d.2) ∉ fr
    · rw [if_pos hg]
      refine ih _ ?_
      rw [List.nodup_append]
      exact ⟨hnd, List.nodup_singleton _, by simpa using fun hc => hg.2.2 hc⟩
    · rw [if_neg hg]
      exact ih _ hnd

theorem prim_generator.addFrontierCells_mem {w h : Nat} {maze : Grid} {x y : Int}
    {fr : List Pos} {e : Pos} (he : e ∈ prim_generator.addFrontierCells w h maze x y fr) :
    e ∈ fr ∨ ∃ d ∈ dirs2, e = (x + d.1, y + d.2) ∧ inBounds w h (x + d.1, y + d.2) ∧
      cellAt maze (x + d.1, y + d.2) = 1 :=
  prim_generator.afc_fold_mem w h maze x y dirs2 fr e he

theorem prim_generator.addFrontierCells_length (w h : Nat) (maze : Grid) (x y : Int)
    (fr : List Pos) :
    (prim_generator.addFrontierCells w h maze x y fr).length ≤ fr.length + 4 :=
  prim_generator.afc_fold_length w h maze x y dirs2 fr

theorem prim_generator.addFrontierCells_nodup {w h : Nat} {maze : Grid} {x y : Int}
    {fr : List Pos} (hnd : fr.Nodup) :
    (prim_generator.addFrontierCells w h maze x y fr).Nodup :=
  prim_generator.afc_fold_nodup w h maze x y dirs2 fr hnd

theorem prim_generator.getVisitedNeighbors_mem {w h : Nat} {maze : Grid} {x y : Int}
    {n : Pos} (hn : n ∈ prim_generator.getVisitedNeighbors w h maze x y) :
    ∃ d ∈ dirs2, n = (x + d.1, y + d.2) ∧ inBounds w h n ∧ cellAt maze n = 0 := by
  unfold prim_generator.getVisitedNeighbors at hn
  rcases List.mem_filterMap.1 hn with ⟨d, hd, hde⟩
  by_cases hg : inBounds w h (x + d.1, y + d.2) ∧ cellAt maze (x + d.1, y + d.2) = 0
  · rw [if_pos hg] at hde
    cases hde
    exact ⟨d, hd, rfl, hg.1, hg.2⟩
  · rw [if_neg hg] at hde
    cases hde

theorem prim_generator.pg_genLoop_some :
    ∀ (fuel : Nat) (r : Rng) (w h : Nat) (px py : Int) (maze : Grid) (fr : List Pos),
      gridWidth maze = w → gridHeight maze = h → rectangular maze →
      fr.Nodup →
      (∀ f ∈ fr, inBounds w h f ∧ cellAt maze f = 1 ∧ f.1 % 2 = px % 2 ∧ f.2 % 2 = py % 2) →
      fr.length + 5 * wallCount maze < fuel →
      ∃ g, prim_generator.genLoop fuel r w h maze fr = some g := by
  intro fuel
  induction fuel with
  | zero => intro r w h px py maze fr _ _ _ _ _ hm; omega
  | succ fuel ih =>
    intro r w h px py maze fr hgw hgh hrect hnd hinv hm
    match fr with
    | [] =>
      refine ⟨maze, ?_⟩
      rw [prim_generator.genLoop]
      rfl
    | f0 :: fr' =>
      rw [prim_generator.genLoop]
      rcases hpick : pickNth (f0 :: fr') (drawNat r (f0 :: fr').length).1
        with _ | ⟨⟨x, y⟩, rest⟩
      · exact ⟨maze, rfl⟩
      · dsimp only
        have hperm := pickNth_perm _ _ _ _ hpick
        have hxy := hinv _ (hperm.mem_iff.2 (List.mem_cons_self _ _))
        have hcnodup : ((x, y) :: rest).Nodup := (hperm.nodup_iff).1 hnd
        have hxyrest : (x, y) ∉ rest := (List.nodup_cons.1 hcnodup).1
        have hrestnd : rest.Nodup := (List.nodup_cons.1 hcnodup).2
        have hrestmem : ∀ z ∈ rest, z ∈ f0 :: fr' :=
          fun z hz => hperm.mem_iff.2 (List.mem_cons_of_mem _ hz)
        have hlen := pickNth_length hpick
        rcases hns : prim_generator.getVisitedNeighbors w h maze x y with _ | ⟨n0, ns'⟩
        · refine ih _ w h px py maze rest hgw hgh hrect hrestnd
            (fun f hf => hinv f (hrestmem f hf)) ?_
          simp only [List.length_cons] at hm hlen
          omega
        · have hnslen : (drawNat (drawNat r (f0 :: fr').length).2 (n0 :: ns').length).1 <
              (n0 :: ns').length := Nat.mod_lt _ (by simp)
          rcases hget : (n0 :: ns').get? (drawNat (drawNat r (f0 :: fr').length).2
              (n0 :: ns').length).1 with _ | n
          · rw [List.get?_eq_none] at hget
            omega
          · dsimp only
            have hnmem : n ∈ n0 :: ns' := List.get?_mem hget
            rw [← hns] at hnmem
            obtain ⟨d, hd, hnd2, hnb, hn0⟩ := prim_generator.getVisitedNeighbors_mem hnmem
            -- the two carved cells
            have hcar1 : Carved maze (setCell maze (x, y) 0) := Carved.setCell_zero maze _
            have hgw1 : gridWidth (setCell maze (x, y) 0) = w := by rw [gridWidth_setCell, hgw]
            have hgh1 : gridHeight (setCell maze (x, y) 0) = h := by
              rw [gridHeight_setCell, hgh]
            have hrect1 : rectangular (setCell maze (x, y) 0) := rectangular_setCell hrect _ _
            have hcar2 : Carved (setCell maze (x, y) 0)
                (setCell (setCell maze (x, y) 0) ((x + n.1) / 2, (y + n.2) / 2) 0) :=
              Carved.setCell_zero _ _
            have hcar : Carved maze
                (setCell (setCell maze (x, y) 0) ((x + n.1) / 2, (y + n.2) / 2) 0) :=
              hcar1.trans hcar2
            have hc0 : cellAt (setCell maze (x, y) 0) (x, y) = 0 :=
              cellAt_setCell_same 0 hrect (by rw [hgw, hgh]; exact hxy.1)
            have hwc2 : wallCount
                (setCell (setCell maze (x, y) 0) ((x + n.1) / 2, (y + n.2) / 2) 0) <
                wallCount maze := by
              refine @Carved.wallCount_lt _ _ hcar (x, y) (by rw [hgw, hgh]; exact hxy.1)
                hxy.2.1 ?_
              rcases hcar2.2 (x, y) with hc | hc
              · rw [hc]
                exact hc0
              · exact hc
            -- parity of the midpoint differs from the anchor in one coordinate
            have hmidp : ¬(((x + n.1) / 2) % 2 = px % 2 ∧ ((y + n.2) / 2) % 2 = py % 2) := by
              rw [hnd2]
              rcases dirs2_cases hd with rfl | rfl | rfl | rfl <;>
                (simp only []; intro hc; omega)
            have hmidb : inBounds w h ((x + n.1) / 2, (y + n.2) / 2) := by
              obtain ⟨a1, a2, a3, a4⟩ := hxy.1
              rw [hnd2] at hnb ⊢
              obtain ⟨b1, b2, b3, b4⟩ := hnb
              rcases dirs2_cases hd with rfl | rfl | rfl | rfl <;>
                exact ⟨by dsimp only at *; omega, by dsimp only at *; omega,
                  by dsimp only at *; omega, by dsimp only at *; omega⟩
            -- remaining frontier cells are untouched by the two carvings
            have hfrinv : ∀ f ∈ rest,
                cellAt (setCell (setCell maze (x, y) 0) ((x + n.1) / 2, (y + n.2) / 2) 0) f =
                  1 := by
              intro f hf
              obtain ⟨hfb, hfc, hfp1, hfp2⟩ := hinv f (hrestmem f hf)
              have hf1 : f ≠ (x, y) := fun hc => hxyrest (hc ▸ hf)
              have hf2 : f ≠ ((x + n.1) / 2, (y + n.2) / 2) := by
                intro hc
                apply hmidp
                rw [hc] at hfp1 hfp2
                dsimp only at hfp1 hfp2
                exact ⟨hfp1, hfp2⟩
              rw [cellAt_setCell_ne 0 hf2 (by rw [hgw1, hgh1]; exact hmidb)
                  (by rw [hgw1, hgh1]; exact hfb),
                cellAt_setCell_ne 0 hf1 (by rw [hgw, hgh]; exact hxy.1)
                  (by rw [hgw, hgh]; exact hfb)]
              exact hfc
            refine ih _ w h px py _ _ (by rw [hcar.gridWidth_eq, hgw])
              (by rw [hcar.gridHeight_eq, hgh]) (hcar.rectangular hrect)
              (prim_generator.addFrontierCells_nodup hrestnd) ?_ ?_
            · intro f hf
              rcases prim_generator.addFrontierCells_mem hf with hf' | ⟨d', hd', rfl, hb', hc'⟩
              · exact ⟨(hinv f (hrestmem f hf')).1, hfrinv f hf',
                  (hinv f (hrestmem f hf')).2.2⟩
              · refine ⟨hb', hc', ?_, ?_⟩
                · rcases dirs2_cases hd' with rfl | rfl | rfl | rfl <;>
                    (dsimp only; omega)
                · rcases dirs2_cases hd' with rfl | rfl | rfl | rfl <;>
                    (dsimp only; omega)
            · have hafl := prim_generator.addFrontierCells_length w h
                (setCell (setCell maze (x, y) 0) ((x + n.1) / 2, (y + n.2) / 2) 0) x y rest
              simp only [List.length_cons] at hm hlen
              omega

theorem prim_generator.pg_generate_some (r : Rng) (w h : Nat) (hw : 1 ≤ w) (hh : 1 ≤ h) :
    ∃ g, prim_generator.generate r w h = some g := by
  unfold prim_generator.generate drawNat
  rw [if_neg (by omega)]
  dsimp only
  have hsb : inBounds w h (((r 0 % w : Nat) : Int), ((r (0 + 1) % h : Nat) : Int)) := by
    have h1 : r 0 % w < w := Nat.mod_lt _ (by omega)
    have h2 : r (0 + 1) % h < h := Nat.mod_lt _ (by omega)
    exact ⟨by omega, by omega, by omega, by omega⟩
  have hgw0 : gridWidth (setCell (mkMaze w h)
      (((r 0 % w : Nat) : Int), ((r (0 + 1) % h : Nat) : Int)) 0) = w := by
    rw [gridWidth_setCell, gridWidth_mkMaze w h hh]
  have hgh0 : gridHeight (setCell (mkMaze w h)
      (((r 0 % w : Nat) : Int), ((r (0 + 1) % h : Nat) : Int)) 0) = h := by
    rw [gridHeight_setCell, gridHeight_mkMaze]
  refine prim_generator.pg_genLoop_some _ _ w h ((r 0 % w : Nat) : Int) ((r (0 + 1) % h : Nat) : Int)
    _ _ hgw0 hgh0 (rectangular_setCell (rectangular_mkMaze w h) _ _)
    (prim_generator.addFrontierCells_nodup List.nodup_nil) ?_ ?_
  · intro f hf
    rcases prim_generator.addFrontierCells_mem hf with hf' | ⟨d, hd, rfl, hb, hc⟩
    · simp at hf'
    · refine ⟨hb, hc, ?_, ?_⟩
      · rcases dirs2_cases hd with rfl | rfl | rfl | rfl <;> (dsimp only; omega)
      · rcases dirs2_cases hd with rfl | rfl | rfl | rfl <;> (dsimp only; omega)
  · have hafl := prim_generator.addFrontierCells_length w h
      (setCell (mkMaze w h) (((r 0 % w : Nat) : Int), ((r (0 + 1) % h : Nat) : Int)) 0)
      ((r 0 % w : Nat) : Int) ((r (0 + 1) % h : Nat) : Int) []
    have hwcb : wallCount (setCell (mkMaze w h)
        (((r 0 % w : Nat) : Int), ((r (0 + 1) % h : Nat) : Int)) 0) ≤ w * h := by
      have hb := wallCount_le (setCell (mkMaze w h)
        (((r 0 % w : Nat) : Int), ((r (0 + 1) % h : Nat) : Int)) 0)
      rw [hgw0, hgh0] at hb
      exact hb
    simp only [List.length_nil] at hafl
    omega

/-! ## Fuel sufficiency: the A* generator

The loop terminates because every re-push of a cell strictly lowers its
`g_score`, and stored scores are bounded: whenever `g_score[p] = v`, the sum
`v + (number of unscored cells)` never exceeds `w * h`.  The potential
`|open| + Σ_cells score-capacity` strictly decreases every iteration. -/

theorem alookup_aset_self {β : Type} (g : List (Pos × β)) (p : Pos) (v : β) :
    alookup (aset g p v) p = some v := by
  induction g with
  | nil => simp [aset, alookup]
  | cons e rest ih =>
    rcases e with ⟨q, w⟩
    rw [aset]
    by_cases hq : q = p
    · rw [if_pos hq, alookup, if_pos rfl]
    · rw [if_neg hq, alookup, if_neg hq]
      exact ih

theorem alookup_aset_ne {β : Type} (g : List (Pos × β)) {p q : Pos} (v : β) (h : q ≠ p) :
    alookup (aset g p v) q = alookup g q := by
  have hpq : p ≠ q := fun hc => h hc.symm
  induction g with
  | nil =>
    simp only [aset, alookup]
    rw [if_neg hpq]
  | cons e rest ih =>
    rcases e with ⟨q', w⟩
    by_cases hq : q' = p
    · subst hq
      simp only [aset, if_pos rfl, alookup, if_neg hpq]
    · simp only [aset, if_neg hq, alookup]
      by_cases hq2 : q' = q
      · rw [if_pos hq2, if_pos hq2]
      · rw [if_neg hq2, if_neg hq2]
        exact ih

theorem alookup_aset_isSome {β : Type} (g : List (Pos × β)) (p q : Pos) (v : β)
    (h : (alookup g q).isSome) : (alookup (aset g p v) q).isSome := by
  by_cases hq : q = p
  · subst hq
    rw [alookup_aset_self]
    rfl
  · rw [alookup_aset_ne g v hq]
    exact h

/-- Number of cells with no `g_score` entry. -/
def noneCount (w h : Nat) (g : List (Pos × Nat)) : Nat :=
  ((allCells w h).filter fun c => (alookup g c).isNone).length

theorem noneCount_aset_le (w h : Nat) (g : List (Pos × Nat)) (p : Pos) (v : Nat) :
    noneCount w h (aset g p v) ≤ noneCount w h g := by
  unfold noneCount
  rw [← List.countP_eq_length_filter, ← List.countP_eq_length_filter]
  refine List.countP_mono_left fun c _ hc => ?_
  by_cases hcp : c = p
  · subst hcp
    rw [alookup_aset_self] at hc
    simp at hc
  · rwa [alookup_aset_ne g v hcp] at hc

theorem noneCount_aset_lt {w h : Nat} {g : List (Pos × Nat)} {p : Pos} (v : Nat)
    (hp : p ∈ allCells w h) (hnone : alookup g p = none) :
    noneCount w h (aset g p v) < noneCount w h g := by
  unfold noneCount
  rw [← List.countP_eq_length_filter, ← List.countP_eq_length_filter]
  refine countP_lt_of_witness _ _ _ ?_ ⟨p, hp, ?_, ?_⟩
  · intro c _ hc
    by_cases hcp : c = p
    · subst hcp
      rw [alookup_aset_self] at hc
      simp at hc
    · rwa [alookup_aset_ne g v hcp] at hc
  · rw [alookup_aset_self]
    rfl
  · rw [hnone]
    rfl

theorem noneCount_le (w h : Nat) (g : List (Pos × Nat)) : noneCount w h g ≤ w * h := by
  unfold noneCount
  calc ((allCells w h).filter _).length ≤ (allCells w h).length := List.length_filter_le _ _
    _ = w * h := length_allCells w h

/-- Capacity of a cell: its current score, or `w * h + 1` when unscored. -/
def gTerm (w h : Nat) (g : List (Pos × Nat)) (c : Pos) : Nat :=
  match alookup g c with
  | none => w * h + 1
  | some v => v

/-- The scoring part of the termination potential. -/
def potA (w h : Nat) (g : List (Pos × Nat)) : Nat :=
  ((allCells w h).map (gTerm w h g)).sum

theorem sum_map_le {α : Type} (L : List α) (f g : α → Nat) (hfg : ∀ c ∈ L, f c ≤ g c) :
    (L.map f).sum ≤ (L.map g).sum := by
  induction L with
  | nil => simp
  | cons a rest ih =>
    simp only [List.map_cons, List.sum_cons]
    have h1 := hfg a (List.mem_cons_self _ _)
    have h2 := ih fun c hc => hfg c (List.mem_cons_of_mem _ hc)
    omega

theorem sum_map_lt {α : Type} [DecidableEq α] (L : List α) (f g : α → Nat)
    (hfg : ∀ c ∈ L, f c ≤ g c) (p : α) (hp : p ∈ L) (hlt : f p < g p) :
    (L.map f).sum < (L.map g).sum := by
  induction L with
  | nil => simp at hp
  | cons a rest ih =>
    simp only [List.map_cons, List.sum_cons]
    have h1 := hfg a (List.mem_cons_self _ _)
    have h2 := sum_map_le rest f g fun c hc => hfg c (List.mem_cons_of_mem _ hc)
    rcases List.mem_cons.1 hp with rfl | hp'
    · omega
    · have h3 := ih (fun c hc => hfg c (List.mem_cons_of_mem _ hc)) hp'
      omega

theorem sum_map_const_bound {α : Type} (L : List α) (f : α → Nat) (B : Nat)
    (hf : ∀ c ∈ L, f c ≤ B) : (L.map f).sum ≤ L.length * B := by
  induction L with
  | nil => simp
  | cons a rest ih =>
    simp only [List.map_cons, List.sum_cons, List.length_cons]
    have h1 := hf a (List.mem_cons_self _ _)
    have h2 := ih fun c hc => hf c (List.mem_cons_of_mem _ hc)
    have : (rest.length + 1) * B = rest.length * B + B := by ring
    omega

theorem gTerm_of_none {w h : Nat} {g : List (Pos × Nat)} {c : Pos}
    (hl : alookup g c = none) : gTerm w h g c = w * h + 1 := by
  unfold gTerm
  rw [hl]

theorem gTerm_of_some {w h : Nat} {g : List (Pos × Nat)} {c : Pos} {v : Nat}
    (hl : alookup g c = some v) : gTerm w h g c = v := by
  unfold gTerm
  rw [hl]

theorem potA_aset_lt {w h : Nat} {g : List (Pos × Nat)} {q : Pos} {tentative : Nat}
    (hq : q ∈ allCells w h)
    (hsmaller : ∀ gq, alookup g q = some gq → tentative < gq)
    (hnew : alookup g q = none → tentative ≤ w * h) :
    potA w h (aset g q tentative) < potA w h g := by
  unfold potA
  refine sum_map_lt _ _ _ ?_ q hq ?_
  · intro c _
    by_cases hcq : c = q
    · subst hcq
      rw [gTerm_of_some (alookup_aset_self g c tentative)]
      rcases hl : alookup g c with _ | gq
      · rw [gTerm_of_none hl]
        have := hnew hl
        omega
      · rw [gTerm_of_some hl]
        have := hsmaller gq hl
        omega
    · unfold gTerm
      rw [alookup_aset_ne g tentative hcq]
  · rw [gTerm_of_some (alookup_aset_self g q tentative)]
    rcases hl : alookup g q with _ | gq
    · rw [gTerm_of_none hl]
      have := hnew hl
      omega
    · rw [gTerm_of_some hl]
      have := hsmaller gq hl
      omega

theorem AStarMazeGenerator.genNeighbors_inBounds {w h : Nat} {p q : Pos}
    (hq : q ∈ AStarMazeGenerator.genNeighbors w h p) : inBounds w h q := by
  unfold AStarMazeGenerator.genNeighbors at hq
  rcases List.mem_filterMap.1 hq with ⟨d, _, hd⟩
  by_cases hg : inBounds w h (p.1 + d.1, p.2 + d.2)
  · rw [if_pos hg] at hd
    cases hd
    exact hg
  · rw [if_neg hg] at hd
    cases hd

theorem AStarMazeGenerator.genExpand_some (w h : Nat) (endP cur : Pos) :
    ∀ (ns : List Pos) (st : AStarGenState),
      (∀ q ∈ ns, q ∈ allCells w h) →
      (alookup st.gScore cur).isSome →
      (∀ p v, alookup st.gScore p = some v → v + noneCount w h st.gScore ≤ w * h) →
      (∀ en ∈ st.openL, (alookup st.gScore en.2).isSome) →
      ∃ st', AStarMazeGenerator.genExpand endP cur st ns = some st' ∧
        st'.openL.length + potA w h st'.gScore ≤ st.openL.length + potA w h st.gScore ∧
        (alookup st'.gScore cur).isSome ∧
        (∀ p v, alookup st'.gScore p = some v → v + noneCount w h st'.gScore ≤ w * h) ∧
        (∀ en ∈ st'.openL, (alookup st'.gScore en.2).isSome) := by
  intro ns
  induction ns with
  | nil =>
    intro st _ hcur hbound hopen
    exact ⟨st, rfl, le_rfl, hcur, hbound, hopen⟩
  | cons q rest ih =>
    intro st hns hcur hbound hopen
    rw [AStarMazeGenerator.genExpand]
    match hgc : alookup st.gScore cur with
    | none => rw [hgc] at hcur; simp at hcur
    | some gCur =>
      dsimp only
      have hqcells : q ∈ allCells w h := hns q (List.mem_cons_self _ _)
      by_cases hkeep : (match alookup st.gScore q with
          | none => true
          | some gq => decide (gCur + 1 < gq)) = true
      · rw [if_pos hkeep]
        set g' := aset st.gScore q (gCur + 1) with hg'
        have hsmaller : ∀ gq, alookup st.gScore q = some gq → gCur + 1 < gq := by
          intro gq hl
          rw [hl] at hkeep
          simpa using hkeep
        have hnew : alookup st.gScore q = none → gCur + 1 ≤ w * h := by
          intro hl
          have hb := hbound cur gCur hgc
          have hlt := noneCount_aset_lt (gCur + 1) hqcells hl
          have := noneCount_le w h st.gScore
          omega
        have hpot : potA w h g' < potA w h st.gScore :=
          potA_aset_lt hqcells hsmaller hnew
        have hbound' : ∀ p v, alookup g' p = some v → v + noneCount w h g' ≤ w * h := by
          intro p v hl
          by_cases hpq : p = q
          · subst hpq
            rw [hg', alookup_aset_self] at hl
            injection hl with hl
            subst hl
            match hold : alookup st.gScore p with
            | none =>
              have hb := hbound cur gCur hgc
              have hlt := noneCount_aset_lt (gCur + 1) hqcells hold
              rw [← hg'] at hlt
              omega
            | some gq =>
              have hb := hbound p gq hold
              have hle := noneCount_aset_le w h st.gScore p (gCur + 1)
              rw [← hg'] at hle
              have := hsmaller gq hold
              omega
          · rw [hg', alookup_aset_ne _ _ hpq] at hl
            have hb := hbound p v hl
            have hle := noneCount_aset_le w h st.gScore q (gCur + 1)
            rw [← hg'] at hle
            omega
        have hcur' : (alookup g' cur).isSome :=
          alookup_aset_isSome _ _ _ _ (by rw [hgc]; rfl)
        have hopen' : ∀ en ∈ st.openL ++ [(gCur + 1 + manhattan q endP, q)],
            (alookup g' en.2).isSome := by
          intro en hen
          rcases List.mem_append.1 hen with hen | hen
          · exact alookup_aset_isSome _ _ _ _ (hopen en hen)
          · have : en = (gCur + 1 + manhattan q endP, q) := by simpa using hen
            rw [this, hg']
            rw [alookup_aset_self]
            rfl
        obtain ⟨st', hst', hpot', hcur'', hbound'', hopen''⟩ := ih
          { maze := setCell st.maze ((cur.1 + q.1) / 2, (cur.2 + q.2) / 2) 0
            openL := st.openL ++ [(gCur + 1 + manhattan q endP, q)]
            cameFrom := aset st.cameFrom q cur
            gScore := g'
            fScore := aset st.fScore q (gCur + 1 + manhattan q endP) }
          (fun q' hq' => hns q' (List.mem_cons_of_mem _ hq')) hcur' hbound' hopen'
        refine ⟨st', hst', ?_, hcur'', hbound'', hopen''⟩
        have hlen : (st.openL ++ [(gCur + 1 + manhattan q endP, q)]).length =
            st.openL.length + 1 := by simp
        rw [hlen] at hpot'
        dsimp only at hpot'
        omega
      · rw [if_neg hkeep]
        exact ih st (fun q' hq' => hns q' (List.mem_cons_of_mem _ hq')) hcur hbound hopen

theorem AStarMazeGenerator.astar_genLoop_some :
    ∀ (fuel : Nat) (w h : Nat) (endP : Pos) (st : AStarGenState),
      (∀ en ∈ st.openL, (alookup st.gScore en.2).isSome) →
      (∀ p v, alookup st.gScore p = some v → v + noneCount w h st.gScore ≤ w * h) →
      st.openL.length + potA w h st.gScore < fuel →
      ∃ g, AStarMazeGenerator.genLoop w h endP fuel st = some g := by
  intro fuel
  induction fuel with
  | zero => intro w h endP st _ _ hm; omega
  | succ fuel ih =>
    intro w h endP st hopen hbound hm
    rw [AStarMazeGenerator.genLoop]
    rcases hext : extractMin keyLt st.openL with _ | er
    · exact ⟨st.maze, rfl⟩
    · rcases er with ⟨en, rest⟩
      obtain ⟨hmem, hsub, hlen⟩ := extractMin_spec keyLt st.openL en rest hext
      dsimp only
      by_cases h1 : en.2 = endP
      · rw [if_pos h1]
        exact ⟨setCell st.maze en.2 0, rfl⟩
      · rw [if_neg h1]
        have hns : ∀ q ∈ AStarMazeGenerator.genNeighbors w h en.2, q ∈ allCells w h :=
          fun q hq => mem_allCells.2 (AStarMazeGenerator.genNeighbors_inBounds hq)
        obtain ⟨st', hst', hpot, _, hbound', hopen'⟩ :=
          AStarMazeGenerator.genExpand_some w h endP en.2
            (AStarMazeGenerator.genNeighbors w h en.2)
            { st with maze := setCell st.maze en.2 0, openL := rest }
            hns (hopen en hmem) hbound (fun e he => hopen e (hsub e he))
        rw [hst']
        refine ih w h endP st' hopen' hbound' ?_
        dsimp only at hpot
        omega

theorem AStarMazeGenerator.astar_generate_some (w h : Nat) (hw : 2 ≤ w) (hh : 2 ≤ h) :
    ∃ g, AStarMazeGenerator.generate w h = some g := by
  unfold AStarMazeGenerator.generate
  dsimp only
  refine AStarMazeGenerator.astar_genLoop_some _ w h _ _ ?_ ?_ ?_
  · intro en hen
    have : en = ((0 : Nat), ((1 : Int), (1 : Int))) := by simpa using hen
    rw [this]
    dsimp only
    rw [alookup, if_pos rfl]
    rfl
  · intro p v hl
    dsimp only at hl ⊢
    rw [alookup] at hl
    by_cases hp : ((1 : Int), (1 : Int)) = p
    · rw [if_pos hp] at hl
      injection hl with hl
      subst hl
      have := noneCount_le w h [(((1 : Int), (1 : Int)), 0)]
      omega
    · rw [if_neg hp] at hl
      rw [alookup] at hl
      cases hl
  · dsimp only
    have hterm : ∀ c ∈ allCells w h,
        gTerm w h [((((1 : Int), (1 : Int)) : Pos), 0)] c ≤ w * h + 1 := by
      intro c _
      rcases hl : alookup [((((1 : Int), (1 : Int)) : Pos), 0)] c with _ | v'
      · rw [gTerm_of_none hl]
      · rw [gTerm_of_some hl]
        rw [alookup] at hl
        by_cases hp : (((1 : Int), (1 : Int)) : Pos) = c
        · rw [if_pos hp] at hl
          injection hl with hl
          omega
        · rw [if_neg hp, alookup] at hl
          cases hl
    have hb : potA w h [((((1 : Int), (1 : Int)) : Pos), 0)] ≤ w * h * (w * h + 1) := by
      unfold potA
      have := sum_map_const_bound (allCells w h) _ _ hterm
      rwa [length_allCells] at this
    have h2 : 1 + w * h * (w * h + 1) < (w * h + 2) * (w * h + 2) := by nlinarith
    simp only [List.length_cons, List.length_nil]
    linarith

/-- C9: every `generate` call (any width, height ≥ 3, any stream of random
draws) and every `solve` call (any finite grid, any start and end) terminates
and returns — including the A* generator's relaxation loop, which may re-push
cells, and the recursive DFS carving.  In the embedding, termination and
absence of runtime errors are together rendered as the computation producing
`some` result. -/
theorem C9_theorem (w h : Nat) (r : Rng) (m : Grid) (s e : Pos)
    (hw : 3 ≤ w) (hh : 3 ≤ h) :
    (∃ out, DFSMazeGenerator.generate r w h = some out) ∧
    (∃ g, BFSMazeGenerator.generate r w h = some g) ∧
    (∃ g, AStarMazeGenerator.generate w h = some g) ∧
    (∃ g, PrimMazeGenerator.generate r w h = some g) ∧
    (∃ g, prim_generator.generate r w h = some g) ∧
    (∃ res, DFSMazeGenerator.solve m s e = some res) ∧
    (∃ res, BFSMazeGenerator.solve m s e = some res) ∧
    (∃ res, AStarMazeGenerator.solve m s e = some res) ∧
    (∃ res, prim_generator.solve m s e = some res) := by
  obtain ⟨out, hout, -, -, -⟩ :=
    DFSMazeGenerator.dfs_generate_some r w h (by omega) (by omega)
  exact ⟨⟨out, hout⟩, BFSMazeGenerator.bfs_generate_some r w h,
    AStarMazeGenerator.astar_generate_some w h (by omega) (by omega),
    PrimMazeGenerator.prim_generate_some r w h hw hh,
    prim_generator.pg_generate_some r w h (by omega) (by omega),
    DFSMazeGenerator.dfs_solve_some m s e, BFSMazeGenerator.bfs_solve_some m s e,
    AStarMazeGenerator.astar_solve_some m s e, prim_generator.pg_solve_some m s e⟩

theorem C9_witness :
    (3 ≤ 3) ∧
    ((∃ out, DFSMazeGenerator.generate rng0 3 3 = some out) ∧
    (∃ g, BFSMazeGenerator.generate rng0 3 3 = some g) ∧
    (∃ g, AStarMazeGenerator.generate 3 3 = some g) ∧
    (∃ g, PrimMazeGenerator.generate rng0 3 3 = some g) ∧
    (∃ g, prim_generator.generate rng0 3 3 = some g) ∧
    (∃ res, DFSMazeGenerator.solve [[0]] (0, 0) (0, 0) = some res) ∧
    (∃ res, BFSMazeGenerator.solve [[0]] (0, 0) (0, 0) = some res) ∧
    (∃ res, AStarMazeGenerator.solve [[0]] (0, 0) (0, 0) = some res) ∧
    (∃ res, prim_generator.solve [[0]] (0, 0) (0, 0) = some res)) :=
  ⟨by decide, C9_theorem 3 3 rng0 [[0]] (0, 0) (0, 0) (by decide) (by decide)⟩

/-- Each grid write of the BFS generator's direction pass only clears a
cell, so the pass only carves. -/
theorem BFSMazeGenerator.genDirs_carved (w h : Nat) (x y : Int) :
    ∀ (ds : List (Int × Int)) (mz : Grid) (queue visited : List Pos),
      Carved mz (BFSMazeGenerator.genDirs w h x y (mz, queue, visited) ds).1 := by
  intro ds
  induction ds with
  | nil =>
    intro mz queue visited
    rw [BFSMazeGenerator.genDirs]
    exact Carved.refl mz
  | cons d rest ih =>
    intro mz queue visited
    rcases d with ⟨dx, dy⟩
    rw [BFSMazeGenerator.genDirs]
    by_cases hg : inBounds w h (x + dx, y + dy) ∧ ((x + dx, y + dy) : Pos) ∉ visited
    · rw [if_pos hg]
      exact (Carved.setCell_zero mz _).trans (ih _ _ _)
    · rw [if_neg hg]
      exact ih _ _ _

/-- The BFS generator's loop only carves: its result is the input grid with
some cells cleared, so in particular it has the same shape. -/
theorem BFSMazeGenerator.bfs_genLoop_carved :
    ∀ (fuel : Nat) (r : Rng) (w h : Nat) (mz : Grid) (queue visited : List Pos) (g : Grid),
      BFSMazeGenerator.genLoop fuel r w h mz queue visited = some g → Carved mz g := by
  intro fuel
  induction fuel with
  | zero => intro r w h mz queue visited g h0; cases h0
  | succ fuel ih =>
    intro r w h mz queue visited g hgl
    match queue with
    | [] =>
      rw [BFSMazeGenerator.genLoop] at hgl
      injection hgl with hgl
      subst hgl
      exact Carved.refl mz
    | (x, y) :: rest =>
      rw [BFSMazeGenerator.genLoop] at hgl
      exact ((Carved.setCell_zero mz (x, y)).trans
        (BFSMazeGenerator.genDirs_carved w h x y (shuffle r dirs2).1
          (setCell mz (x, y) 0) rest visited)).trans
        (ih (shuffle r dirs2).2 w h _ _ _ g hgl)

/-- The standalone Prim generator's loop only carves. -/
theorem prim_generator.pg_genLoop_carved :
    ∀ (fuel : Nat) (r : Rng) (w h : Nat) (maze : Grid) (fr : List Pos) (g : Grid),
      prim_generator.genLoop fuel r w h maze fr = some g → Carved maze g := by
  intro fuel
  induction fuel with
  | zero => intro r w h maze fr g h0; cases h0
  | succ fuel ih =>
    intro r w h maze fr g hgl
    rw [prim_generator.genLoop] at hgl
    rcases hpick : pickNth fr (drawNat r fr.length).1 with _ | cr
    · rw [hpick] at hgl
      injection hgl with hgl
      subst hgl
      exact Carved.refl maze
    · rw [hpick] at hgl
      dsimp only at hgl
      rcases hns : prim_generator.getVisitedNeighbors w h maze cr.1.1 cr.1.2 with _ | ⟨n0, ns'⟩
      · rw [hns] at hgl
        exact ih _ _ _ _ _ _ hgl
      · rw [hns] at hgl
        rcases hget : (n0 :: ns').get? (drawNat (drawNat r fr.length).2
            (n0 :: ns').length).1 with _ | n
        · rw [hget] at hgl
          cases hgl
        · rw [hget] at hgl
          dsimp only at hgl
          exact ((Carved.setCell_zero maze (cr.1.1, cr.1.2)).trans
            (Carved.setCell_zero _ _)).trans (ih _ _ _ _ _ _ hgl)

/-- The A*-ordered generator's relaxation pass only carves. -/
theorem AStarMazeGenerator.genExpand_carved (endP cur : Pos) :
    ∀ (ns : List Pos) (st st' : AStarGenState),
      AStarMazeGenerator.genExpand endP cur st ns = some st' →
      Carved st.maze st'.maze := by
  intro ns
  induction ns with
  | nil =>
    intro st st' hge
    rw [AStarMazeGenerator.genExpand] at hge
    injection hge with hge
    subst hge
    exact Carved.refl _
  | cons q rest ih =>
    intro st st' hge
    rw [AStarMazeGenerator.genExpand] at hge
    match hgc : alookup st.gScore cur with
    | none => rw [hgc] at hge; cases hge
    | some gCur =>
      rw [hgc] at hge
      dsimp only at hge
      by_cases hkeep : (match alookup st.gScore q with
          | none => true
          | some gq => decide (gCur + 1 < gq)) = true
      · rw [if_pos hkeep] at hge
        exact (Carved.setCell_zero st.maze _).trans (ih _ st' hge)
      · rw [if_neg hkeep] at hge
        exact ih _ st' hge

/-- The A*-ordered generator's loop only carves. -/
theorem AStarMazeGenerator.astar_genLoop_carved (w h : Nat) (endP : Pos) :
    ∀ (fuel : Nat) (st : AStarGenState) (g : Grid),
      AStarMazeGenerator.genLoop w h endP fuel st = some g → Carved st.maze g := by
  intro fuel
  induction fuel with
  | zero => intro st g h0; cases h0
  | succ fuel ih =>
    intro st g hgl
    rw [AStarMazeGenerator.genLoop] at hgl
    rcases hext : extractMin keyLt st.openL with _ | er
    · rw [hext] at hgl
      injection hgl with hgl
      subst hgl
      exact Carved.refl _
    · rw [hext] at hgl
      dsimp only at hgl
      by_cases hend : er.1.2 = endP
      · rw [if_pos hend] at hgl
        injection hgl with hgl
        subst hgl
        exact Carved.setCell_zero st.maze er.1.2
      · rw [if_neg hend] at hgl
        rcases hexp : AStarMazeGenerator.genExpand endP er.1.2
            { st with maze := setCell st.maze er.1.2 0, openL := er.2 }
            (AStarMazeGenerator.genNeighbors w h er.1.2) with _ | st'
        · rw [hexp] at hgl
          cases hgl
        · rw [hexp] at hgl
          exact ((Carved.setCell_zero st.maze er.1.2).trans
            (AStarMazeGenerator.genExpand_carved endP er.1.2 _ _ st' hexp)).trans
            (ih st' g hgl)

/-- C5 (corrected): no generator checks its dimensions against the
documented minimum of 3, and the `MIN_SIZE` constant of the config is never
consulted: no `generate` call fails fast with a descriptive error at the
call boundary.  Instead, a sub-minimum call runs to completion with no
error and silently returns a grid of exactly the requested sub-minimum
dimensions — for the recursive-DFS generator and the standalone Prim
generator at every width, height ≥ 1, and for the BFS and A*-ordered
generators at every width, height ≥ 2.  (The errors those two do raise at
even smaller sizes — BFS's unguarded `maze[1][1]` write at width or
height ≤ 1, the maze_algorithms Prim's empty `randrange` at width or
height ≤ 2 — are low-level exceptions from inside the carving, not
dimension validation, which is why those sizes are excluded here.) -/
theorem C5_theorem (r : Rng) (w h : Nat) (hw : 1 ≤ w) (hh : 1 ≤ h)
    (hlt : w < 3 ∨ h < 3) :
    (∃ out, DFSMazeGenerator.generate r w h = some out ∧
      gridWidth out.1 = w ∧ gridHeight out.1 = h) ∧
    (∃ g, prim_generator.generate r w h = some g ∧
      gridWidth g = w ∧ gridHeight g = h) ∧
    (2 ≤ w → 2 ≤ h →
      (∃ g, BFSMazeGenerator.generate r w h = some g ∧
        gridWidth g = w ∧ gridHeight g = h) ∧
      (∃ g, AStarMazeGenerator.generate w h = some g ∧
        gridWidth g = w ∧ gridHeight g = h)) := by
  have hgwm : gridWidth (mkMaze w h) = w := gridWidth_mkMaze w h hh
  have hghm : gridHeight (mkMaze w h) = h := gridHeight_mkMaze w h
  refine ⟨?_, ?_, ?_⟩
  · obtain ⟨out, hout, hgw, hgh, -⟩ := DFSMazeGenerator.dfs_generate_some r w h hw hh
    exact ⟨out, hout, hgw, hgh⟩
  · obtain ⟨g, hg⟩ := prim_generator.pg_generate_some r w h hw hh
    refine ⟨g, hg, ?_, ?_⟩
    · unfold prim_generator.generate at hg
      rw [if_neg (by omega)] at hg
      dsimp only at hg
      have hcar := prim_generator.pg_genLoop_carved _ _ _ _ _ _ _ hg
      rw [hcar.gridWidth_eq, gridWidth_setCell, hgwm]
    · unfold prim_generator.generate at hg
      rw [if_neg (by omega)] at hg
      dsimp only at hg
      have hcar := prim_generator.pg_genLoop_carved _ _ _ _ _ _ _ hg
      rw [hcar.gridHeight_eq, gridHeight_setCell, hghm]
  · intro hw2 hh2
    constructor
    · obtain ⟨g, hg⟩ := BFSMazeGenerator.bfs_generate_some r w h
      refine ⟨g, hg, ?_, ?_⟩
      · unfold BFSMazeGenerator.generate at hg
        have hcar := BFSMazeGenerator.bfs_genLoop_carved _ _ _ _ _ _ _ _ hg
        rw [hcar.gridWidth_eq, hgwm]
      · unfold BFSMazeGenerator.generate at hg
        have hcar := BFSMazeGenerator.bfs_genLoop_carved _ _ _ _ _ _ _ _ hg
        rw [hcar.gridHeight_eq, hghm]
    · obtain ⟨g, hg⟩ := AStarMazeGenerator.astar_generate_some w h hw2 hh2
      refine ⟨g, hg, ?_, ?_⟩
      · unfold AStarMazeGenerator.generate at hg
        dsimp only at hg
        have hcar := AStarMazeGenerator.astar_genLoop_carved w h _ _ _ _ hg
        rw [hcar.gridWidth_eq, hgwm]
      · unfold AStarMazeGenerator.generate at hg
        dsimp only at hg
        have hcar := AStarMazeGenerator.astar_genLoop_carved w h _ _ _ _ hg
        rw [hcar.gridHeight_eq, hghm]

theorem C5_witness :
    ((1 ≤ 2 ∧ 1 ≤ 2 ∧ ((2 : Nat) < 3 ∨ (2 : Nat) < 3)) ∧
      (1 ≤ 1 ∧ 1 ≤ 1 ∧ ((1 : Nat) < 3 ∨ (1 : Nat) < 3))) ∧
    ((∃ out, DFSMazeGenerator.generate rng0 2 2 = some out ∧
      gridWidth out.1 = 2 ∧ gridHeight out.1 = 2) ∧
    (∃ g, prim_generator.generate rng0 2 2 = some g ∧
      gridWidth g = 2 ∧ gridHeight g = 2) ∧
    (2 ≤ 2 → 2 ≤ 2 →
      (∃ g, BFSMazeGenerator.generate rng0 2 2 = some g ∧
        gridWidth g = 2 ∧ gridHeight g = 2) ∧
      (∃ g, AStarMazeGenerator.generate 2 2 = some g ∧
        gridWidth g = 2 ∧ gridHeight g = 2))) ∧
    ((∃ out, DFSMazeGenerator.generate rng0 1 1 = some out ∧
      gridWidth out.1 = 1 ∧ gridHeight out.1 = 1) ∧
    (∃ g, prim_generator.generate rng0 1 1 = some g ∧
      gridWidth g = 1 ∧ gridHeight g = 1)) :=
  ⟨⟨⟨by decide, by decide, by decide⟩, ⟨by decide, by decide, by decide⟩⟩,
    C5_theorem rng0 2 2 (by decide) (by decide) (by decide),
    ⟨(C5_theorem rng0 1 1 (by decide) (by decide) (by decide)).1,
      (C5_theorem rng0 1 1 (by decide) (by decide) (by decide)).2.1⟩⟩

/-! ## A WALL end cell is never found by the `maze_algorithms` solvers

Neighbour expansion in all three solvers admits only passage cells, so a
wall `end` can only be produced as the very first popped/visited cell —
impossible when `end ≠ start`. -/

theorem DFSMazeGenerator.getNeighbors_passage {m : Grid} {x y : Int} {n : Pos}
    (hn : n ∈ DFSMazeGenerator.getNeighbors m x y) : cellAt m n = 0 := by
  unfold DFSMazeGenerator.getNeighbors at hn
  rcases List.mem_filterMap.1 hn with ⟨d, _, hd⟩
  by_cases hg : inBounds (gridWidth m) (gridHeight m) (x + d.1, y + d.2) ∧
      cellAt m (x + d.1, y + d.2) = 0
  · rw [if_pos hg] at hd
    cases hd
    exact hg.2
  · rw [if_neg hg] at hd
    cases hd

theorem DFSMazeGenerator.dfsDirs_notFound (endP : Pos) (m0 : Grid)
    (recur : Grid → Pos → List Pos → List Pos → Option (Bool × List Pos × List Pos × Grid))
    (hrec : ∀ n v p r', n ≠ endP → recur m0 n v p = some r' →
      r'.1 = false ∧ r'.2.2.2 = m0) :
    ∀ (ns : List Pos) (c : Pos) (visited path : List Pos)
      (r : Bool × List Pos × List Pos × Grid),
      (∀ n ∈ ns, n ≠ endP) →
      DFSMazeGenerator.dfsDirs recur c m0 visited path ns = some r →
      r.1 = false ∧ r.2.2.2 = m0 := by
  intro ns
  induction ns with
  | nil =>
    intro c visited path r _ hr
    rw [DFSMazeGenerator.dfsDirs] at hr
    injection hr with hr
    subst hr
    exact ⟨rfl, rfl⟩
  | cons n rest ih =>
    intro c visited path r hns hr
    rw [DFSMazeGenerator.dfsDirs] at hr
    by_cases hv : n ∉ visited
    · rw [if_pos hv] at hr
      match hc : recur m0 n visited path with
      | none => rw [hc] at hr; cases hr
      | some (true, v', p', m') =>
        have h2 := hrec n visited path _ (hns n (List.mem_cons_self _ _)) hc
        simp at h2
      | some (false, v', p', m') =>
        have h2 := hrec n visited path _ (hns n (List.mem_cons_self _ _)) hc
        rw [hc] at hr
        dsimp only at hr h2
        rw [h2.2] at hr
        exact ih c v' p' r (fun n' hn' => hns n' (List.mem_cons_of_mem _ hn')) hr
    · rw [if_neg hv] at hr
      exact ih c visited path r (fun n' hn' => hns n' (List.mem_cons_of_mem _ hn')) hr

theorem DFSMazeGenerator.dfsAux_notFound (endP : Pos) (m : Grid)
    (hwall : cellAt m endP ≠ 0) :
    ∀ (fuel : Nat) (c : Pos) (visited path : List Pos)
      (r : Bool × List Pos × List Pos × Grid),
      c ≠ endP →
      DFSMazeGenerator.dfsAux fuel m endP c visited path = some r →
      r.1 = false ∧ r.2.2.2 = m := by
  intro fuel
  induction fuel with
  | zero => intro c v p r _ hr; cases hr
  | succ fuel ih =>
    intro c v p r hc hr
    rw [DFSMazeGenerator.dfsAux, if_neg hc] at hr
    refine DFSMazeGenerator.dfsDirs_notFound endP m _ ?_ _ c (c :: v) p r ?_ hr
    · intro n v' p' r' hn hr'
      exact ih n v' p' r' hn hr'
    · intro n hn he
      subst he
      exact hwall (DFSMazeGenerator.getNeighbors_passage hn)

theorem DFSMazeGenerator.dfs_solve_wall_end (m : Grid) (s e : Pos) (hse : s ≠ e)
    (hwall : cellAt m e ≠ 0) :
    DFSMazeGenerator.solve m s e = some ([], m) := by
  unfold DFSMazeGenerator.solve
  have h1 : newCount (allCells (gridWidth m) (gridHeight m)) (s :: []) ≤
      (allCells (gridWidth m) (gridHeight m)).length := newCount_le_length _ _
  rw [length_allCells] at h1
  obtain ⟨res, hres, -, -⟩ := DFSMazeGenerator.dfsAux_some
    (gridWidth m * gridHeight m + 3) m e s [] [] (by omega)
  obtain ⟨hf, hm2⟩ := DFSMazeGenerator.dfsAux_notFound e m hwall _ s [] [] res hse hres
  rw [hres]
  rcases res with ⟨found, v, pa, m'⟩
  dsimp only at hf hm2
  subst hf
  subst hm2
  rfl

theorem BFSMazeGenerator.bfs_solveDirs_mem (m : Grid) (x y : Int) (path : List Pos) :
    ∀ (ds : List (Int × Int)) (queue : List (Pos × List Pos)) (visited : List Pos),
      ∀ en ∈ (BFSMazeGenerator.solveDirs m x y path (queue, visited) ds).1,
        en ∈ queue ∨ cellAt m en.1 = 0 := by
  intro ds
  induction ds with
  | nil =>
    intro queue visited en hen
    rw [BFSMazeGenerator.solveDirs] at hen
    exact Or.inl hen
  | cons d rest ih =>
    intro queue visited en hen
    rcases d with ⟨dx, dy⟩
    rw [BFSMazeGenerator.solveDirs] at hen
    by_cases hg : inBounds (gridWidth m) (gridHeight m) (x + dx, y + dy) ∧
        cellAt m (x + dx, y + dy) = 0 ∧ (x + dx, y + dy) ∉ visited
    · rw [if_pos hg] at hen
      rcases ih _ _ en hen with h | h
      · rcases List.mem_append.1 h with h | h
        · exact Or.inl h
        · right
          have he : en = ((x + dx, y + dy), path ++ [(x + dx, y + dy)]) := by
            simpa using h
          rw [he]
          exact hg.2.1
      · exact Or.inr h
    · rw [if_neg hg] at hen
      exact ih _ _ en hen

theorem BFSMazeGenerator.bfs_solveLoop_notFound (m : Grid) (endP : Pos)
    (hwall : cellAt m endP ≠ 0) :
    ∀ (fuel : Nat) (queue : List (Pos × List Pos)) (visited : List Pos)
      (r : List Pos × Grid),
      (∀ en ∈ queue, en.1 ≠ endP) →
      BFSMazeGenerator.solveLoop fuel m endP queue visited = some r →
      r = ([], m) := by
  intro fuel
  induction fuel with
  | zero => intro queue visited r _ hr; cases hr
  | succ fuel ih =>
    intro queue visited r hq hr
    match queue with
    | [] =>
      rw [BFSMazeGenerator.solveLoop] at hr
      injection hr with hr
      exact hr.symm
    | ((x, y), path) :: queue =>
      rw [BFSMazeGenerator.solveLoop] at hr
      rw [if_neg (hq ((x, y), path) (List.mem_cons_self _ _))] at hr
      dsimp only at hr
      refine ih _ _ r ?_ hr
      intro en hen
      rcases BFSMazeGenerator.bfs_solveDirs_mem m x y path dirs1 queue visited en hen with h | h
      · exact hq en (List.mem_cons_of_mem _ h)
      · intro he
        rw [he] at h
        exact hwall h

theorem BFSMazeGenerator.bfs_solve_wall_end (m : Grid) (s e : Pos) (hse : s ≠ e)
    (hwall : cellAt m e ≠ 0) :
    BFSMazeGenerator.solve m s e = some ([], m) := by
  obtain ⟨res, hres⟩ := BFSMazeGenerator.bfs_solve_some m s e
  have hloop : BFSMazeGenerator.solveLoop (gridWidth m * gridHeight m + 2) m e
      [(s, [s])] [s] = some res := hres
  have hq : ∀ en ∈ [(s, [s])], en.1 ≠ e := by
    intro en hen
    have h2 : en = (s, [s]) := by simpa using hen
    rw [h2]
    exact hse
  have hr := BFSMazeGenerator.bfs_solveLoop_notFound m e hwall _ _ _ res hq hloop
  rw [hres, hr]

theorem AStarMazeGenerator.astar_solveDirs_mem (m : Grid) (endP cur : Pos) (path : List Pos)
    (closed : List Pos) :
    ∀ (ds : List (Int × Int)) (openL : List (Nat × Pos × List Pos)),
      ∀ en ∈ AStarMazeGenerator.solveDirs m endP cur path closed openL ds,
        en ∈ openL ∨ cellAt m en.2.1 = 0 := by
  intro ds
  induction ds with
  | nil =>
    intro openL en hen
    rw [AStarMazeGenerator.solveDirs] at hen
    exact Or.inl hen
  | cons d rest ih =>
    intro openL en hen
    rcases d with ⟨dx, dy⟩
    rw [AStarMazeGenerator.solveDirs] at hen
    by_cases hg : inBounds (gridWidth m) (gridHeight m) (cur.1 + dx, cur.2 + dy) ∧
        cellAt m (cur.1 + dx, cur.2 + dy) = 0 ∧ (cur.1 + dx, cur.2 + dy) ∉ closed
    · rw [if_pos hg] at hen
      rcases ih _ en hen with h | h
      · rcases List.mem_append.1 h with h | h
        · exact Or.inl h
        · right
          have he : en = (path.length + manhattan (cur.1 + dx, cur.2 + dy) endP,
              (cur.1 + dx, cur.2 + dy), path ++ [(cur.1 + dx, cur.2 + dy)]) := by
            simpa using h
          rw [he]
          exact hg.2.1
      · exact Or.inr h
    · rw [if_neg hg] at hen
      exact ih _ en hen

theorem AStarMazeGenerator.astar_solveLoop_notFound (m : Grid) (endP : Pos)
    (hwall : cellAt m endP ≠ 0) :
    ∀ (fuel : Nat) (openL : List (Nat × Pos × List Pos)) (closed : List Pos)
      (r : List Pos × Grid),
      (∀ en ∈ openL, en.2.1 ≠ endP) →
      AStarMazeGenerator.solveLoop fuel m endP openL closed = some r →
      r = ([], m) := by
  intro fuel
  induction fuel with
  | zero => intro openL closed r _ hr; cases hr
  | succ fuel ih =>
    intro openL closed r hq hr
    rw [AStarMazeGenerator.solveLoop] at hr
    rcases hext : extractMin entryLt openL with _ | er
    · rw [hext] at hr
      dsimp only at hr
      injection hr with hr
      exact hr.symm
    · rcases er with ⟨en, rest⟩
      obtain ⟨hmem, hsub, -⟩ := extractMin_spec entryLt openL en rest hext
      rw [hext] at hr
      dsimp only at hr
      have hne := hq en hmem
      rw [if_neg hne] at hr
      by_cases hc : en.2.1 ∈ closed
      · rw [if_pos hc] at hr
        exact ih rest closed r (fun e' he' => hq e' (hsub e' he')) hr
      · rw [if_neg hc] at hr
        refine ih _ _ r ?_ hr
        intro e' he'
        rcases AStarMazeGenerator.astar_solveDirs_mem m endP en.2.1 en.2.2 (en.2.1 :: closed)
            dirs1 rest e' he' with h | h
        · exact hq e' (hsub e' h)
        · intro heq
          rw [heq] at h
          exact hwall h

theorem AStarMazeGenerator.astar_solve_wall_end (m : Grid) (s e : Pos) (hse : s ≠ e)
    (hwall : cellAt m e ≠ 0) :
    AStarMazeGenerator.solve m s e = some ([], m) := by
  obtain ⟨res, hres⟩ := AStarMazeGenerator.astar_solve_some m s e
  have hloop : AStarMazeGenerator.solveLoop (5 * (gridWidth m * gridHeight m) + 8) m e
      [(0, s, [s])] [] = some res := hres
  have hq : ∀ en ∈ [((0 : Nat), s, [s])], en.2.1 ≠ e := by
    intro en hen
    have h2 : en = (0, s, [s]) := by simpa using hen
    rw [h2]
    exact hse
  have hr := AStarMazeGenerator.astar_solveLoop_notFound m e hwall _ _ _ res hq hloop
  rw [hres, hr]

/-- C10: for every grid, every start, and every end distinct from start whose
cell is a WALL (or out of bounds, which reads as a wall), each of the DFS,
BFS and A* solvers of `maze_algorithms` returns the empty path (and the grid
untouched): neighbour expansion only admits PASSAGE cells, so a WALL end is
treated exactly like an unreachable target. -/
theorem C10_theorem (m : Grid) (s e : Pos) (hse : s ≠ e) (hwall : cellAt m e ≠ 0) :
    DFSMazeGenerator.solve m s e = some ([], m) ∧
    BFSMazeGenerator.solve m s e = some ([], m) ∧
    AStarMazeGenerator.solve m s e = some ([], m) :=
  ⟨DFSMazeGenerator.dfs_solve_wall_end m s e hse hwall,
   BFSMazeGenerator.bfs_solve_wall_end m s e hse hwall,
   AStarMazeGenerator.astar_solve_wall_end m s e hse hwall⟩

theorem C10_witness :
    (((0, 0) : Pos) ≠ (1, 0) ∧ cellAt [[0, 1]] (1, 0) ≠ 0) ∧
    (DFSMazeGenerator.solve [[0, 1]] (0, 0) (1, 0) = some ([], [[0, 1]]) ∧
     BFSMazeGenerator.solve [[0, 1]] (0, 0) (1, 0) = some ([], [[0, 1]]) ∧
     AStarMazeGenerator.solve [[0, 1]] (0, 0) (1, 0) = some ([], [[0, 1]])) :=
  ⟨by decide, C10_theorem [[0, 1]] (0, 0) (1, 0) (by decide) (by decide)⟩

/-! ## Solvers on disconnected inputs

Every cell a solver ever enqueues or recurses into is reachable from the
start, so with `end` unreachable the searches exhaust and fail. -/

theorem ValidPath.snoc {m : Grid} {n : Pos} (hn : passage m n) :
    ∀ {a b : Pos} {l : List Pos}, ValidPath m a b l → adjacent b n →
      ValidPath m a n (l ++ [n]) := by
  intro a b l h
  induction h with
  | single a ha =>
    intro hbn
    exact ValidPath.cons a n n [n] hbn ha (ValidPath.single n hn)
  | cons a b c l hab ha h ih =>
    intro hbn
    exact ValidPath.cons a b n (l ++ [n]) hab ha (ih hbn)

theorem Reach.refl_of_passage {m : Grid} {a : Pos} (ha : passage m a) : Reach m a a :=
  ⟨[a], ValidPath.single a ha⟩

theorem Reach.step {m : Grid} {s cur n : Pos} (h : Reach m s cur)
    (hadj : adjacent cur n) (hn : passage m n) : Reach m s n := by
  obtain ⟨l, hl⟩ := h
  exact ⟨l ++ [n], ValidPath.snoc hn hl hadj⟩

theorem adjacent_of_dir {x y dx dy : Int} (hd : (dx, dy) ∈ dirs1) :
    adjacent (x, y) (x + dx, y + dy) := by
  simp only [dirs1, List.mem_cons, List.not_mem_nil, or_false, Prod.mk.injEq] at hd
  unfold adjacent
  dsimp only
  rcases hd with ⟨h1, h2⟩ | ⟨h1, h2⟩ | ⟨h1, h2⟩ | ⟨h1, h2⟩ <;> subst h1 <;> subst h2 <;> omega

theorem DFSMazeGenerator.getNeighbors_adjacent {m : Grid} {x y : Int} {n : Pos}
    (hn : n ∈ DFSMazeGenerator.getNeighbors m x y) : adjacent (x, y) n := by
  unfold DFSMazeGenerator.getNeighbors at hn
  rcases List.mem_filterMap.1 hn with ⟨d, hd1, hd⟩
  by_cases hg : inBounds (gridWidth m) (gridHeight m) (x + d.1, y + d.2) ∧
      cellAt m (x + d.1, y + d.2) = 0
  · rw [if_pos hg] at hd
    cases hd
    rcases d with ⟨dx, dy⟩
    exact adjacent_of_dir hd1
  · rw [if_neg hg] at hd
    cases hd

theorem DFSMazeGenerator.dfsDirs_notFoundQ (m0 : Grid) (Q : Pos → Prop)
    (recur : Grid → Pos → List Pos → List Pos → Option (Bool × List Pos × List Pos × Grid))
    (hrec : ∀ n v p r', Q n → recur m0 n v p = some r' →
      r'.1 = false ∧ r'.2.2.2 = m0) :
    ∀ (ns : List Pos) (c : Pos) (visited path : List Pos)
      (r : Bool × List Pos × List Pos × Grid),
      (∀ n ∈ ns, Q n) →
      DFSMazeGenerator.dfsDirs recur c m0 visited path ns = some r →
      r.1 = false ∧ r.2.2.2 = m0 := by
  intro ns
  induction ns with
  | nil =>
    intro c visited path r _ hr
    rw [DFSMazeGenerator.dfsDirs] at hr
    injection hr with hr
    subst hr
    exact ⟨rfl, rfl⟩
  | cons n rest ih =>
    intro c visited path r hns hr
    rw [DFSMazeGenerator.dfsDirs] at hr
    by_cases hv : n ∉ visited
    · rw [if_pos hv] at hr
      match hc : recur m0 n visited path with
      | none => rw [hc] at hr; cases hr
      | some (true, v', p', m') =>
        have h2 := hrec n visited path _ (hns n (List.mem_cons_self _ _)) hc
        simp at h2
      | some (false, v', p', m') =>
        have h2 := hrec n visited path _ (hns n (List.mem_cons_self _ _)) hc
        rw [hc] at hr
        dsimp only at hr h2
        rw [h2.2] at hr
        exact ih c v' p' r (fun n' hn' => hns n' (List.mem_cons_of_mem _ hn')) hr
    · rw [if_neg hv] at hr
      exact ih c visited path r (fun n' hn' => hns n' (List.mem_cons_of_mem _ hn')) hr

theorem DFSMazeGenerator.dfsAux_unreach (m : Grid) (s endP : Pos)
    (hnr : ¬ Reach m s endP) :
    ∀ (fuel : Nat) (c : Pos) (visited path : List Pos)
      (r : Bool × List Pos × List Pos × Grid),
      Reach m s c →
      DFSMazeGenerator.dfsAux fuel m endP c visited path = some r →
      r.1 = false ∧ r.2.2.2 = m := by
  intro fuel
  induction fuel with
  | zero => intro c v p r _ hr; cases hr
  | succ fuel ih =>
    intro c v p r hc hr
    have hce : c ≠ endP := fun he => hnr (he ▸ hc)
    rw [DFSMazeGenerator.dfsAux, if_neg hce] at hr
    refine DFSMazeGenerator.dfsDirs_notFoundQ m (Reach m s) _ ?_ _ c (c :: v) p r ?_ hr
    · intro n v' p' r' hn hr'
      exact ih n v' p' r' hn hr'
    · intro n hn
      exact Reach.step hc (DFSMazeGenerator.getNeighbors_adjacent hn)
        ⟨DFSMazeGenerator.getNeighbors_inBounds hn, DFSMazeGenerator.getNeighbors_passage hn⟩

theorem DFSMazeGenerator.dfs_solve_unreach (m : Grid) (s e : Pos) (hs : passage m s)
    (hnr : ¬ Reach m s e) :
    DFSMazeGenerator.solve m s e = some ([], m) := by
  unfold DFSMazeGenerator.solve
  have h1 : newCount (allCells (gridWidth m) (gridHeight m)) (s :: []) ≤
      (allCells (gridWidth m) (gridHeight m)).length := newCount_le_length _ _
  rw [length_allCells] at h1
  obtain ⟨res, hres, -, -⟩ := DFSMazeGenerator.dfsAux_some
    (gridWidth m * gridHeight m + 3) m e s [] [] (by omega)
  obtain ⟨hf, hm2⟩ := DFSMazeGenerator.dfsAux_unreach m s e hnr _ s [] [] res
    (Reach.refl_of_passage hs) hres
  rw [hres]
  rcases res with ⟨found, v, pa, m'⟩
  dsimp only at hf hm2
  subst hf
  subst hm2
  rfl

theorem BFSMazeGenerator.bfs_solveDirs_memAdj (m : Grid) (x y : Int) (path : List Pos) :
    ∀ (ds : List (Int × Int)), (∀ d ∈ ds, d ∈ dirs1) →
      ∀ (queue : List (Pos × List Pos)) (visited : List Pos),
      ∀ en ∈ (BFSMazeGenerator.solveDirs m x y path (queue, visited) ds).1,
        en ∈ queue ∨ (passage m en.1 ∧ adjacent (x, y) en.1) := by
  intro ds
  induction ds with
  | nil =>
    intro _ queue visited en hen
    rw [BFSMazeGenerator.solveDirs] at hen
    exact Or.inl hen
  | cons d rest ih =>
    intro hds queue visited en hen
    rcases d with ⟨dx, dy⟩
    rw [BFSMazeGenerator.solveDirs] at hen
    by_cases hg : inBounds (gridWidth m) (gridHeight m) (x + dx, y + dy) ∧
        cellAt m (x + dx, y + dy) = 0 ∧ (x + dx, y + dy) ∉ visited
    · rw [if_pos hg] at hen
      rcases ih (fun d' hd' => hds d' (List.mem_cons_of_mem _ hd')) _ _ en hen with h | h
      · rcases List.mem_append.1 h with h | h
        · exact Or.inl h
        · right
          have he : en = ((x + dx, y + dy), path ++ [(x + dx, y + dy)]) := by
            simpa using h
          rw [he]
          exact ⟨⟨hg.1, hg.2.1⟩, adjacent_of_dir (hds (dx, dy) (List.mem_cons_self _ _))⟩
      · exact Or.inr h
    · rw [if_neg hg] at hen
      exact ih (fun d' hd' => hds d' (List.mem_cons_of_mem _ hd')) _ _ en hen

theorem BFSMazeGenerator.bfs_solveLoop_unreach (m : Grid) (s endP : Pos)
    (hnr : ¬ Reach m s endP) :
    ∀ (fuel : Nat) (queue : List (Pos × List Pos)) (visited : List Pos)
      (r : List Pos × Grid),
      (∀ en ∈ queue, Reach m s en.1) →
      BFSMazeGenerator.solveLoop fuel m endP queue visited = some r →
      r = ([], m) := by
  intro fuel
  induction fuel with
  | zero => intro queue visited r _ hr; cases hr
  | succ fuel ih =>
    intro queue visited r hq hr
    match queue with
    | [] =>
      rw [BFSMazeGenerator.solveLoop] at hr
      injection hr with hr
      exact hr.symm
    | ((x, y), path) :: queue =>
      have hxy : Reach m s (x, y) := hq ((x, y), path) (List.mem_cons_self _ _)
      have hne : (x, y) ≠ endP := fun he => hnr (he ▸ hxy)
      rw [BFSMazeGenerator.solveLoop, if_neg hne] at hr
      dsimp only at hr
      refine ih _ _ r ?_ hr
      intro en hen
      rcases BFSMazeGenerator.bfs_solveDirs_memAdj m x y path dirs1 (fun d hd => hd)
          queue visited en hen with h | h
      · exact hq en (List.mem_cons_of_mem _ h)
      · exact Reach.step hxy h.2 h.1

theorem BFSMazeGenerator.bfs_solve_unreach (m : Grid) (s e : Pos) (hs : passage m s)
    (hnr : ¬ Reach m s e) :
    BFSMazeGenerator.solve m s e = some ([], m) := by
  obtain ⟨res, hres⟩ := BFSMazeGenerator.bfs_solve_some m s e
  have hloop : BFSMazeGenerator.solveLoop (gridWidth m * gridHeight m + 2) m e
      [(s, [s])] [s] = some res := hres
  have hq : ∀ en ∈ [(s, [s])], Reach m s en.1 := by
    intro en hen
    have h2 : en = (s, [s]) := by simpa using hen
    rw [h2]
    exact Reach.refl_of_passage hs
  have hr := BFSMazeGenerator.bfs_solveLoop_unreach m s e hnr _ _ _ res hq hloop
  rw [hres, hr]

theorem AStarMazeGenerator.astar_solveDirs_memAdj (m : Grid) (endP cur : Pos) (path : List Pos)
    (closed : List Pos) :
    ∀ (ds : List (Int × Int)), (∀ d ∈ ds, d ∈ dirs1) →
      ∀ (openL : List (Nat × Pos × List Pos)),
      ∀ en ∈ AStarMazeGenerator.solveDirs m endP cur path closed openL ds,
        en ∈ openL ∨ (passage m en.2.1 ∧ adjacent cur en.2.1) := by
  intro ds
  induction ds with
  | nil =>
    intro _ openL en hen
    rw [AStarMazeGenerator.solveDirs] at hen
    exact Or.inl hen
  | cons d rest ih =>
    intro hds openL en hen
    rcases d with ⟨dx, dy⟩
    rw [AStarMazeGenerator.solveDirs] at hen
    by_cases hg : inBounds (gridWidth m) (gridHeight m) (cur.1 + dx, cur.2 + dy) ∧
        cellAt m (cur.1 + dx, cur.2 + dy) = 0 ∧ (cur.1 + dx, cur.2 + dy) ∉ closed
    · rw [if_pos hg] at hen
      rcases ih (fun d' hd' => hds d' (List.mem_cons_of_mem _ hd')) _ en hen with h | h
      · rcases List.mem_append.1 h with h | h
        · exact Or.inl h
        · right
          have he : en = (path.length + manhattan (cur.1 + dx, cur.2 + dy) endP,
              (cur.1 + dx, cur.2 + dy), path ++ [(cur.1 + dx, cur.2 + dy)]) := by
            simpa using h
          rw [he]
          exact ⟨⟨hg.1, hg.2.1⟩, adjacent_of_dir (hds (dx, dy) (List.mem_cons_self _ _))⟩
      · exact Or.inr h
    · rw [if_neg hg] at hen
      exact ih (fun d' hd' => hds d' (List.mem_cons_of_mem _ hd')) _ en hen

theorem AStarMazeGenerator.astar_solveLoop_unreach (m : Grid) (s endP : Pos)
    (hnr : ¬ Reach m s endP) :
    ∀ (fuel : Nat) (openL : List (Nat × Pos × List Pos)) (closed : List Pos)
      (r : List Pos × Grid),
      (∀ en ∈ openL, Reach m s en.2.1) →
      AStarMazeGenerator.solveLoop fuel m endP openL closed = some r →
      r = ([], m) := by
  intro fuel
  induction fuel with
  | zero => intro openL closed r _ hr; cases hr
  | succ fuel ih =>
    intro openL closed r hq hr
    rw [AStarMazeGenerator.solveLoop] at hr
    rcases hext : extractMin entryLt openL with _ | er
    · rw [hext] at hr
      dsimp only at hr
      injection hr with hr
      exact hr.symm
    · rcases er with ⟨en, rest⟩
      obtain ⟨hmem, hsub, -⟩ := extractMin_spec entryLt openL en rest hext
      rw [hext] at hr
      dsimp only at hr
      have hrch := hq en hmem
      have hne : en.2.1 ≠ endP := fun he => hnr (he ▸ hrch)
      rw [if_neg hne] at hr
      by_cases hc : en.2.1 ∈ closed
      · rw [if_pos hc] at hr
        exact ih rest closed r (fun e' he' => hq e' (hsub e' he')) hr
      · rw [if_neg hc] at hr
        refine ih _ _ r ?_ hr
        intro e' he'
        rcases AStarMazeGenerator.astar_solveDirs_memAdj m endP en.2.1 en.2.2 (en.2.1 :: closed)
            dirs1 (fun d hd => hd) rest e' he' with h | h
        · exact hq e' (hsub e' h)
        · exact Reach.step hrch h.2 h.1

theorem AStarMazeGenerator.astar_solve_unreach (m : Grid) (s e : Pos) (hs : passage m s)
    (hnr : ¬ Reach m s e) :
    AStarMazeGenerator.solve m s e = some ([], m) := by
  obtain ⟨res, hres⟩ := AStarMazeGenerator.astar_solve_some m s e
  have hloop : AStarMazeGenerator.solveLoop (5 * (gridWidth m * gridHeight m) + 8) m e
      [(0, s, [s])] [] = some res := hres
  have hq : ∀ en ∈ [((0 : Nat), s, [s])], Reach m s en.2.1 := by
    intro en hen
    have h2 : en = (0, s, [s]) := by simpa using hen
    rw [h2]
    exact Reach.refl_of_passage hs
  have hr := AStarMazeGenerator.astar_solveLoop_unreach m s e hnr _ _ _ res hq hloop
  rw [hres, hr]

theorem prim_generator.solveDfsDirs_unreach (m0 : Grid) (s endP : Pos)
    (hnr : ¬ Reach m0 s endP) (cur : Pos) (hcur : Reach m0 s cur)
    (recur : Grid → Pos → List Pos → List Pos → Option (Bool × List Pos × List Pos × Grid))
    (hrec : ∀ n v p r', Reach m0 s n → recur m0 n v p = some r' →
      r'.1 = false ∧ r'.2.2.1 = p ∧ r'.2.2.2 = m0) :
    ∀ (ds : List (Int × Int)), (∀ d ∈ ds, d ∈ dirs1) →
      ∀ (visited path : List Pos) (r : Bool × List Pos × List Pos × Grid),
      prim_generator.solveDfsDirs recur cur m0 visited path ds = some r →
      r.1 = false ∧ r.2.2.1 = path ∧ r.2.2.2 = m0 := by
  intro ds
  induction ds with
  | nil =>
    intro _ visited path r hr
    rw [prim_generator.solveDfsDirs] at hr
    injection hr with hr
    subst hr
    exact ⟨rfl, rfl, rfl⟩
  | cons d rest ih =>
    intro hds visited path r hr
    rcases d with ⟨dx, dy⟩
    rw [prim_generator.solveDfsDirs] at hr
    by_cases hg : inBounds (gridWidth m0) (gridHeight m0) (cur.1 + dx, cur.2 + dy) ∧
        cellAt m0 (cur.1 + dx, cur.2 + dy) = 0 ∧ (cur.1 + dx, cur.2 + dy) ∉ visited
    · rw [if_pos hg] at hr
      have hreach : Reach m0 s (cur.1 + dx, cur.2 + dy) :=
        Reach.step hcur (adjacent_of_dir (hds (dx, dy) (List.mem_cons_self _ _)))
          ⟨hg.1, hg.2.1⟩
      match hc : recur m0 (cur.1 + dx, cur.2 + dy) visited
          (path ++ [(cur.1 + dx, cur.2 + dy)]) with
      | none => rw [hc] at hr; cases hr
      | some (true, v', p', m') =>
        have h2 := hrec _ _ _ _ hreach hc
        simp at h2
      | some (false, v', p', m') =>
        have h2 := hrec _ _ _ _ hreach hc
        rw [hc] at hr
        dsimp only at hr h2
        obtain ⟨-, hp', hm'⟩ := h2
        rw [hm', hp'] at hr
        have hdrop : (path ++ [(cur.1 + dx, cur.2 + dy)]).dropLast = path := by simp
        rw [hdrop] at hr
        exact ih (fun d' hd' => hds d' (List.mem_cons_of_mem _ hd')) v' path r hr
    · rw [if_neg hg] at hr
      exact ih (fun d' hd' => hds d' (List.mem_cons_of_mem _ hd')) visited path r hr

theorem prim_generator.solveDfs_unreach (m : Grid) (s endP : Pos)
    (hnr : ¬ Reach m s endP) :
    ∀ (fuel : Nat) (cur : Pos) (visited path : List Pos)
      (r : Bool × List Pos × List Pos × Grid),
      Reach m s cur →
      prim_generator.solveDfs fuel m endP cur visited path = some r →
      r.1 = false ∧ r.2.2.1 = path ∧ r.2.2.2 = m := by
  intro fuel
  induction fuel with
  | zero => intro cur v p r _ hr; cases hr
  | succ fuel ih =>
    intro cur v p r hcur hr
    have hce : cur ≠ endP := fun he => hnr (he ▸ hcur)
    rw [prim_generator.solveDfs, if_neg hce] at hr
    refine prim_generator.solveDfsDirs_unreach m s endP hnr cur hcur _ ?_ dirs1
      (fun d hd => hd) (cur :: v) p r hr
    intro n v' p' r' hn hr'
    exact ih n v' p' r' hn hr'

theorem prim_generator.pg_solve_unreach (m : Grid) (s e : Pos) (hs : passage m s)
    (hnr : ¬ Reach m s e) :
    prim_generator.solve m s e = some ([s], m) := by
  unfold prim_generator.solve
  have h1 : newCount (allCells (gridWidth m) (gridHeight m)) (s :: []) ≤
      (allCells (gridWidth m) (gridHeight m)).length := newCount_le_length _ _
  rw [length_allCells] at h1
  obtain ⟨res, hres, -, -⟩ := prim_generator.solveDfs_some
    (gridWidth m * gridHeight m + 3) m e s [] [s] (by omega)
  obtain ⟨hf, hp, hm2⟩ := prim_generator.solveDfs_unreach m s e hnr _ s [] [s] res
    (Reach.refl_of_passage hs) hres
  rw [hres]
  rcases res with ⟨found, v, pa, m'⟩
  dsimp only at hf hp hm2
  subst hf
  subst hp
  subst hm2
  rfl

/-- C3 (corrected): when `start` and `end` are passage cells in disconnected
components of the passage graph, the DFS, BFS and A* solvers of
`maze_algorithms` do return the empty sequence (and no exception occurs),
but the Prim class's solver in prim_generator.py does not: having seeded its
path with `[start]` before the search and returning it unconditionally, it
yields the non-empty single-cell path `[start]`, indistinguishable from the
legitimate result for `start = end`. -/
theorem C3_theorem (m : Grid) (s e : Pos) (hs : passage m s) (he : passage m e)
    (hnr : ¬ Reach m s e) :
    DFSMazeGenerator.solve m s e = some ([], m) ∧
    BFSMazeGenerator.solve m s e = some ([], m) ∧
    AStarMazeGenerator.solve m s e = some ([], m) ∧
    prim_generator.solve m s e = some ([s], m) :=
  ⟨DFSMazeGenerator.dfs_solve_unreach m s e hs hnr,
   BFSMazeGenerator.bfs_solve_unreach m s e hs hnr,
   AStarMazeGenerator.astar_solve_unreach m s e hs hnr,
   prim_generator.pg_solve_unreach m s e hs hnr⟩

theorem C3_witness :
    (passage gridRow3 (0, 0) ∧ passage gridRow3 (2, 0) ∧
      ¬ Reach gridRow3 (0, 0) (2, 0)) ∧
    (DFSMazeGenerator.solve gridRow3 (0, 0) (2, 0) = some ([], gridRow3) ∧
     BFSMazeGenerator.solve gridRow3 (0, 0) (2, 0) = some ([], gridRow3) ∧
     AStarMazeGenerator.solve gridRow3 (0, 0) (2, 0) = some ([], gridRow3) ∧
     prim_generator.solve gridRow3 (0, 0) (2, 0) = some ([(0, 0)], gridRow3)) :=
  ⟨⟨by decide, by decide, not_reach_of_not_mem (by decide)⟩,
   C3_theorem gridRow3 (0, 0) (2, 0) (by decide) (by decide)
     (not_reach_of_not_mem (by decide))⟩

/-! ## Validity of returned paths (maze_algorithms solvers) -/

theorem DFSMazeGenerator.dfsDirs_found (m0 : Grid) (endP : Pos)
    (recur : Grid → Pos → List Pos → List Pos → Option (Bool × List Pos × List Pos × Grid))
    (hrec : ∀ n v p r', passage m0 n → recur m0 n v p = some r' →
      r'.2.2.2 = m0 ∧ (r'.1 = false → r'.2.2.1 = p) ∧
      (r'.1 = true → ∃ q, r'.2.2.1 = p ++ q ∧ ValidPath m0 n endP q.reverse)) :
    ∀ (ns : List Pos) (c : Pos) (visited path : List Pos)
      (r : Bool × List Pos × List Pos × Grid),
      (∀ n ∈ ns, passage m0 n ∧ adjacent c n) → passage m0 c →
      DFSMazeGenerator.dfsDirs recur c m0 visited path ns = some r →
      r.2.2.2 = m0 ∧ (r.1 = false → r.2.2.1 = path) ∧
      (r.1 = true → ∃ q, r.2.2.1 = path ++ q ∧ ValidPath m0 c endP q.reverse) := by
  intro ns
  induction ns with
  | nil =>
    intro c visited path r _ _ hr
    rw [DFSMazeGenerator.dfsDirs] at hr
    injection hr with hr
    subst hr
    exact ⟨rfl, fun _ => rfl, fun h => Bool.noConfusion h⟩
  | cons n rest ih =>
    intro c visited path r hns hc hr
    rw [DFSMazeGenerator.dfsDirs] at hr
    by_cases hv : n ∉ visited
    · rw [if_pos hv] at hr
      match hcall : recur m0 n visited path with
      | none => rw [hcall] at hr; cases hr
      | some (true, v', p', m') =>
        obtain ⟨hm', -, hq⟩ :=
          hrec n visited path _ (hns n (List.mem_cons_self _ _)).1 hcall
        obtain ⟨q, hpq, hvp⟩ := hq rfl
        rw [hcall] at hr
        dsimp only at hr hm' hpq
        injection hr with hr
        subst hr
        refine ⟨hm', fun h => Bool.noConfusion h, fun _ => ⟨q ++ [c], ?_, ?_⟩⟩
        · dsimp only
          rw [hpq, List.append_assoc]
        · have hrev : (q ++ [c]).reverse = c :: q.reverse := by simp
          rw [hrev]
          exact ValidPath.cons c n endP q.reverse (hns n (List.mem_cons_self _ _)).2 hc hvp
      | some (false, v', p', m') =>
        obtain ⟨hm', hp', -⟩ :=
          hrec n visited path _ (hns n (List.mem_cons_self _ _)).1 hcall
        rw [hcall] at hr
        dsimp only at hr hm' hp'
        rw [hm', hp' rfl] at hr
        exact ih c v' path r (fun n' hn' => hns n' (List.mem_cons_of_mem _ hn')) hc hr
    · rw [if_neg hv] at hr
      exact ih c visited path r (fun n' hn' => hns n' (List.mem_cons_of_mem _ hn')) hc hr

theorem DFSMazeGenerator.dfsAux_found (m : Grid) (endP : Pos) :
    ∀ (fuel : Nat) (c : Pos) (visited path : List Pos)
      (r : Bool × List Pos × List Pos × Grid),
      passage m c →
      DFSMazeGenerator.dfsAux fuel m endP c visited path = some r →
      r.2.2.2 = m ∧ (r.1 = false → r.2.2.1 = path) ∧
      (r.1 = true → ∃ q, r.2.2.1 = path ++ q ∧ ValidPath m c endP q.reverse) := by
  intro fuel
  induction fuel with
  | zero => intro c v p r _ hr; cases hr
  | succ fuel ih =>
    intro c v p r hc hr
    rw [DFSMazeGenerator.dfsAux] at hr
    by_cases he : c = endP
    · rw [if_pos he] at hr
      injection hr with hr
      subst hr
      refine ⟨rfl, fun h => Bool.noConfusion h, fun _ => ⟨[c], rfl, ?_⟩⟩
      subst he
      exact ValidPath.single c hc
    · rw [if_neg he] at hr
      refine DFSMazeGenerator.dfsDirs_found m endP _ ?_ _ c (c :: v) p r ?_ hc hr
      · intro n v' p' r' hn hr'
        exact ih n v' p' r' hn hr'
      · intro n hn
        exact ⟨⟨DFSMazeGenerator.getNeighbors_inBounds hn,
          DFSMazeGenerator.getNeighbors_passage hn⟩,
          DFSMazeGenerator.getNeighbors_adjacent hn⟩

theorem DFSMazeGenerator.dfs_solve_valid (m : Grid) (s e : Pos) (hs : passage m s)
    (res : List Pos × Grid) (hres : DFSMazeGenerator.solve m s e = some res)
    (hne : res.1 ≠ []) : ValidPath m s e res.1 := by
  unfold DFSMazeGenerator.solve at hres
  match haux : DFSMazeGenerator.dfsAux (gridWidth m * gridHeight m + 3) m e s [] [] with
  | none => rw [haux] at hres; cases hres
  | some (found, v, pa, m') =>
    rw [haux] at hres
    dsimp only at hres
    obtain ⟨hm', hfalse, htrue⟩ := DFSMazeGenerator.dfsAux_found m e _ s [] [] _ hs haux
    cases found
    · rw [if_neg (show ¬(false = true) by decide)] at hres
      injection hres with hres
      rw [← hres] at hne
      exact absurd rfl hne
    · rw [if_pos rfl] at hres
      injection hres with hres
      obtain ⟨q, hpq, hvp⟩ := htrue rfl
      dsimp only at hpq
      rw [List.nil_append] at hpq
      rw [← hres]
      dsimp only
      rw [hpq]
      exact hvp

theorem BFSMazeGenerator.bfs_solveDirs_memPath (m : Grid) (x y : Int) (path : List Pos) :
    ∀ (ds : List (Int × Int)), (∀ d ∈ ds, d ∈ dirs1) →
      ∀ (queue : List (Pos × List Pos)) (visited : List Pos),
      ∀ en ∈ (BFSMazeGenerator.solveDirs m x y path (queue, visited) ds).1,
        en ∈ queue ∨
          (passage m en.1 ∧ adjacent (x, y) en.1 ∧ en.2 = path ++ [en.1]) := by
  intro ds
  induction ds with
  | nil =>
    intro _ queue visited en hen
    rw [BFSMazeGenerator.solveDirs] at hen
    exact Or.inl hen
  | cons d rest ih =>
    intro hds queue visited en hen
    rcases d with ⟨dx, dy⟩
    rw [BFSMazeGenerator.solveDirs] at hen
    by_cases hg : inBounds (gridWidth m) (gridHeight m) (x + dx, y + dy) ∧
        cellAt m (x + dx, y + dy) = 0 ∧ (x + dx, y + dy) ∉ visited
    · rw [if_pos hg] at hen
      rcases ih (fun d' hd' => hds d' (List.mem_cons_of_mem _ hd')) _ _ en hen with h | h
      · rcases List.mem_append.1 h with h | h
        · exact Or.inl h
        · right
          have he : en = ((x + dx, y + dy), path ++ [(x + dx, y + dy)]) := by
            simpa using h
          rw [he]
          exact ⟨⟨hg.1, hg.2.1⟩,
            adjacent_of_dir (hds (dx, dy) (List.mem_cons_self _ _)), rfl⟩
      · exact Or.inr h
    · rw [if_neg hg] at hen
      exact ih (fun d' hd' => hds d' (List.mem_cons_of_mem _ hd')) _ _ en hen

theorem BFSMazeGenerator.bfs_solveLoop_valid (m : Grid) (s endP : Pos) :
    ∀ (fuel : Nat) (queue : List (Pos × List Pos)) (visited : List Pos)
      (r : List Pos × Grid),
      (∀ en ∈ queue, ValidPath m s en.1 en.2) →
      BFSMazeGenerator.solveLoop fuel m endP queue visited = some r →
      r.2 = m ∧ (r.1 = [] ∨ ValidPath m s endP r.1) := by
  intro fuel
  induction fuel with
  | zero => intro queue visited r _ hr; cases hr
  | succ fuel ih =>
    intro queue visited r hq hr
    match queue with
    | [] =>
      rw [BFSMazeGenerator.solveLoop] at hr
      injection hr with hr
      subst hr
      exact ⟨rfl, Or.inl rfl⟩
    | ((x, y), path) :: queue =>
      rw [BFSMazeGenerator.solveLoop] at hr
      by_cases he : (x, y) = endP
      · rw [if_pos he] at hr
        injection hr with hr
        subst hr
        have hv := hq ((x, y), path) (List.mem_cons_self _ _)
        exact ⟨rfl, Or.inr (he ▸ hv)⟩
      · rw [if_neg he] at hr
        dsimp only at hr
        refine ih _ _ r ?_ hr
        intro en hen
        rcases BFSMazeGenerator.bfs_solveDirs_memPath m x y path dirs1 (fun d hd => hd)
            queue visited en hen with h | ⟨hp, hadj, hpath⟩
        · exact hq en (List.mem_cons_of_mem _ h)
        · have hv := hq ((x, y), path) (List.mem_cons_self _ _)
          rw [hpath]
          exact ValidPath.snoc hp hv hadj

theorem BFSMazeGenerator.bfs_solve_valid (m : Grid) (s e : Pos) (hs : passage m s)
    (res : List Pos × Grid) (hres : BFSMazeGenerator.solve m s e = some res)
    (hne : res.1 ≠ []) : ValidPath m s e res.1 := by
  have hloop : BFSMazeGenerator.solveLoop (gridWidth m * gridHeight m + 2) m e
      [(s, [s])] [s] = some res := hres
  have hq : ∀ en ∈ [(s, [s])], ValidPath m s en.1 en.2 := by
    intro en hen
    have h2 : en = (s, [s]) := by simpa using hen
    rw [h2]
    exact ValidPath.single s hs
  obtain ⟨-, h⟩ := BFSMazeGenerator.bfs_solveLoop_valid m s e _ _ _ res hq hloop
  rcases h with h | h
  · exact absurd h hne
  · exact h

theorem AStarMazeGenerator.astar_solveDirs_memPath (m : Grid) (endP cur : Pos)
    (path : List Pos) (closed : List Pos) :
    ∀ (ds : List (Int × Int)), (∀ d ∈ ds, d ∈ dirs1) →
      ∀ (openL : List (Nat × Pos × List Pos)),
      ∀ en ∈ AStarMazeGenerator.solveDirs m endP cur path closed openL ds,
        en ∈ openL ∨
          (passage m en.2.1 ∧ adjacent cur en.2.1 ∧ en.2.2 = path ++ [en.2.1]) := by
  intro ds
  induction ds with
  | nil =>
    intro _ openL en hen
    rw [AStarMazeGenerator.solveDirs] at hen
    exact Or.inl hen
  | cons d rest ih =>
    intro hds openL en hen
    rcases d with ⟨dx, dy⟩
    rw [AStarMazeGenerator.solveDirs] at hen
    by_cases hg : inBounds (gridWidth m) (gridHeight m) (cur.1 + dx, cur.2 + dy) ∧
        cellAt m (cur.1 + dx, cur.2 + dy) = 0 ∧ (cur.1 + dx, cur.2 + dy) ∉ closed
    · rw [if_pos hg] at hen
      rcases ih (fun d' hd' => hds d' (List.mem_cons_of_mem _ hd')) _ en hen with h | h
      · rcases List.mem_append.1 h with h | h
        · exact Or.inl h
        · right
          have he : en = (path.length + manhattan (cur.1 + dx, cur.2 + dy) endP,
              (cur.1 + dx, cur.2 + dy), path ++ [(cur.1 + dx, cur.2 + dy)]) := by
            simpa using h
          rw [he]
          exact ⟨⟨hg.1, hg.2.1⟩,
            adjacent_of_dir (hds (dx, dy) (List.mem_cons_self _ _)), rfl⟩
      · exact Or.inr h
    · rw [if_neg hg] at hen
      exact ih (fun d' hd' => hds d' (List.mem_cons_of_mem _ hd')) _ en hen

theorem AStarMazeGenerator.astar_solveLoop_valid (m : Grid) (s endP : Pos) :
    ∀ (fuel : Nat) (openL : List (Nat × Pos × List Pos)) (closed : List Pos)
      (r : List Pos × Grid),
      (∀ en ∈ openL, ValidPath m s en.2.1 en.2.2) →
      AStarMazeGenerator.solveLoop fuel m endP openL closed = some r →
      r.2 = m ∧ (r.1 = [] ∨ ValidPath m s endP r.1) := by
  intro fuel
  induction fuel with
  | zero => intro openL closed r _ hr; cases hr
  | succ fuel ih =>
    intro openL closed r hq hr
    rw [AStarMazeGenerator.solveLoop] at hr
    rcases hext : extractMin entryLt openL with _ | er
    · rw [hext] at hr
      dsimp only at hr
      injection hr with hr
      subst hr
      exact ⟨rfl, Or.inl rfl⟩
    · rcases er with ⟨en, rest⟩
      obtain ⟨hmem, hsub, -⟩ := extractMin_spec entryLt openL en rest hext
      rw [hext] at hr
      dsimp only at hr
      by_cases he : en.2.1 = endP
      · rw [if_pos he] at hr
        injection hr with hr
        subst hr
        have hv := hq en hmem
        exact ⟨rfl, Or.inr (he ▸ hv)⟩
      · rw [if_neg he] at hr
        by_cases hc : en.2.1 ∈ closed
        · rw [if_pos hc] at hr
          exact ih rest closed r (fun e' he' => hq e' (hsub e' he')) hr
        · rw [if_neg hc] at hr
          refine ih _ _ r ?_ hr
          intro e' he'
          rcases AStarMazeGenerator.astar_solveDirs_memPath m endP en.2.1 en.2.2
              (en.2.1 :: closed) dirs1 (fun d hd => hd) rest e' he' with h | ⟨hp, hadj, hpath⟩
          · exact hq e' (hsub e' h)
          · have hv := hq en hmem
            rw [hpath]
            exact ValidPath.snoc hp hv hadj

theorem AStarMazeGenerator.astar_solve_valid (m : Grid) (s e : Pos) (hs : passage m s)
    (res : List Pos × Grid) (hres : AStarMazeGenerator.solve m s e = some res)
    (hne : res.1 ≠ []) : ValidPath m s e res.1 := by
  have hloop : AStarMazeGenerator.solveLoop (5 * (gridWidth m * gridHeight m) + 8) m e
      [(0, s, [s])] [] = some res := hres
  have hq : ∀ en ∈ [((0 : Nat), s, [s])], ValidPath m s en.2.1 en.2.2 := by
    intro en hen
    have h2 : en = (0, s, [s]) := by simpa using hen
    rw [h2]
    exact ValidPath.single s hs
  obtain ⟨-, h⟩ := AStarMazeGenerator.astar_solveLoop_valid m s e _ _ _ res hq hloop
  rcases h with h | h
  · exact absurd h hne
  · exact h

/-- C7 (corrected): for passage `start`/`end`, every non-empty path returned
by the DFS, BFS or A* solver of `maze_algorithms` is a valid path — it runs
from `start` to `end` inclusive, consecutive positions are 4-adjacent and
every position is a passage cell.  The claim fails for "any solver": the
Prim class's solver returns the non-empty `[start]` even when `end` is
unreachable (see its counterexample). -/
theorem C7_theorem (m : Grid) (s e : Pos) (hs : passage m s)
    (res1 res2 res3 : List Pos × Grid)
    (h1 : DFSMazeGenerator.solve m s e = some res1)
    (h2 : BFSMazeGenerator.solve m s e = some res2)
    (h3 : AStarMazeGenerator.solve m s e = some res3) :
    (res1.1 ≠ [] → ValidPath m s e res1.1) ∧
    (res2.1 ≠ [] → ValidPath m s e res2.1) ∧
    (res3.1 ≠ [] → ValidPath m s e res3.1) :=
  ⟨DFSMazeGenerator.dfs_solve_valid m s e hs res1 h1,
   BFSMazeGenerator.bfs_solve_valid m s e hs res2 h2,
   AStarMazeGenerator.astar_solve_valid m s e hs res3 h3⟩

/-- The common path found by all three solvers on `aStarGrid55`. -/
def solPath55 : List Pos := [(1, 1), (1, 2), (1, 3), (2, 3), (3, 3)]

theorem C7_witness :
    (passage aStarGrid55 (1, 1) ∧
     DFSMazeGenerator.solve aStarGrid55 (1, 1) (3, 3) = some (solPath55, aStarGrid55) ∧
     BFSMazeGenerator.solve aStarGrid55 (1, 1) (3, 3) = some (solPath55, aStarGrid55) ∧
     AStarMazeGenerator.solve aStarGrid55 (1, 1) (3, 3) = some (solPath55, aStarGrid55)) ∧
    (((solPath55, aStarGrid55).1 ≠ [] → ValidPath aStarGrid55 (1, 1) (3, 3) solPath55) ∧
     ((solPath55, aStarGrid55).1 ≠ [] → ValidPath aStarGrid55 (1, 1) (3, 3) solPath55) ∧
     ((solPath55, aStarGrid55).1 ≠ [] → ValidPath aStarGrid55 (1, 1) (3, 3) solPath55)) :=
  ⟨⟨by decide, by decide, by decide, by decide⟩,
   C7_theorem aStarGrid55 (1, 1) (3, 3) (by decide)
     (solPath55, aStarGrid55) (solPath55, aStarGrid55) (solPath55, aStarGrid55)
     (by decide) (by decide) (by decide)⟩

/-! ## Parity lattice of generated passages -/

/-- Every in-bounds passage cell of `m` is a room or a connecting cell of
the parity lattice anchored at `par`. -/
def OnLattice (par : Pos) (w h : Nat) (m : Grid) : Prop :=
  ∀ p : Pos, inBounds w h p → cellAt m p = 0 → isRoom par p ∨ isMid par p

theorem OnLattice.mk_maze (par : Pos) (w h : Nat) : OnLattice par w h (mkMaze w h) := by
  intro p _ hc
  rw [cellAt_mkMaze] at hc
  cases hc

theorem OnLattice.carve {par : Pos} {w h : Nat} {m : Grid}
    (hrect : rectangular m) (hgw : gridWidth m = w) (hgh : gridHeight m = h)
    (hm : OnLattice par w h m) {q : Pos} (hqb : inBounds w h q)
    (hq : isRoom par q ∨ isMid par q) :
    OnLattice par w h (setCell m q 0) := by
  intro p hp hc
  by_cases hpq : p = q
  · subst hpq
    exact hq
  · rw [cellAt_setCell_ne 0 hpq (by rw [hgw, hgh]; exact hqb)
      (by rw [hgw, hgh]; exact hp)] at hc
    exact hm p hp hc

/-- Stepping two cells in a grid direction from a room lands on a room, and
the cell in between (at `d / 2`) is a connecting cell of the lattice. -/
theorem lattice_step {par : Pos} {w h : Nat} {x y dx dy : Int}
    (hd : (dx, dy) ∈ dirs2) (hxy : inBounds w h (x, y)) (hroom : isRoom par (x, y))
    (hnb : inBounds w h (x + dx, y + dy)) :
    inBounds w h (x + dx / 2, y + dy / 2) ∧ isMid par (x + dx / 2, y + dy / 2) ∧
      isRoom par (x + dx, y + dy) := by
  obtain ⟨h1, h2, h3, h4⟩ := hxy
  obtain ⟨h5, h6, h7, h8⟩ := hnb
  obtain ⟨hr1, hr2⟩ := hroom
  dsimp only at h1 h2 h3 h4 h5 h6 h7 h8 hr1 hr2
  unfold inBounds isMid isRoom
  dsimp only
  rcases dirs2_cases hd with hdd | hdd | hdd | hdd <;>
    (injection hdd with ha hb; subst ha; subst hb) <;> omega

/-- `randrange(0, stop, 2)` draws an even number in `[0, stop)`. -/
theorem randrange_even_spec {r : Rng} {stop : Int} {res : Int × Rng}
    (h : randrange r 0 stop 2 = some res) :
    0 ≤ res.1 ∧ res.1 < stop ∧ res.1 % 2 = 0 := by
  unfold randrange at h
  dsimp only at h
  by_cases hn : ((stop - 0 + 2 - 1) / 2).toNat = 0
  · rw [if_pos hn] at h
    cases h
  · rw [if_neg hn] at h
    injection h with h
    subst h
    dsimp only
    unfold drawNat
    dsimp only
    set n : Nat := ((stop - 0 + 2 - 1) / 2).toNat with hdefn
    have hkn : r 0 % n < n := Nat.mod_lt _ (Nat.pos_of_ne_zero hn)
    have hnn : (n : Int) = (stop + 1) / 2 ∨ (stop + 1) / 2 < 0 := by
      rw [hdefn]
      by_cases hs : 0 ≤ (stop - 0 + 2 - 1) / 2
      · left
        rw [Int.toNat_of_nonneg hs]
        congr 1
        ring_nf
      · right
        have : (stop - 0 + 2 - 1) = stop + 1 := by ring
        omega
    rcases hnn with hnn | hnn
    · omega
    · omega

theorem DFSMazeGenerator.carveDirs_lattice (par : Pos) (w h : Nat)
    (recur : Rng → Int → Int → Grid → Option (Grid × Rng))
    (hrec : ∀ (r : Rng) (x y : Int) (mz : Grid) (out : Grid × Rng),
      inBounds w h (x, y) → isRoom par (x, y) →
      rectangular mz → gridWidth mz = w → gridHeight mz = h → OnLattice par w h mz →
      recur r x y mz = some out →
      rectangular out.1 ∧ gridWidth out.1 = w ∧ gridHeight out.1 = h ∧
        OnLattice par w h out.1) :
    ∀ (ds : List (Int × Int)), (∀ d ∈ ds, d ∈ dirs2) →
    ∀ (x y : Int) (r : Rng) (mz : Grid) (out : Grid × Rng),
      inBounds w h (x, y) → isRoom par (x, y) →
      rectangular mz → gridWidth mz = w → gridHeight mz = h → OnLattice par w h mz →
      DFSMazeGenerator.carveDirs recur w h x y r mz ds = some out →
      rectangular out.1 ∧ gridWidth out.1 = w ∧ gridHeight out.1 = h ∧
        OnLattice par w h out.1 := by
  intro ds
  induction ds with
  | nil =>
    intro _ x y r mz out hxy hroom hrect hgw hgh hlat hcd
    rw [DFSMazeGenerator.carveDirs] at hcd
    injection hcd with hcd
    subst hcd
    exact ⟨hrect, hgw, hgh, hlat⟩
  | cons d rest ih =>
    intro hds x y r mz out hxy hroom hrect hgw hgh hlat hcd
    rcases d with ⟨dx, dy⟩
    rw [DFSMazeGenerator.carveDirs] at hcd
    by_cases hg : inBounds w h (x + dx, y + dy) ∧ cellAt mz (x + dx, y + dy) = 1
    · rw [if_pos hg] at hcd
      dsimp only at hcd
      obtain ⟨hmb, hmid, hroom2⟩ :=
        lattice_step (hds (dx, dy) (List.mem_cons_self _ _)) hxy hroom hg.1
      have hrect1 := rectangular_setCell hrect (x + dx / 2, y + dy / 2) 0
      have hgw1 : gridWidth (setCell mz (x + dx / 2, y + dy / 2) 0) = w := by
        rw [gridWidth_setCell]
        exact hgw
      have hgh1 : gridHeight (setCell mz (x + dx / 2, y + dy / 2) 0) = h := by
        rw [gridHeight_setCell]
        exact hgh
      have hlat1 : OnLattice par w h (setCell mz (x + dx / 2, y + dy / 2) 0) :=
        OnLattice.carve hrect hgw hgh hlat hmb (Or.inr hmid)
      match hcall : recur r (x + dx) (y + dy) (setCell mz (x + dx / 2, y + dy / 2) 0) with
      | none => rw [hcall] at hcd; cases hcd
      | some mr =>
        obtain ⟨hrect2, hgw2, hgh2, hlat2⟩ :=
          hrec r (x + dx) (y + dy) _ mr hg.1 hroom2 hrect1 hgw1 hgh1 hlat1 hcall
        rw [hcall] at hcd
        exact ih (fun d' hd' => hds d' (List.mem_cons_of_mem _ hd')) x y mr.2 mr.1 out
          hxy hroom hrect2 hgw2 hgh2 hlat2 hcd
    · rw [if_neg hg] at hcd
      exact ih (fun d' hd' => hds d' (List.mem_cons_of_mem _ hd')) x y r mz out
        hxy hroom hrect hgw hgh hlat hcd

theorem DFSMazeGenerator.carvePath_lattice (par : Pos) (w h : Nat) :
    ∀ (fuel : Nat) (r : Rng) (x y : Int) (mz : Grid) (out : Grid × Rng),
      inBounds w h (x, y) → isRoom par (x, y) →
      rectangular mz → gridWidth mz = w → gridHeight mz = h → OnLattice par w h mz →
      DFSMazeGenerator.carvePath fuel w h r x y mz = some out →
      rectangular out.1 ∧ gridWidth out.1 = w ∧ gridHeight out.1 = h ∧
        OnLattice par w h out.1 := by
  intro fuel
  induction fuel with
  | zero => intro r x y mz out _ _ _ _ _ _ h0; cases h0
  | succ fuel ih =>
    intro r x y mz out hxy hroom hrect hgw hgh hlat hcp
    rw [DFSMazeGenerator.carvePath] at hcp
    refine DFSMazeGenerator.carveDirs_lattice par w h _ ?_ _ ?_ x y _ _ out hxy hroom
      (rectangular_setCell hrect (x, y) 0)
      (by rw [gridWidth_setCell]; exact hgw)
      (by rw [gridHeight_setCell]; exact hgh)
      (OnLattice.carve hrect hgw hgh hlat hxy (Or.inl hroom)) hcp
    · intro r' x' y' mz' out' a b c d e f g
      exact ih r' x' y' mz' out' a b c d e f g
    · intro d hd
      exact shuffle_dirs2_mem r hd

theorem DFSMazeGenerator.dfs_generate_lattice (r : Rng) (w h : Nat)
    (out : Grid × Rng) (hgen : DFSMazeGenerator.generate r w h = some out) :
    OnLattice (0, 0) w h out.1 := by
  unfold DFSMazeGenerator.generate at hgen
  dsimp only at hgen
  match h1 : randrange r 0 (w : Int) 2 with
  | none => rw [h1] at hgen; cases hgen
  | some sxr =>
    rw [h1] at hgen
    dsimp only at hgen
    match h2 : randrange sxr.2 0 (h : Int) 2 with
    | none => rw [h2] at hgen; cases hgen
    | some syr =>
      rw [h2] at hgen
      dsimp only at hgen
      obtain ⟨hx0, hxw, hxp⟩ := randrange_even_spec h1
      obtain ⟨hy0, hyh, hyp⟩ := randrange_even_spec h2
      have hh1 : 1 ≤ h := by omega
      exact (DFSMazeGenerator.carvePath_lattice (0, 0) w h (w * h + 1) syr.2
        sxr.1 syr.1 (mkMaze w h) out ⟨hx0, hxw, hy0, hyh⟩
        (by constructor <;> dsimp only <;> omega)
        (rectangular_mkMaze w h) (gridWidth_mkMaze w h hh1) (gridHeight_mkMaze w h)
        (OnLattice.mk_maze (0, 0) w h) hgen).2.2.2

theorem BFSMazeGenerator.genDirs_lattice (par : Pos) (w h : Nat) (x y : Int)
    (hxy : inBounds w h (x, y)) (hroom : isRoom par (x, y)) :
    ∀ (ds : List (Int × Int)), (∀ d ∈ ds, d ∈ dirs2) →
    ∀ (mz : Grid) (queue visited : List Pos),
      rectangular mz → gridWidth mz = w → gridHeight mz = h → OnLattice par w h mz →
      (∀ c ∈ queue, inBounds w h c ∧ isRoom par c) →
      rectangular (BFSMazeGenerator.genDirs w h x y (mz, queue, visited) ds).1 ∧
      gridWidth (BFSMazeGenerator.genDirs w h x y (mz, queue, visited) ds).1 = w ∧
      gridHeight (BFSMazeGenerator.genDirs w h x y (mz, queue, visited) ds).1 = h ∧
      OnLattice par w h (BFSMazeGenerator.genDirs w h x y (mz, queue, visited) ds).1 ∧
      (∀ c ∈ (BFSMazeGenerator.genDirs w h x y (mz, queue, visited) ds).2.1,
        inBounds w h c ∧ isRoom par c) := by
  intro ds
  induction ds with
  | nil =>
    intro _ mz queue visited hrect hgw hgh hlat hq
    rw [BFSMazeGenerator.genDirs]
    exact ⟨hrect, hgw, hgh, hlat, hq⟩
  | cons d rest ih =>
    intro hds mz queue visited hrect hgw hgh hlat hq
    rcases d with ⟨dx, dy⟩
    rw [BFSMazeGenerator.genDirs]
    by_cases hg : inBounds w h (x + dx, y + dy) ∧ (x + dx, y + dy) ∉ visited
    · rw [if_pos hg]
      obtain ⟨hmb, hmid, hroom2⟩ :=
        lattice_step (hds (dx, dy) (List.mem_cons_self _ _)) hxy hroom hg.1
      refine ih (fun d' hd' => hds d' (List.mem_cons_of_mem _ hd')) _ _ _
        (rectangular_setCell hrect (x + dx / 2, y + dy / 2) 0)
        (by rw [gridWidth_setCell]; exact hgw)
        (by rw [gridHeight_setCell]; exact hgh)
        (OnLattice.carve hrect hgw hgh hlat hmb (Or.inr hmid)) ?_
      intro c hc
      rcases List.mem_append.1 hc with hc | hc
      · exact hq c hc
      · have hce : c = (x + dx, y + dy) := by simpa using hc
        rw [hce]
        exact ⟨hg.1, hroom2⟩
    · rw [if_neg hg]
      exact ih (fun d' hd' => hds d' (List.mem_cons_of_mem _ hd')) _ _ _
        hrect hgw hgh hlat hq

theorem BFSMazeGenerator.genLoop_lattice (par : Pos) (w h : Nat) :
    ∀ (fuel : Nat) (r : Rng) (mz : Grid) (queue visited : List Pos) (g : Grid),
      rectangular mz → gridWidth mz = w → gridHeight mz = h → OnLattice par w h mz →
      (∀ c ∈ queue, inBounds w h c ∧ isRoom par c) →
      BFSMazeGenerator.genLoop fuel r w h mz queue visited = some g →
      OnLattice par w h g := by
  intro fuel
  induction fuel with
  | zero => intro r mz queue visited g _ _ _ _ _ h0; cases h0
  | succ fuel ih =>
    intro r mz queue visited g hrect hgw hgh hlat hq hgl
    match queue with
    | [] =>
      rw [BFSMazeGenerator.genLoop] at hgl
      injection hgl with hgl
      subst hgl
      exact hlat
    | (x, y) :: queue =>
      rw [BFSMazeGenerator.genLoop] at hgl
      obtain ⟨hxy, hroom⟩ := hq (x, y) (List.mem_cons_self _ _)
      obtain ⟨hrect1, hgw1, hgh1, hlat1, hq1⟩ :=
        BFSMazeGenerator.genDirs_lattice par w h x y hxy hroom
          (shuffle r dirs2).1 (fun d hd => shuffle_dirs2_mem r hd)
          (setCell mz (x, y) 0) queue visited
          (rectangular_setCell hrect (x, y) 0)
          (by rw [gridWidth_setCell]; exact hgw)
          (by rw [gridHeight_setCell]; exact hgh)
          (OnLattice.carve hrect hgw hgh hlat hxy (Or.inl hroom))
          (fun c hc => hq c (List.mem_cons_of_mem _ hc))
      exact ih _ _ _ _ g hrect1 hgw1 hgh1 hlat1 hq1 hgl

theorem BFSMazeGenerator.bfs_generate_lattice (r : Rng) (w h : Nat)
    (hw : 2 ≤ w) (hh : 2 ≤ h) (g : Grid)
    (hgen : BFSMazeGenerator.generate r w h = some g) :
    OnLattice (1, 1) w h g := by
  unfold BFSMazeGenerator.generate at hgen
  refine BFSMazeGenerator.genLoop_lattice (1, 1) w h (w * h + 2) r (mkMaze w h)
    [((1 : Int), (1 : Int))] [((1 : Int), (1 : Int))] g
    (rectangular_mkMaze w h) (gridWidth_mkMaze w h (by omega)) (gridHeight_mkMaze w h)
    (OnLattice.mk_maze (1, 1) w h) ?_ hgen
  intro c hc
  have hce : c = ((1 : Int), (1 : Int)) := by simpa using hc
  rw [hce]
  refine ⟨⟨by omega, by dsimp only; omega, by omega, by dsimp only; omega⟩, by decide⟩

/-- C4 (corrected): rooms are not carved only at even coordinates by every
generator — the BFS generator anchors at the all-odd cell `(1, 1)` and the
A* generator even carves a room at `(1, 1)` (see the counterexample).  What
holds is a per-generator parity lattice: every in-bounds passage cell of a
DFS-generated grid is a room with both coordinates even or a connecting cell
with exactly one odd coordinate, and every in-bounds passage cell of a
BFS-generated grid is a room with both coordinates odd or a connecting cell
with exactly one even coordinate; the connecting cell between two adjacent
rooms is the cell carved when they are joined. -/
theorem C4_theorem (r : Rng) (w h : Nat) (hw : 3 ≤ w) (hh : 3 ≤ h) :
    (∀ out, DFSMazeGenerator.generate r w h = some out →
      ∀ p, inBounds w h p → cellAt out.1 p = 0 →
        isRoom (0, 0) p ∨ isMid (0, 0) p) ∧
    (∀ g, BFSMazeGenerator.generate r w h = some g →
      ∀ p, inBounds w h p → cellAt g p = 0 →
        isRoom (1, 1) p ∨ isMid (1, 1) p) :=
  ⟨fun out hgen => DFSMazeGenerator.dfs_generate_lattice r w h out hgen,
   fun g hgen => BFSMazeGenerator.bfs_generate_lattice r w h (by omega) (by omega) g hgen⟩

theorem C4_witness :
    ((3 : Nat) ≤ 3 ∧ (3 : Nat) ≤ 3) ∧
    ((∀ out, DFSMazeGenerator.generate rng0 3 3 = some out →
      ∀ p, inBounds 3 3 p → cellAt out.1 p = 0 →
        isRoom (0, 0) p ∨ isMid (0, 0) p) ∧
    (∀ g, BFSMazeGenerator.generate rng0 3 3 = some g →
      ∀ p, inBounds 3 3 p → cellAt g p = 0 →
        isRoom (1, 1) p ∨ isMid (1, 1) p)) :=
  ⟨⟨by decide, by decide⟩, C4_theorem rng0 3 3 (by decide) (by decide)⟩

/-! ## Shortest paths: structural lemmas about valid paths -/

theorem ValidPath.length_pos {m : Grid} {a b : Pos} {l : List Pos}
    (h : ValidPath m a b l) : 1 ≤ l.length := by
  cases h with
  | single a ha => exact le_refl 1
  | cons a b c l hab ha h => simp

theorem ValidPath.passage_last {m : Grid} {a b : Pos} {l : List Pos}
    (h : ValidPath m a b l) : passage m b := by
  induction h with
  | single a ha => exact ha
  | cons a b c l hab ha h ih => exact ih

theorem ValidPath.cases_back {m : Grid} {a b : Pos} {l : List Pos}
    (h : ValidPath m a b l) :
    (l = [a] ∧ a = b) ∨
      ∃ u q', l = q' ++ [b] ∧ ValidPath m a u q' ∧ adjacent u b ∧ passage m b := by
  induction h with
  | single a ha => exact Or.inl ⟨rfl, rfl⟩
  | cons a b c l hab ha h ih =>
    right
    rcases ih with ⟨hl, hbc⟩ | ⟨u, q', hl, hvp, hadj, hpass⟩
    · subst hbc
      refine ⟨a, [a], by rw [hl]; rfl, ValidPath.single a ha, hab, h.passage_last⟩
    · exact ⟨u, a :: q', by rw [hl]; rfl, ValidPath.cons a b u q' hab ha hvp, hadj, hpass⟩

theorem adjacent_manhattan {a b e : Pos} (h : adjacent a b) :
    manhattan a e ≤ manhattan b e + 1 := by
  rcases h with ⟨h1, h2 | h2⟩ | ⟨h1, h2 | h2⟩ <;>
    (unfold manhattan; rw [h1, h2]; omega)

theorem manhattan_le_of_path {m : Grid} {a b e : Pos} {l : List Pos}
    (h : ValidPath m a b l) : manhattan a e ≤ (l.length - 1) + manhattan b e := by
  induction h with
  | single a ha => simp
  | cons a b c l hab ha h ih =>
    have h1 := adjacent_manhattan (e := e) hab
    have h2 := h.length_pos
    simp only [List.length_cons]
    omega

/-! ## BFS solver returns shortest paths -/

theorem BFSMazeGenerator.bfs_solveDirs_struct (m : Grid) (x y : Int) (p : List Pos) :
    ∀ (ds : List (Int × Int)), (∀ d ∈ ds, d ∈ dirs1) →
    ∀ (queue : List (Pos × List Pos)) (visited : List Pos),
      ∃ newE : List (Pos × List Pos),
        (BFSMazeGenerator.solveDirs m x y p (queue, visited) ds).1 = queue ++ newE ∧
        (∀ v ∈ visited, v ∈ (BFSMazeGenerator.solveDirs m x y p (queue, visited) ds).2) ∧
        (∀ v ∈ (BFSMazeGenerator.solveDirs m x y p (queue, visited) ds).2,
          v ∈ visited ∨ ∃ en ∈ newE, en.1 = v) ∧
        (∀ en ∈ newE, en.1 ∉ visited ∧ passage m en.1 ∧ adjacent (x, y) en.1 ∧
          en.2 = p ++ [en.1]) ∧
        (∀ en ∈ newE, en.1 ∈ (BFSMazeGenerator.solveDirs m x y p (queue, visited) ds).2) ∧
        (∀ d ∈ ds, ¬(inBounds (gridWidth m) (gridHeight m) (x + d.1, y + d.2) ∧
            cellAt m (x + d.1, y + d.2) = 0) ∨
          (x + d.1, y + d.2) ∈ (BFSMazeGenerator.solveDirs m x y p (queue, visited) ds).2) := by
  intro ds
  induction ds with
  | nil =>
    intro _ queue visited
    refine ⟨[], by rw [BFSMazeGenerator.solveDirs]; simp, ?_, ?_, ?_, ?_, ?_⟩
    · intro v hv
      rw [BFSMazeGenerator.solveDirs]
      exact hv
    · intro v hv
      rw [BFSMazeGenerator.solveDirs] at hv
      exact Or.inl hv
    · intro en hen
      cases hen
    · intro en hen
      cases hen
    · intro d hd
      cases hd
  | cons d rest ih =>
    intro hds queue visited
    rcases d with ⟨dx, dy⟩
    rw [BFSMazeGenerator.solveDirs]
    by_cases hg : inBounds (gridWidth m) (gridHeight m) (x + dx, y + dy) ∧
        cellAt m (x + dx, y + dy) = 0 ∧ (x + dx, y + dy) ∉ visited
    · rw [if_pos hg]
      obtain ⟨newE', h1, h2, h3, h4, h6, h5⟩ :=
        ih (fun d' hd' => hds d' (List.mem_cons_of_mem _ hd'))
          (queue ++ [((x + dx, y + dy), p ++ [(x + dx, y + dy)])])
          ((x + dx, y + dy) :: visited)
      refine ⟨((x + dx, y + dy), p ++ [(x + dx, y + dy)]) :: newE', ?_, ?_, ?_, ?_, ?_, ?_⟩
      · rw [h1, List.append_assoc]
        rfl
      · intro v hv
        exact h2 v (List.mem_cons_of_mem _ hv)
      · intro v hv
        rcases h3 v hv with hv' | ⟨en, hen, he⟩
        · rcases List.mem_cons.1 hv' with hv' | hv'
          · exact Or.inr ⟨_, List.mem_cons_self _ _, hv'.symm⟩
          · exact Or.inl hv'
        · exact Or.inr ⟨en, List.mem_cons_of_mem _ hen, he⟩
      · intro en hen
        rcases List.mem_cons.1 hen with hen | hen
        · rw [hen]
          exact ⟨hg.2.2, ⟨hg.1, hg.2.1⟩,
            adjacent_of_dir (hds (dx, dy) (List.mem_cons_self _ _)), rfl⟩
        · obtain ⟨hnv, hp, hadj, hpe⟩ := h4 en hen
          exact ⟨fun hc => hnv (List.mem_cons_of_mem _ hc), hp, hadj, hpe⟩
      · intro en hen
        rcases List.mem_cons.1 hen with hen | hen
        · rw [hen]
          exact h2 _ (List.mem_cons_self _ _)
        · exact h6 en hen
      · intro d' hd'
        rcases List.mem_cons.1 hd' with hd' | hd'
        · right
          rw [hd']
          exact h2 _ (List.mem_cons_self _ _)
        · exact h5 d' hd'
    · rw [if_neg hg]
      obtain ⟨newE', h1, h2, h3, h4, h6, h5⟩ :=
        ih (fun d' hd' => hds d' (List.mem_cons_of_mem _ hd')) queue visited
      refine ⟨newE', h1, h2, h3, h4, h6, ?_⟩
      intro d' hd'
      rcases List.mem_cons.1 hd' with hd' | hd'
      · by_cases hc : inBounds (gridWidth m) (gridHeight m) (x + d'.1, y + d'.2) ∧
            cellAt m (x + d'.1, y + d'.2) = 0
        · right
          rw [hd'] at hc ⊢
          dsimp only at hc ⊢
          have hvis : (x + dx, y + dy) ∈ visited := by
            by_contra hnv
            exact hg ⟨hc.1, hc.2, hnv⟩
          exact h2 _ hvis
        · exact Or.inl hc
      · exact h5 d' hd'

theorem adjacent_to_dir {u n : Pos} (h : adjacent u n) :
    ∃ d ∈ dirs1, n = (u.1 + d.1, u.2 + d.2) := by
  rcases h with ⟨h1, h2 | h2⟩ | ⟨h1, h2 | h2⟩
  · refine ⟨(0, 1), by simp [dirs1], ?_⟩
    rw [Prod.mk.injEq]
    exact ⟨by dsimp only; omega, by dsimp only; omega⟩
  · refine ⟨(0, -1), by simp [dirs1], ?_⟩
    rw [Prod.mk.injEq]
    exact ⟨by dsimp only; omega, by dsimp only; omega⟩
  · refine ⟨(1, 0), by simp [dirs1], ?_⟩
    rw [Prod.mk.injEq]
    exact ⟨by dsimp only; omega, by dsimp only; omega⟩
  · refine ⟨(-1, 0), by simp [dirs1], ?_⟩
    rw [Prod.mk.injEq]
    exact ⟨by dsimp only; omega, by dsimp only; omega⟩

/-- The BFS loop invariant, with ghost assignment `gmap` recording the path
length with which each visited cell was enqueued and `L` the current frontier
level: every queue entry holds a valid path of length `gmap` of its visited
cell; visited cells were enqueued with optimal lengths; a visited cell still
has an entry or has had all its passage neighbours visited; entry lengths
are `L` then `L + 1` in queue order; the start is visited. -/
def BfsInv (m : Grid) (s : Pos) (queue : List (Pos × List Pos)) (visited : List Pos)
    (gmap : Pos → Nat) (L : Nat) : Prop :=
  (∀ en ∈ queue, ValidPath m s en.1 en.2 ∧ en.1 ∈ visited ∧ en.2.length = gmap en.1) ∧
  (∀ u ∈ visited, ∀ q, ValidPath m s u q → gmap u ≤ q.length) ∧
  (∀ u ∈ visited, (∃ en ∈ queue, en.1 = u) ∨
    ∀ n : Pos, adjacent u n → passage m n → n ∈ visited) ∧
  (∃ qa qb, queue = qa ++ qb ∧ (∀ en ∈ qa, en.2.length = L) ∧
    (∀ en ∈ qb, en.2.length = L + 1)) ∧
  s ∈ visited

/-- Any cell with a valid path shorter than every queue entry is already
visited. -/
theorem bfs_closure {m : Grid} {s : Pos} {queue : List (Pos × List Pos)}
    {visited : List Pos} {gmap : Pos → Nat} {L : Nat}
    (hinv : BfsInv m s queue visited gmap L) :
    ∀ (k : Nat) (v : Pos) (q : List Pos), q.length ≤ k → ValidPath m s v q →
      (∀ en ∈ queue, q.length < en.2.length) → v ∈ visited := by
  obtain ⟨hB0, hB1, hB2, -, hB5⟩ := hinv
  intro k
  induction k with
  | zero =>
    intro v q hk hq _
    have := hq.length_pos
    omega
  | succ k ih =>
    intro v q hk hq hlt
    rcases hq.cases_back with ⟨hl, hav⟩ | ⟨u, q', hl, hvp, hadj, hpass⟩
    · rw [← hav]
      exact hB5
    · have hq'len : q'.length = q.length - 1 := by rw [hl]; simp
      have hpos := hq.length_pos
      have hult : ∀ en ∈ queue, q'.length < en.2.length := by
        intro en hen
        have h := hlt en hen
        omega
      have hu : u ∈ visited := ih u q' (by omega) hvp hult
      rcases hB2 u hu with ⟨en, hen, heu⟩ | hnb
      · exfalso
        obtain ⟨-, -, hlen⟩ := hB0 en hen
        have hg := hB1 u hu q' hvp
        have h := hlt en hen
        rw [heu] at hlen
        omega
      · exact hnb v hadj hpass

/-- Normalise the frontier level so that the queue front is at level `L`. -/
theorem BfsInv.norm {m : Grid} {s : Pos} {queue : List (Pos × List Pos)}
    {visited : List Pos} {gmap : Pos → Nat} {L : Nat}
    (h : BfsInv m s queue visited gmap L) {en : Pos × List Pos}
    {rest : List (Pos × List Pos)} (hq : queue = en :: rest) :
    ∃ (L' : Nat) (qa qb : List (Pos × List Pos)),
      BfsInv m s queue visited gmap L' ∧ en.2.length = L' ∧ rest = qa ++ qb ∧
      (∀ e ∈ qa, e.2.length = L') ∧ (∀ e ∈ qb, e.2.length = L' + 1) := by
  obtain ⟨hB0, hB1, hB2, ⟨qa, qb, hsplit, hqa, hqb⟩, hB5⟩ := h
  rcases qa with _ | ⟨e, qa'⟩
  · rw [List.nil_append] at hsplit
    have hallq : ∀ e' ∈ queue, e'.2.length = L + 1 := by
      intro e' he'
      exact hqb e' (by rw [← hsplit]; exact he')
    refine ⟨L + 1, rest, [],
      ⟨hB0, hB1, hB2, ⟨queue, [], by simp, hallq, fun e' he' => by cases he'⟩, hB5⟩,
      hallq en (by rw [hq]; exact List.mem_cons_self _ _), by simp, ?_,
      fun e' he' => by cases he'⟩
    intro e' he'
    exact hallq e' (by rw [hq]; exact List.mem_cons_of_mem _ he')
  · rw [List.cons_append] at hsplit
    have hq2 : en :: rest = e :: (qa' ++ qb) := by rw [← hq, hsplit]
    injection hq2 with h1 h2
    refine ⟨L, qa', qb, ⟨hB0, hB1, hB2, ⟨e :: qa', qb, hsplit, hqa, hqb⟩, hB5⟩, ?_, h2, ?_, hqb⟩
    · rw [h1]
      exact hqa e (List.mem_cons_self _ _)
    · intro e' he'
      exact hqa e' (List.mem_cons_of_mem _ he')

theorem BFSMazeGenerator.bfs_solveLoop_shortest (m : Grid) (s endP : Pos) :
    ∀ (fuel : Nat) (queue : List (Pos × List Pos)) (visited : List Pos)
      (gmap : Pos → Nat) (L : Nat) (r : List Pos × Grid),
      BfsInv m s queue visited gmap L →
      (endP ∉ visited ∨ ∃ en ∈ queue, en.1 = endP) →
      BFSMazeGenerator.solveLoop fuel m endP queue visited = some r →
      (r.1 = [] ∧ ¬ Reach m s endP) ∨
        (ValidPath m s endP r.1 ∧ ∀ q, ValidPath m s endP q → r.1.length ≤ q.length) := by
  intro fuel
  induction fuel with
  | zero => intro queue visited gmap L r _ _ hr; cases hr
  | succ fuel ih =>
    intro queue visited gmap L r hinv hend hr
    match queue, hend with
    | [], hend =>
      rw [BFSMazeGenerator.solveLoop] at hr
      injection hr with hr
      subst hr
      left
      refine ⟨rfl, ?_⟩
      rintro ⟨q, hq⟩
      rcases hend with hend | ⟨en, hen, -⟩
      · exact hend (bfs_closure hinv q.length endP q le_rfl hq (fun en hen => by cases hen))
      · cases hen
    | ((x, y), p) :: rest, hend =>
      rw [BFSMazeGenerator.solveLoop] at hr
      by_cases hxyend : (x, y) = endP
      · rw [if_pos hxyend] at hr
        injection hr with hr
        obtain ⟨hB0, hB1, hB2, hB3, hB5⟩ := hinv
        obtain ⟨hval, hvis, hlen⟩ := hB0 ((x, y), p) (List.mem_cons_self _ _)
        dsimp only at hval hvis hlen
        right
        rw [← hr]
        dsimp only
        refine ⟨hxyend ▸ hval, ?_⟩
        intro q hq
        have h2 := hB1 (x, y) hvis q (by rw [hxyend]; exact hq)
        omega
      · rw [if_neg hxyend] at hr
        dsimp only at hr
        obtain ⟨L', qa1, qb1, hinv', hfront, hrsplit, hqa1, hqb1⟩ := BfsInv.norm hinv rfl
        have hB0 := hinv'.1
        have hB1 := hinv'.2.1
        have hB2 := hinv'.2.2.1
        have hB5 := hinv'.2.2.2.2
        obtain ⟨hval, hvis, hlenp⟩ := hB0 ((x, y), p) (List.mem_cons_self _ _)
        dsimp only at hval hvis hlenp hfront
        have hLpos : 1 ≤ L' := by
          have := hval.length_pos
          omega
        obtain ⟨newE, hq1, hsub, hsup, hnew, hnewvis, hcov⟩ :=
          BFSMazeGenerator.bfs_solveDirs_struct m x y p dirs1 (fun d hd => hd) rest visited
        rw [hq1] at hr
        have hqlen : ∀ en ∈ ((x, y), p) :: rest, L' ≤ en.2.length ∧ en.2.length ≤ L' + 1 := by
          intro en hen
          rcases List.mem_cons.1 hen with rfl | hen
          · dsimp only
            omega
          · rw [hrsplit] at hen
            rcases List.mem_append.1 hen with hen | hen
            · have := hqa1 en hen
              omega
            · have := hqb1 en hen
              omega
        have hclos : ∀ (v : Pos) (q : List Pos), ValidPath m s v q →
            q.length < L' → v ∈ visited := by
          intro v q hq hlt
          refine bfs_closure hinv' q.length v q le_rfl hq ?_
          intro en hen
          have := (hqlen en hen).1
          omega
        have hkey : ∀ (v : Pos) (q : List Pos), ValidPath m s v q → v ∉ visited →
            L' + 1 ≤ q.length := by
          intro v q hq hnv
          by_contra hle
          push_neg at hle
          rcases Nat.lt_or_ge q.length L' with hlt | hge
          · exact hnv (hclos v q hq hlt)
          · have hqL : q.length = L' := by omega
            rcases hq.cases_back with ⟨hl, hav⟩ | ⟨u, q', hl, hvp, hadj, hpass⟩
            · exact hnv (hav ▸ hB5)
            · have hq'len : q'.length = L' - 1 := by
                rw [hl] at hqL
                simp only [List.length_append, List.length_cons, List.length_nil] at hqL
                omega
              have hu : u ∈ visited := hclos u q' hvp (by omega)
              rcases hB2 u hu with ⟨en, hen, heu⟩ | hnb
              · obtain ⟨-, -, hlene⟩ := hB0 en hen
                have hg := hB1 u hu q' hvp
                have h2 := (hqlen en hen).1
                rw [heu] at hlene
                omega
              · exact hnv (hnb v hadj hpass)
        refine ih (rest ++ newE)
          ((BFSMazeGenerator.solveDirs m x y p (rest, visited) dirs1).2)
          (fun v => if v ∈ newE.map Prod.fst then L' + 1 else gmap v) L' r
          ⟨?_, ?_, ?_, ?_, ?_⟩ ?_ hr
        · intro en hen
          rcases List.mem_append.1 hen with hen | hen
          · obtain ⟨hv1, hv2, hv3⟩ := hB0 en (List.mem_cons_of_mem _ hen)
            refine ⟨hv1, hsub en.1 hv2, ?_⟩
            dsimp only
            rw [if_neg ?_]
            · exact hv3
            · intro hc
              rcases List.mem_map.1 hc with ⟨en', hen', he'⟩
              exact (hnew en' hen').1 (he' ▸ hv2)
          · obtain ⟨hnv, hp, hadj, hpe⟩ := hnew en hen
            refine ⟨?_, hnewvis en hen, ?_⟩
            · rw [hpe]
              exact ValidPath.snoc hp hval hadj
            · dsimp only
              rw [if_pos (List.mem_map.2 ⟨en, hen, rfl⟩), hpe]
              simp only [List.length_append, List.length_cons, List.length_nil]
              omega
        · intro u hu q hq
          dsimp only
          rcases hsup u hu with hu' | ⟨en, hen, he⟩
          · rw [if_neg ?_]
            · exact hB1 u hu' q hq
            · intro hc
              rcases List.mem_map.1 hc with ⟨en', hen', he'⟩
              exact (hnew en' hen').1 (he' ▸ hu')
          · rw [if_pos (List.mem_map.2 ⟨en, hen, he⟩)]
            refine hkey u q hq ?_
            rw [← he]
            exact (hnew en hen).1
        · intro u hu
          rcases hsup u hu with hu' | ⟨en, hen, he⟩
          · rcases hB2 u hu' with ⟨en, hen, heu⟩ | hnb
            · rcases List.mem_cons.1 hen with heq | hen
              · right
                rw [heq] at heu
                dsimp only at heu
                subst heu
                intro n hadj hpass
                obtain ⟨d, hd, hn⟩ := adjacent_to_dir hadj
                dsimp only at hn
                rcases hcov d hd with hnc | hnc
                · exfalso
                  rw [hn] at hpass
                  exact hnc ⟨hpass.1, hpass.2⟩
                · rw [hn]
                  exact hnc
              · exact Or.inl ⟨en, List.mem_append_left _ hen, heu⟩
            · right
              intro n hadj hpass
              exact hsub n (hnb n hadj hpass)
          · exact Or.inl ⟨en, List.mem_append_right _ hen, he⟩
        · refine ⟨qa1, qb1 ++ newE, ?_, hqa1, ?_⟩
          · rw [hrsplit, List.append_assoc]
          · intro en hen
            rcases List.mem_append.1 hen with hen | hen
            · exact hqb1 en hen
            · obtain ⟨-, -, -, hpe⟩ := hnew en hen
              rw [hpe]
              simp only [List.length_append, List.length_cons, List.length_nil]
              omega
        · exact hsub s hB5
        · by_cases hmem : endP ∈ (BFSMazeGenerator.solveDirs m x y p (rest, visited) dirs1).2
          · rcases hsup endP hmem with hv | ⟨en2, hen2, he2⟩
            · rcases hend with hnv | ⟨en2, hen2, he2⟩
              · exact absurd hv hnv
              · rcases List.mem_cons.1 hen2 with heq | hen2
                · exfalso
                  rw [heq] at he2
                  dsimp only at he2
                  exact hxyend he2
                · exact Or.inr ⟨en2, List.mem_append_left _ hen2, he2⟩
            · exact Or.inr ⟨en2, List.mem_append_right _ hen2, he2⟩
          · exact Or.inl hmem

theorem BFSMazeGenerator.bfs_solve_shortest (m : Grid) (s e : Pos) (hs : passage m s)
    (res : List Pos × Grid) (hres : BFSMazeGenerator.solve m s e = some res) :
    (res.1 = [] ∧ ¬ Reach m s e) ∨ ShortestPath m s e res.1 := by
  have hloop : BFSMazeGenerator.solveLoop (gridWidth m * gridHeight m + 2) m e
      [(s, [s])] [s] = some res := hres
  have hinv : BfsInv m s [(s, [s])] [s] (fun _ => 1) 1 := by
    refine ⟨?_, ?_, ?_, ⟨[(s, [s])], [], by simp, ?_, fun en hen => by cases hen⟩,
      List.mem_cons_self _ _⟩
    · intro en hen
      have h2 : en = (s, [s]) := by simpa using hen
      rw [h2]
      exact ⟨ValidPath.single s hs, List.mem_cons_self _ _, rfl⟩
    · intro u hu q hq
      have h2 : u = s := by simpa using hu
      subst h2
      exact hq.length_pos
    · intro u hu
      have h2 : u = s := by simpa using hu
      refine Or.inl ⟨(s, [s]), List.mem_cons_self _ _, ?_⟩
      rw [h2]
    · intro en hen
      have h2 : en = (s, [s]) := by simpa using hen
      rw [h2]
      rfl
  have hend : e ∉ [s] ∨ ∃ en ∈ [(s, [s])], en.1 = e := by
    by_cases hse : s = e
    · exact Or.inr ⟨(s, [s]), List.mem_cons_self _ _, hse⟩
    · left
      intro hc
      have hce : e = s := by simpa using hc
      exact hse hce.symm
  rcases BFSMazeGenerator.bfs_solveLoop_shortest m s e _ _ _ _ _ res hinv hend hloop with h | h
  · exact Or.inl h
  · exact Or.inr h

/-! ## A* solver returns shortest paths -/

theorem manhattan_self (a : Pos) : manhattan a a = 0 := by
  unfold manhattan
  omega

theorem extractMin_perm_mem {α : Type} (lt : α → α → Prop) [DecidableRel lt] :
    ∀ (l : List α) (en : α) (rest : List α),
      extractMin lt l = some (en, rest) → ∀ x ∈ l, x = en ∨ x ∈ rest := by
  intro l
  induction l with
  | nil => intro en rest h x hx; cases h
  | cons a xs ih =>
    intro en rest h x hx
    rw [extractMin] at h
    rcases hext : extractMin lt xs with _ | mr
    · rw [hext] at h
      dsimp only at h
      injection h with h
      injection h with h1 h2
      subst h1
      subst h2
      rcases List.mem_cons.1 hx with rfl | hx
      · exact Or.inl rfl
      · rw [(extractMin_none_iff lt xs).1 hext] at hx
        cases hx
    · rw [hext] at h
      dsimp only at h
      rcases mr with ⟨mn, mrest⟩
      by_cases hlt : lt mn a
      · rw [if_pos hlt] at h
        injection h with h
        injection h with h1 h2
        subst h1
        subst h2
        rcases List.mem_cons.1 hx with rfl | hx
        · exact Or.inr (List.mem_cons_self _ _)
        · rcases ih mn mrest hext x hx with h | h
          · exact Or.inl h
          · exact Or.inr (List.mem_cons_of_mem _ h)
      · rw [if_neg hlt] at h
        injection h with h
        injection h with h1 h2
        subst h1
        subst h2
        rcases List.mem_cons.1 hx with rfl | hx
        · exact Or.inl rfl
        · exact Or.inr hx

theorem extractMin_entry_f_min :
    ∀ (l : List (Nat × Pos × List Pos)) (en : Nat × Pos × List Pos)
      (rest : List (Nat × Pos × List Pos)),
      extractMin entryLt l = some (en, rest) → ∀ x ∈ l, en.1 ≤ x.1 := by
  intro l
  induction l with
  | nil => intro en rest h x hx; cases h
  | cons a xs ih =>
    intro en rest h x hx
    rw [extractMin] at h
    rcases hext : extractMin entryLt xs with _ | mr
    · rw [hext] at h
      dsimp only at h
      injection h with h
      injection h with h1 h2
      subst h1
      rcases List.mem_cons.1 hx with rfl | hx
      · exact le_refl _
      · rw [(extractMin_none_iff entryLt xs).1 hext] at hx
        cases hx
    · rcases mr with ⟨mn, mrest⟩
      rw [hext] at h
      dsimp only at h
      by_cases hlt : entryLt mn a
      · rw [if_pos hlt] at h
        injection h with h
        injection h with h1 h2
        subst h1
        rcases List.mem_cons.1 hx with rfl | hx
        · rcases hlt with hlt | ⟨heq, -⟩
          · omega
          · omega
        · exact ih mn mrest hext x hx
      · rw [if_neg hlt] at h
        injection h with h
        injection h with h1 h2
        subst h1
        rcases List.mem_cons.1 hx with rfl | hx
        · exact le_refl _
        · have h1 : a.1 ≤ mn.1 := by
            unfold entryLt at hlt
            push_neg at hlt
            exact hlt.1
          have h2 := ih mn mrest hext x hx
          omega

/-- The A* loop invariant, with ghost assignment `gmap` recording the path
length with which each closed cell was expanded: open entries hold valid
paths with `f` = (length - 1) + heuristic; closed cells were expanded with
optimal lengths; a passage neighbour of a closed cell is closed or has an
open entry at most one longer; the start is closed; the end never is. -/
def AStarInv (m : Grid) (s endP : Pos) (openL : List (Nat × Pos × List Pos))
    (closed : List Pos) (gmap : Pos → Nat) : Prop :=
  (∀ en ∈ openL, ValidPath m s en.2.1 en.2.2 ∧
    en.1 = (en.2.2.length - 1) + manhattan en.2.1 endP) ∧
  (∀ u ∈ closed, ∀ q, ValidPath m s u q → gmap u ≤ q.length) ∧
  (∀ u ∈ closed, ∀ n : Pos, adjacent u n → passage m n →
    n ∈ closed ∨ ∃ en ∈ openL, en.2.1 = n ∧ en.2.2.length ≤ gmap u + 1) ∧
  s ∈ closed ∧
  endP ∉ closed

/-- Every cell not yet closed that admits a valid path is covered by an open
entry whose `f` does not exceed the path cost estimate. -/
theorem astar_cover {m : Grid} {s endP : Pos} {openL : List (Nat × Pos × List Pos)}
    {closed : List Pos} {gmap : Pos → Nat}
    (hinv : AStarInv m s endP openL closed gmap) :
    ∀ (k : Nat) (v : Pos) (q : List Pos), q.length ≤ k → ValidPath m s v q →
      v ∉ closed → ∃ en ∈ openL, en.1 ≤ (q.length - 1) + manhattan v endP := by
  obtain ⟨hA0, hA1, hA2, hA3, -⟩ := hinv
  intro k
  induction k with
  | zero =>
    intro v q hk hq _
    have := hq.length_pos
    omega
  | succ k ih =>
    intro v q hk hq hnc
    rcases hq.cases_back with ⟨hl, hav⟩ | ⟨u, q', hl, hvp, hadj, hpass⟩
    · exact absurd (hav ▸ hA3) hnc
    · have hq'len : q'.length = q.length - 1 := by rw [hl]; simp
      have hpos := hq.length_pos
      have hpos' := hvp.length_pos
      by_cases huc : u ∈ closed
      · rcases hA2 u huc v hadj hpass with hvc | ⟨en, hen, hen1, hen2⟩
        · exact absurd hvc hnc
        · refine ⟨en, hen, ?_⟩
          obtain ⟨-, hf⟩ := hA0 en hen
          have hg := hA1 u huc q' hvp
          rw [hf, hen1]
          omega
      · obtain ⟨en, hen, hle⟩ := ih u q' (by omega) hvp huc
        refine ⟨en, hen, ?_⟩
        have hm := adjacent_manhattan (e := endP) hadj
        omega

theorem AStarMazeGenerator.astar_solveDirs_struct (m : Grid) (endP cur : Pos) (p : List Pos)
    (closed : List Pos) :
    ∀ (ds : List (Int × Int)), (∀ d ∈ ds, d ∈ dirs1) →
    ∀ (openL : List (Nat × Pos × List Pos)),
      ∃ newE,
        AStarMazeGenerator.solveDirs m endP cur p closed openL ds = openL ++ newE ∧
        (∀ en ∈ newE, en.2.1 ∉ closed ∧ passage m en.2.1 ∧ adjacent cur en.2.1 ∧
          en.2.2 = p ++ [en.2.1] ∧ en.1 = p.length + manhattan en.2.1 endP) ∧
        (∀ d ∈ ds, ¬(inBounds (gridWidth m) (gridHeight m) (cur.1 + d.1, cur.2 + d.2) ∧
            cellAt m (cur.1 + d.1, cur.2 + d.2) = 0) ∨
          (cur.1 + d.1, cur.2 + d.2) ∈ closed ∨
          ∃ en ∈ newE, en.2.1 = (cur.1 + d.1, cur.2 + d.2)) := by
  intro ds
  induction ds with
  | nil =>
    intro _ openL
    refine ⟨[], ?_, ?_, ?_⟩
    · rw [AStarMazeGenerator.solveDirs]
      simp
    · intro en hen
      cases hen
    · intro d hd
      cases hd
  | cons d rest ih =>
    intro hds openL
    rcases d with ⟨dx, dy⟩
    rw [AStarMazeGenerator.solveDirs]
    by_cases hg : inBounds (gridWidth m) (gridHeight m) (cur.1 + dx, cur.2 + dy) ∧
        cellAt m (cur.1 + dx, cur.2 + dy) = 0 ∧ (cur.1 + dx, cur.2 + dy) ∉ closed
    · rw [if_pos hg]
      obtain ⟨newE', h1, h2, h3⟩ :=
        ih (fun d' hd' => hds d' (List.mem_cons_of_mem _ hd'))
          (openL ++ [(p.length + manhattan (cur.1 + dx, cur.2 + dy) endP,
            (cur.1 + dx, cur.2 + dy), p ++ [(cur.1 + dx, cur.2 + dy)])])
      refine ⟨(p.length + manhattan (cur.1 + dx, cur.2 + dy) endP,
          (cur.1 + dx, cur.2 + dy), p ++ [(cur.1 + dx, cur.2 + dy)]) :: newE', ?_, ?_, ?_⟩
      · rw [h1, List.append_assoc]
        rfl
      · intro en hen
        rcases List.mem_cons.1 hen with hen | hen
        · rw [hen]
          exact ⟨hg.2.2, ⟨hg.1, hg.2.1⟩,
            adjacent_of_dir (hds (dx, dy) (List.mem_cons_self _ _)), rfl, rfl⟩
        · exact h2 en hen
      · intro d' hd'
        rcases List.mem_cons.1 hd' with hd' | hd'
        · right
          right
          refine ⟨_, List.mem_cons_self _ _, ?_⟩
          rw [hd']
        · rcases h3 d' hd' with h | h | ⟨en, hen, he⟩
          · exact Or.inl h
          · exact Or.inr (Or.inl h)
          · exact Or.inr (Or.inr ⟨en, List.mem_cons_of_mem _ hen, he⟩)
    · rw [if_neg hg]
      obtain ⟨newE', h1, h2, h3⟩ :=
        ih (fun d' hd' => hds d' (List.mem_cons_of_mem _ hd')) openL
      refine ⟨newE', h1, h2, ?_⟩
      intro d' hd'
      rcases List.mem_cons.1 hd' with hd' | hd'
      · by_cases hc : inBounds (gridWidth m) (gridHeight m) (cur.1 + d'.1, cur.2 + d'.2) ∧
            cellAt m (cur.1 + d'.1, cur.2 + d'.2) = 0
        · right
          left
          rw [hd'] at hc ⊢
          dsimp only at hc ⊢
          by_contra hnc
          exact hg ⟨hc.1, hc.2, hnc⟩
        · exact Or.inl hc
      · exact h3 d' hd'

theorem AStarMazeGenerator.astar_solveLoop_shortest (m : Grid) (s endP : Pos) :
    ∀ (fuel : Nat) (openL : List (Nat × Pos × List Pos)) (closed : List Pos)
      (gmap : Pos → Nat) (r : List Pos × Grid),
      AStarInv m s endP openL closed gmap →
      AStarMazeGenerator.solveLoop fuel m endP openL closed = some r →
      (r.1 = [] ∧ ¬ Reach m s endP) ∨
        (ValidPath m s endP r.1 ∧ ∀ q, ValidPath m s endP q → r.1.length ≤ q.length) := by
  intro fuel
  induction fuel with
  | zero => intro openL closed gmap r _ hr; cases hr
  | succ fuel ih =>
    intro openL closed gmap r hinv hr
    rw [AStarMazeGenerator.solveLoop] at hr
    rcases hext : extractMin entryLt openL with _ | er
    · rw [hext] at hr
      dsimp only at hr
      injection hr with hr
      subst hr
      left
      refine ⟨rfl, ?_⟩
      rintro ⟨q, hq⟩
      have hempty : openL = [] := (extractMin_none_iff entryLt openL).1 hext
      obtain ⟨en, hen, -⟩ := astar_cover hinv q.length endP q le_rfl hq hinv.2.2.2.2
      rw [hempty] at hen
      cases hen
    · rcases er with ⟨en, rest⟩
      obtain ⟨hmem, hsub, -⟩ := extractMin_spec entryLt openL en rest hext
      have hfmin := extractMin_entry_f_min openL en rest hext
      have hperm := extractMin_perm_mem entryLt openL en rest hext
      rw [hext] at hr
      dsimp only at hr
      have hA0 := hinv.1
      have hA1 := hinv.2.1
      have hA2 := hinv.2.2.1
      have hA3 := hinv.2.2.2.1
      have hA4 := hinv.2.2.2.2
      obtain ⟨hval, hf⟩ := hA0 en hmem
      by_cases hce : en.2.1 = endP
      · rw [if_pos hce] at hr
        injection hr with hr
        right
        rw [← hr]
        dsimp only
        refine ⟨hce ▸ hval, ?_⟩
        intro q hq
        obtain ⟨en', hen', hble⟩ := astar_cover hinv q.length endP q le_rfl hq hA4
        have h1 := hfmin en' hen'
        have h2 := hval.length_pos
        have h3 := hq.length_pos
        rw [hce, manhattan_self] at hf
        rw [manhattan_self] at hble
        omega
      · rw [if_neg hce] at hr
        by_cases hcc : en.2.1 ∈ closed
        · rw [if_pos hcc] at hr
          refine ih rest closed gmap r ⟨?_, hA1, ?_, hA3, hA4⟩ hr
          · intro e' he'
            exact hA0 e' (hsub e' he')
          · intro u hu n hadj hpass
            rcases hA2 u hu n hadj hpass with h | ⟨en', hen', h1, h2⟩
            · exact Or.inl h
            · rcases hperm en' hen' with rfl | hen'
              · left
                rw [← h1]
                exact hcc
              · exact Or.inr ⟨en', hen', h1, h2⟩
        · rw [if_neg hcc] at hr
          have hkey : ∀ q, ValidPath m s en.2.1 q → en.2.2.length ≤ q.length := by
            intro q hq
            obtain ⟨en', hen', hble⟩ := astar_cover hinv q.length en.2.1 q le_rfl hq hcc
            have h1 := hfmin en' hen'
            have h2 := hval.length_pos
            have h3 := hq.length_pos
            rw [hf] at h1
            omega
          obtain ⟨newE, hq1, hnew, hcov⟩ :=
            AStarMazeGenerator.astar_solveDirs_struct m endP en.2.1 en.2.2 (en.2.1 :: closed)
              dirs1 (fun d hd => hd) rest
          rw [hq1] at hr
          refine ih (rest ++ newE) (en.2.1 :: closed)
            (fun v => if v = en.2.1 then en.2.2.length else gmap v) r
            ⟨?_, ?_, ?_, List.mem_cons_of_mem _ hA3, ?_⟩ hr
          · intro e' he'
            rcases List.mem_append.1 he' with he' | he'
            · exact hA0 e' (hsub e' he')
            · obtain ⟨hnc, hp, hadj, hpe, hfe⟩ := hnew e' he'
              refine ⟨?_, ?_⟩
              · rw [hpe]
                exact ValidPath.snoc hp hval hadj
              · rw [hfe, hpe]
                simp only [List.length_append, List.length_cons, List.length_nil]
                omega
          · intro u hu q hq
            dsimp only
            rcases List.mem_cons.1 hu with rfl | hu
            · rw [if_pos rfl]
              exact hkey q hq
            · rw [if_neg ?_]
              · exact hA1 u hu q hq
              · intro hc
                rw [hc] at hu
                exact hcc hu
          · intro u hu n hadj hpass
            dsimp only
            rcases List.mem_cons.1 hu with rfl | hu
            · obtain ⟨d, hd, hn⟩ := adjacent_to_dir hadj
              rcases hcov d hd with h | h | ⟨e', he', hne⟩
              · exfalso
                rw [hn] at hpass
                exact h ⟨hpass.1, hpass.2⟩
              · left
                rw [hn]
                exact h
              · right
                refine ⟨e', List.mem_append_right _ he', by rw [hne, hn], ?_⟩
                obtain ⟨-, -, -, hpe, -⟩ := hnew e' he'
                rw [hpe, if_pos rfl]
                simp only [List.length_append, List.length_cons, List.length_nil]
                omega
            · rcases hA2 u hu n hadj hpass with h | ⟨en', hen', h1, h2⟩
              · exact Or.inl (List.mem_cons_of_mem _ h)
              · rcases hperm en' hen' with rfl | hen'
                · left
                  rw [← h1]
                  exact List.mem_cons_self _ _
                · right
                  refine ⟨en', List.mem_append_left _ hen', h1, ?_⟩
                  rw [if_neg ?_]
                  · exact h2
                  · intro hc
                    rw [hc] at hu
                    exact hcc hu
          · intro hc
            rcases List.mem_cons.1 hc with hc | hc
            · exact hce hc.symm
            · exact hA4 hc

theorem AStarMazeGenerator.astar_solve_shortest (m : Grid) (s e : Pos) (hs : passage m s)
    (res : List Pos × Grid) (hres : AStarMazeGenerator.solve m s e = some res) :
    (res.1 = [] ∧ ¬ Reach m s e) ∨ ShortestPath m s e res.1 := by
  unfold AStarMazeGenerator.solve at hres
  rw [show 5 * (gridWidth m * gridHeight m) + 8 =
    (5 * (gridWidth m * gridHeight m) + 7) + 1 from rfl] at hres
  rw [AStarMazeGenerator.solveLoop] at hres
  rw [show extractMin entryLt [((0 : Nat), s, [s])] = some (((0 : Nat), s, [s]), [])
    from rfl] at hres
  dsimp only at hres
  by_cases hse : s = e
  · subst hse
    rw [if_pos rfl] at hres
    injection hres with hres
    right
    rw [← hres]
    dsimp only
    refine ⟨ValidPath.single s hs, ?_⟩
    intro q hq
    exact hq.length_pos
  · rw [if_neg hse] at hres
    rw [if_neg (List.not_mem_nil s)] at hres
    obtain ⟨newE, hq1, hnew, hcov⟩ :=
      AStarMazeGenerator.astar_solveDirs_struct m e s [s] (s :: []) dirs1 (fun d hd => hd) []
    rw [hq1, List.nil_append] at hres
    have hinv : AStarInv m s e newE [s] (fun _ => 1) := by
      refine ⟨?_, ?_, ?_, List.mem_cons_self _ _, ?_⟩
      · intro en hen
        obtain ⟨hnc, hp, hadj, hpe, hfe⟩ := hnew en hen
        refine ⟨?_, ?_⟩
        · rw [hpe]
          exact ValidPath.snoc hp (ValidPath.single s hs) hadj
        · rw [hfe, hpe]
          simp only [List.length_append, List.length_cons, List.length_nil]
      · intro u hu q hq
        have h2 : u = s := by simpa using hu
        subst h2
        exact hq.length_pos
      · intro u hu n hadj hpass
        have h2 : u = s := by simpa using hu
        subst h2
        obtain ⟨d, hd, hn⟩ := adjacent_to_dir hadj
        rcases hcov d hd with h | h | ⟨e', he', hne⟩
        · exfalso
          rw [hn] at hpass
          exact h ⟨hpass.1, hpass.2⟩
        · left
          rw [hn]
          exact h
        · right
          refine ⟨e', he', by rw [hne, hn], ?_⟩
          obtain ⟨-, -, -, hpe, -⟩ := hnew e' he'
          rw [hpe]
          simp only [List.length_append, List.length_cons, List.length_nil]
          omega
      · intro hc
        have h2 : e = s := by simpa using hc
        exact hse h2.symm
    rcases AStarMazeGenerator.astar_solveLoop_shortest m s e _ newE [s] (fun _ => 1) res hinv hres
      with h | h
    · exact Or.inl h
    · exact Or.inr h

/-- C2: for every grid and every passage `start`/`end` with `end` reachable
from `start`, the path returned by the BFS solver and by the A* solver is a
valid `start`–`end` path of minimal cell count: its length equals the true
shortest-path distance in the 4-connected passage graph. -/
theorem C2_theorem (m : Grid) (s e : Pos) (hs : passage m s) (hr : Reach m s e) :
    (∀ res, BFSMazeGenerator.solve m s e = some res → ShortestPath m s e res.1) ∧
    (∀ res, AStarMazeGenerator.solve m s e = some res → ShortestPath m s e res.1) := by
  constructor
  · intro res hres
    rcases BFSMazeGenerator.bfs_solve_shortest m s e hs res hres with ⟨-, hnr⟩ | h
    · exact absurd hr hnr
    · exact h
  · intro res hres
    rcases AStarMazeGenerator.astar_solve_shortest m s e hs res hres with ⟨-, hnr⟩ | h
    · exact absurd hr hnr
    · exact h

theorem C2_witness :
    (passage aStarGrid55 (1, 1) ∧ Reach aStarGrid55 (1, 1) (3, 3)) ∧
    ((∀ res, BFSMazeGenerator.solve aStarGrid55 (1, 1) (3, 3) = some res →
        ShortestPath aStarGrid55 (1, 1) (3, 3) res.1) ∧
     (∀ res, AStarMazeGenerator.solve aStarGrid55 (1, 1) (3, 3) = some res →
        ShortestPath aStarGrid55 (1, 1) (3, 3) res.1)) :=
  have hreach : Reach aStarGrid55 (1, 1) (3, 3) :=
    ⟨[(1, 1), (1, 2), (1, 3), (2, 3), (3, 3)],
      ValidPath.cons _ _ _ _ (by decide) (by decide)
        (ValidPath.cons _ _ _ _ (by decide) (by decide)
          (ValidPath.cons _ _ _ _ (by decide) (by decide)
            (ValidPath.cons _ _ _ _ (by decide) (by decide)
              (ValidPath.single _ (by decide)))))⟩
  ⟨⟨by decide, hreach⟩, C2_theorem aStarGrid55 (1, 1) (3, 3) (by decide) hreach⟩

/-! ## Perfect mazes: reachability utilities and lattice geometry -/

theorem ValidPath.head_shape {m : Grid} {a b : Pos} {l : List Pos}
    (h : ValidPath m a b l) : ∃ t, l = a :: t := by
  cases h with
  | single a ha => exact ⟨[], rfl⟩
  | cons a b c l hab ha h => exact ⟨l, rfl⟩

theorem ValidPath.append {m : Grid} {a b c : Pos} {l1 l2 : List Pos}
    (h1 : ValidPath m a b l1) (h2 : ValidPath m b c l2) :
    ValidPath m a c (l1 ++ l2.tail) := by
  induction h1 with
  | single a ha =>
    obtain ⟨t, ht⟩ := h2.head_shape
    subst ht
    simpa using h2
  | cons a b' b l hab ha h ih =>
    exact ValidPath.cons _ _ _ _ hab ha (ih h2)

theorem Reach.reach_trans {m : Grid} {a b c : Pos} (h1 : Reach m a b) (h2 : Reach m b c) :
    Reach m a c := by
  obtain ⟨l1, hl1⟩ := h1
  obtain ⟨l2, hl2⟩ := h2
  exact ⟨l1 ++ l2.tail, hl1.append hl2⟩

theorem adjacent_symm {a b : Pos} (h : adjacent a b) : adjacent b a := by
  unfold adjacent at h ⊢
  omega

theorem ValidPath.reverse {m : Grid} {a b : Pos} {l : List Pos}
    (h : ValidPath m a b l) : ValidPath m b a l.reverse := by
  induction h with
  | single a ha => exact ValidPath.single a ha
  | cons a b c l hab ha h ih =>
    have := ValidPath.snoc ha ih (adjacent_symm hab)
    simpa using this

theorem Reach.symm {m : Grid} {a b : Pos} (h : Reach m a b) : Reach m b a := by
  obtain ⟨l, hl⟩ := h
  exact ⟨l.reverse, hl.reverse⟩

theorem passage_mono {m m' : Grid} (hc : Carved m m') {p : Pos}
    (hp : passage m p) : passage m' p := by
  refine ⟨?_, ?_⟩
  · rw [hc.gridWidth_eq, hc.gridHeight_eq]
    exact hp.1
  · rcases hc.2 p with h | h
    · rw [h]
      exact hp.2
    · exact h

theorem ValidPath.mono_path {m m' : Grid} (hc : Carved m m') {a b : Pos} {l : List Pos}
    (h : ValidPath m a b l) : ValidPath m' a b l := by
  induction h with
  | single a ha => exact ValidPath.single a (passage_mono hc ha)
  | cons a b c l hab ha h ih => exact ValidPath.cons a b c l hab (passage_mono hc ha) ih

theorem Reach.mono {m m' : Grid} (hc : Carved m m') {a b : Pos} (h : Reach m a b) :
    Reach m' a b := by
  obtain ⟨l, hl⟩ := h
  exact ⟨l, hl.mono_path hc⟩

theorem room_not_adjacent_room {par u v : Pos} (hu : isRoom par u) (hv : isRoom par v) :
    ¬ adjacent u v := by
  unfold isRoom at hu hv
  unfold adjacent
  omega

theorem mid_not_adjacent_mid {par u v : Pos} (hu : isMid par u) (hv : isMid par v) :
    ¬ adjacent u v := by
  unfold isMid at hu hv
  unfold adjacent
  omega

/-- A connecting cell has at most the two room neighbours it lies between. -/
theorem mid_room_neighbors {par mm u v q : Pos} (hm : isMid par mm)
    (hu : isRoom par u) (hv : isRoom par v) (hq : isRoom par q)
    (hau : adjacent mm u) (hav : adjacent mm v) (huv : u ≠ v)
    (haq : adjacent mm q) : q = u ∨ q = v := by
  rcases u with ⟨u1, u2⟩
  rcases v with ⟨v1, v2⟩
  rcases q with ⟨q1, q2⟩
  rcases mm with ⟨m1, m2⟩
  unfold isMid at hm
  unfold isRoom at hu hv hq
  unfold adjacent at hau hav haq
  dsimp only at hm hu hv hq hau hav haq
  have huv' : ¬(u1 = v1 ∧ u2 = v2) := fun hc => huv (by rw [Prod.mk.injEq]; exact hc)
  rw [Prod.mk.injEq, Prod.mk.injEq]
  omega

/-- Rooms of the lattice are connected by two-step moves inside the grid:
a set of rooms containing `start` and closed under in-bounds two-step moves
contains every in-bounds room. -/
theorem lattice_walk {par : Pos} {w h : Nat} {V : List Pos} {start : Pos}
    (hs : start ∈ V) (hsb : inBounds w h start) (hsr : isRoom par start)
    (hcl : ∀ v ∈ V, ∀ d ∈ dirs2, inBounds w h (v.1 + d.1, v.2 + d.2) →
      (v.1 + d.1, v.2 + d.2) ∈ V) :
    ∀ p : Pos, inBounds w h p → isRoom par p → p ∈ V := by
  have main : ∀ n : Nat, ∀ p : Pos,
      (p.1 - start.1).natAbs + (p.2 - start.2).natAbs ≤ n →
      inBounds w h p → isRoom par p → p ∈ V := by
    intro n
    induction n with
    | zero =>
      intro p hd _ _
      have h1 : p.1 = start.1 := by omega
      have h2 : p.2 = start.2 := by omega
      rw [Prod.ext h1 h2]
      exact hs
    | succ n ih =>
      intro p hd hpb hpr
      obtain ⟨hp1, hp2, hp3, hp4⟩ := hpb
      obtain ⟨hs1, hs2, hs3, hs4⟩ := hsb
      obtain ⟨hr1, hr2⟩ := hpr
      obtain ⟨hq1, hq2⟩ := hsr
      by_cases hx : p.1 = start.1
      · by_cases hy : p.2 = start.2
        · rw [Prod.ext hx hy]
          exact hs
        · rcases Int.lt_or_lt_of_ne hy with hlt | hlt
          · -- p.2 < start.2 : step up from p' = (p.1, p.2 + 2)
            have hp' : (p.1, p.2 + 2) ∈ V := by
              refine ih (p.1, p.2 + 2) (by dsimp only; omega) ⟨by dsimp only; omega,
                by dsimp only; omega, by dsimp only; omega, by dsimp only; omega⟩
                ⟨by dsimp only; omega, by dsimp only; omega⟩
            have := hcl (p.1, p.2 + 2) hp' (0, -2) (by simp [dirs2])
              (by dsimp only; refine ⟨by omega, by omega, by omega, by omega⟩)
            dsimp only at this
            have hpe : ((p.1 + 0, p.2 + 2 + -2) : Pos) = p := by
              rw [Prod.mk.injEq]
              constructor <;> omega
            rwa [hpe] at this
          · have hp' : (p.1, p.2 - 2) ∈ V := by
              refine ih (p.1, p.2 - 2) (by dsimp only; omega) ⟨by dsimp only; omega,
                by dsimp only; omega, by dsimp only; omega, by dsimp only; omega⟩
                ⟨by dsimp only; omega, by dsimp only; omega⟩
            have := hcl (p.1, p.2 - 2) hp' (0, 2) (by simp [dirs2])
              (by dsimp only; refine ⟨by omega, by omega, by omega, by omega⟩)
            dsimp only at this
            have hpe : ((p.1 + 0, p.2 - 2 + 2) : Pos) = p := by
              rw [Prod.mk.injEq]
              constructor <;> omega
            rwa [hpe] at this
      · rcases Int.lt_or_lt_of_ne hx with hlt | hlt
        · have hp' : (p.1 + 2, p.2) ∈ V := by
            refine ih (p.1 + 2, p.2) (by dsimp only; omega) ⟨by dsimp only; omega,
              by dsimp only; omega, by dsimp only; omega, by dsimp only; omega⟩
              ⟨by dsimp only; omega, by dsimp only; omega⟩
          have := hcl (p.1 + 2, p.2) hp' (-2, 0) (by simp [dirs2])
            (by dsimp only; refine ⟨by omega, by omega, by omega, by omega⟩)
          dsimp only at this
          have hpe : ((p.1 + 2 + -2, p.2 + 0) : Pos) = p := by
            rw [Prod.mk.injEq]
            constructor <;> omega
          rwa [hpe] at this
        · have hp' : (p.1 - 2, p.2) ∈ V := by
            refine ih (p.1 - 2, p.2) (by dsimp only; omega) ⟨by dsimp only; omega,
              by dsimp only; omega, by dsimp only; omega, by dsimp only; omega⟩
              ⟨by dsimp only; omega, by dsimp only; omega⟩
          have := hcl (p.1 - 2, p.2) hp' (2, 0) (by simp [dirs2])
            (by dsimp only; refine ⟨by omega, by omega, by omega, by omega⟩)
          dsimp only at this
          have hpe : ((p.1 - 2 + 2, p.2 + 0) : Pos) = p := by
            rw [Prod.mk.injEq]
            constructor <;> omega
          rwa [hpe] at this
  intro p hpb hpr
  exact main ((p.1 - start.1).natAbs + (p.2 - start.2).natAbs) p le_rfl hpb hpr

theorem mem_passageList_iff {m : Grid} {p : Pos} :
    p ∈ passageList m ↔ passage m p := by
  unfold passageList
  rw [List.mem_filter, mem_allCells]
  unfold passage
  constructor
  · intro ⟨h1, h2⟩
    exact ⟨h1, by simpa using h2⟩
  · intro ⟨h1, h2⟩
    exact ⟨h1, by simpa using h2⟩

theorem mem_roomList_iff {w h : Nat} {par p : Pos} :
    p ∈ roomList w h par ↔ inBounds w h p ∧ isRoom par p := by
  unfold roomList
  rw [List.mem_filter, mem_allCells]
  simp

theorem allCells_nodup (w h : Nat) : (allCells w h).Nodup := by
  unfold allCells
  rw [List.nodup_flatMap]
  constructor
  · intro y _
    refine List.Nodup.map ?_ (List.nodup_range w)
    intro a b hab
    rw [Prod.mk.injEq] at hab
    simp only [Int.ofNat_eq_natCast] at hab
    omega
  · refine List.Pairwise.imp ?_ (List.pairwise_lt_range h)
    intro y1 y2 hlt p hp1 hp2
    rcases List.mem_map.1 hp1 with ⟨x1, -, he1⟩
    rcases List.mem_map.1 hp2 with ⟨x2, -, he2⟩
    rw [← he1] at he2
    rw [Prod.mk.injEq] at he2
    simp only [Int.ofNat_eq_natCast] at he2
    omega

theorem passageList_nodup (m : Grid) : (passageList m).Nodup :=
  (allCells_nodup _ _).filter _

theorem roomList_nodup (w h : Nat) (par : Pos) : (roomList w h par).Nodup :=
  (allCells_nodup _ _).filter _

/-! ## Counting lemmas for the tree vertex/edge relation -/

theorem sum_map_add {α : Type} (L : List α) (f g : α → Nat) :
    (L.map fun x => f x + g x).sum = (L.map f).sum + (L.map g).sum := by
  induction L with
  | nil => simp
  | cons a L ih =>
    simp only [List.map_cons, List.sum_cons, ih]
    omega

theorem sum_map_ite_count {α : Type} (L : List α) (p : α → Bool) :
    (L.map fun x => if p x then 1 else 0).sum = L.countP p := by
  induction L with
  | nil => simp
  | cons a L ih =>
    simp only [List.map_cons, List.sum_cons, List.countP_cons, ih]
    cases h : p a <;> simp [h] <;> omega

theorem sum_map_const_nat {α : Type} (L : List α) (k : Nat) :
    (L.map fun _ => k).sum = L.length * k := by
  induction L with
  | nil => simp
  | cons a L ih =>
    simp only [List.map_cons, List.sum_cons, List.length_cons, ih]
    ring

theorem sum_countP_comm {α β : Type} (A : List α) (B : List β) (R : α → β → Bool) :
    (A.map fun a => B.countP (R a)).sum =
      (B.map fun b => A.countP fun a => R a b).sum := by
  induction A with
  | nil => simp
  | cons a A' ih =>
    simp only [List.map_cons, List.sum_cons, List.countP_cons]
    rw [sum_map_add B (fun b => A'.countP fun a' => R a' b) (fun b => if R a b then 1 else 0),
      ← ih, sum_map_ite_count B (R a)]
    omega

theorem countP_eq_two {α : Type} [DecidableEq α] (L : List α) (p : α → Bool)
    (hnd : L.Nodup) (a b : α) (hab : a ≠ b) (ha : a ∈ L) (hb : b ∈ L)
    (hpa : p a) (hpb : p b) (hothers : ∀ x ∈ L, p x → x = a ∨ x = b) :
    L.countP p = 2 := by
  rw [List.countP_eq_length_filter]
  have hperm : (L.filter p).Perm [a, b] := by
    refine (List.perm_ext_iff_of_nodup (hnd.filter p) ?_).2 ?_
    · simp [hab]
    · intro x
      rw [List.mem_filter]
      constructor
      · intro ⟨hx1, hx2⟩
        simpa using hothers x hx1 hx2
      · intro hx
        rcases (by simpa using hx : x = a ∨ x = b) with rfl | rfl
        · exact ⟨ha, hpa⟩
        · exact ⟨hb, hpb⟩
  rw [hperm.length_eq]
  rfl

theorem adjPairs_countP (P : List Pos) :
    adjPairs P = (P.map fun p => P.countP fun q => decide (adjacent p q)).sum := by
  unfold adjPairs
  congr 1
  refine List.map_congr_left fun p _ => ?_
  rw [List.countP_eq_length_filter]

theorem adjPairs_perm {P Q : List Pos} (h : P.Perm Q) : adjPairs P = adjPairs Q := by
  rw [adjPairs_countP, adjPairs_countP]
  have h1 : (P.map fun p => P.countP fun q => decide (adjacent p q)).sum =
      (P.map fun p => Q.countP fun q => decide (adjacent p q)).sum := by
    congr 1
    refine List.map_congr_left fun p _ => ?_
    exact h.countP_eq _
  rw [h1]
  exact ((h.map _).sum_eq)

/-- A grid whose passages are exactly the full room lattice `V` plus a list
`M` of connecting cells, with `|M| + 1 = |V|`, each connector joining exactly
two rooms, and all passages reachable from a common cell, is a perfect
maze. -/
theorem perfect_of_characterization (m : Grid) (par c : Pos) (V M : List Pos)
    (hVmem : ∀ p : Pos, p ∈ V ↔ p ∈ roomList (gridWidth m) (gridHeight m) par)
    (hVnd : V.Nodup) (hMnd : M.Nodup)
    (hpass : ∀ p : Pos, p ∈ passageList m ↔ (p ∈ V ∨ p ∈ M))
    (hMmid : ∀ p ∈ M, isMid par p)
    (hlen : M.length + 1 = V.length)
    (hdeg : ∀ mid ∈ M, ∃ u v, u ≠ v ∧ u ∈ V ∧ v ∈ V ∧ adjacent mid u ∧ adjacent mid v ∧
      (∀ q ∈ V, adjacent mid q → q = u ∨ q = v))
    (hconn : ∀ p ∈ passageList m, Reach m c p) :
    PerfectMaze m par := by
  have hVroom : ∀ p ∈ V, isRoom par p := fun p hp => (mem_roomList_iff.1 ((hVmem p).1 hp)).2
  have hMV : ∀ p ∈ M, p ∉ V := by
    intro p hpM hpV
    have h1 := hVroom p hpV
    have h2 := hMmid p hpM
    unfold isRoom at h1
    unfold isMid at h2
    omega
  have hVperm : V.Perm (roomList (gridWidth m) (gridHeight m) par) :=
    (List.perm_ext_iff_of_nodup hVnd (roomList_nodup _ _ _)).2 hVmem
  have hPperm : (passageList m).Perm (V ++ M) := by
    refine (List.perm_ext_iff_of_nodup (passageList_nodup m) ?_).2 ?_
    · exact List.Nodup.append hVnd hMnd fun a ha hb => hMV a hb ha
    · intro p
      rw [List.mem_append]
      exact hpass p
  refine ⟨?_, ?_, ?_, ?_⟩
  · intro rm hrm
    have h1 : rm ∈ passageList m := (hpass rm).2 (Or.inl ((hVmem rm).2 hrm))
    exact (mem_passageList_iff.1 h1).2
  · intro p hp q hq
    exact Reach.reach_trans ((hconn p hp).symm) (hconn q hq)
  · have hfil : ((passageList m).filter fun x =>
        !((roomList (gridWidth m) (gridHeight m) par).contains x)).Perm M := by
      refine (List.perm_ext_iff_of_nodup ((passageList_nodup m).filter _) hMnd).2 ?_
      intro x
      rw [List.mem_filter]
      constructor
      · intro ⟨hx1, hx2⟩
        rcases (hpass x).1 hx1 with hx | hx
        · exfalso
          have : x ∈ roomList (gridWidth m) (gridHeight m) par := (hVmem x).1 hx
          simp [this] at hx2
        · exact hx
      · intro hx
        refine ⟨(hpass x).2 (Or.inr hx), ?_⟩
        have : x ∉ roomList (gridWidth m) (gridHeight m) par := by
          intro hc
          exact hMV x hx ((hVmem x).2 hc)
        simpa using this
    rw [hfil.length_eq, ← hVperm.length_eq]
    omega
  · rw [hPperm.length_eq, adjPairs_perm hPperm]
    have hVM_count : ∀ p, ((V ++ M).countP fun q => decide (adjacent p q)) =
        (V.countP fun q => decide (adjacent p q)) +
        (M.countP fun q => decide (adjacent p q)) := by
      intro p
      exact List.countP_append _ _ _
    rw [adjPairs_countP]
    rw [List.map_append, List.sum_append]
    have hVpart : ((V.map fun p => (V ++ M).countP fun q => decide (adjacent p q)).sum) =
        (V.map fun p => M.countP fun q => decide (adjacent p q)).sum := by
      congr 1
      refine List.map_congr_left fun p hp => ?_
      rw [hVM_count p]
      have h0 : (V.countP fun q => decide (adjacent p q)) = 0 := by
        rw [List.countP_eq_zero]
        intro q hq
        simp only [decide_eq_true_eq]
        exact room_not_adjacent_room (hVroom p hp) (hVroom q hq)
      omega
    have hMpart : ((M.map fun p => (V ++ M).countP fun q => decide (adjacent p q)).sum) =
        2 * M.length := by
      have h1 : ∀ p ∈ M, ((V ++ M).countP fun q => decide (adjacent p q)) = 2 := by
        intro p hp
        rw [hVM_count p]
        have h0 : (M.countP fun q => decide (adjacent p q)) = 0 := by
          rw [List.countP_eq_zero]
          intro q hq
          simp only [decide_eq_true_eq]
          exact mid_not_adjacent_mid (hMmid p hp) (hMmid q hq)
        obtain ⟨u, v, huv, hu, hv, hau, hav, hoth⟩ := hdeg p hp
        have h2 : (V.countP fun q => decide (adjacent p q)) = 2 := by
          refine countP_eq_two V _ hVnd u v huv hu hv ?_ ?_ ?_
          · simpa using hau
          · simpa using hav
          · intro x hx hpx
            exact hoth x hx (by simpa using hpx)
        omega
      rw [List.map_congr_left fun p hp => h1 p hp]
      rw [sum_map_const_nat]
      ring
    have hcomm : (V.map fun p => M.countP fun q => decide (adjacent p q)).sum =
        (M.map fun mm => V.countP fun p => decide (adjacent p mm)).sum :=
      sum_countP_comm V M fun p q => decide (adjacent p q)
    have hflip : (M.map fun mm => V.countP fun p => decide (adjacent p mm)).sum =
        2 * M.length := by
      have h1 : ∀ mm ∈ M, (V.countP fun p => decide (adjacent p mm)) = 2 := by
        intro mm hmm
        obtain ⟨u, v, huv, hu, hv, hau, hav, hoth⟩ := hdeg mm hmm
        refine countP_eq_two V _ hVnd u v huv hu hv ?_ ?_ ?_
        · simp only [decide_eq_true_eq]
          exact adjacent_symm hau
        · simp only [decide_eq_true_eq]
          exact adjacent_symm hav
        · intro x hx hpx
          exact hoth x hx (adjacent_symm (by simpa using hpx))
      rw [List.map_congr_left fun mm hmm => h1 mm hmm]
      rw [sum_map_const_nat]
      ring
    rw [hVpart, hMpart, hcomm, hflip]
    simp only [List.length_append]
    omega

/-- The connecting cell halfway along a two-step direction is adjacent to
both endpoint rooms, which are distinct. -/
theorem mid_flank_adjacent {x y dx dy : Int} (hd : (dx, dy) ∈ dirs2) :
    adjacent ((x + dx / 2, y + dy / 2) : Pos) (x, y) ∧
    adjacent ((x + dx / 2, y + dy / 2) : Pos) (x + dx, y + dy) ∧
    ((x, y) : Pos) ≠ (x + dx, y + dy) := by
  rcases dirs2_cases hd with h | h | h | h <;>
    (injection h with h1 h2; subst h1; subst h2; refine ⟨?_, ?_, fun hc => ?_⟩) <;>
    first
      | (unfold adjacent; dsimp only; omega)
      | (rw [Prod.mk.injEq] at hc; omega)

/-- Loop invariant of `BFSMazeGenerator.generate` with ghost list `M` of
carved connecting cells: shape facts; queued cells are visited rooms; a room
is carved exactly when visited and dequeued; connecting cells are carved
exactly when in `M`, each joining two distinct visited rooms; `|M| + 1`
equals the number of visited rooms; queued cells touch a carved reachable
connector, dequeued cells are reachable. -/
def BfsGenInv (w h : Nat) (start : Pos) (mz : Grid) (queue visited M : List Pos) : Prop :=
  rectangular mz ∧ gridWidth mz = w ∧ gridHeight mz = h ∧
  (∀ p : Pos, cellAt mz p = 0 ∨ cellAt mz p = 1) ∧
  (∀ c ∈ queue, c ∈ visited) ∧
  (∀ c ∈ visited, inBounds w h c ∧ isRoom (1, 1) c) ∧
  visited.Nodup ∧ queue.Nodup ∧
  (∀ p : Pos, inBounds w h p → isRoom (1, 1) p →
    (cellAt mz p = 0 ↔ (p ∈ visited ∧ p ∉ queue))) ∧
  (∀ p : Pos, inBounds w h p → isMid (1, 1) p → (cellAt mz p = 0 ↔ p ∈ M)) ∧
  M.Nodup ∧
  (M.length + 1 = visited.length) ∧
  (∀ mid ∈ M, isMid (1, 1) mid ∧ inBounds w h mid ∧
    ∃ u v : Pos, u ≠ v ∧ u ∈ visited ∧ v ∈ visited ∧ adjacent mid u ∧ adjacent mid v) ∧
  (∀ v ∈ queue, ∃ mid : Pos, passage mz mid ∧ adjacent mid v ∧ Reach mz start mid) ∧
  (∀ v ∈ visited, v ∉ queue → Reach mz start v) ∧
  start ∈ visited

theorem room_ne_mid {par a b : Pos} (ha : isRoom par a) (hb : isMid par b) : a ≠ b := by
  intro h
  subst h
  unfold isRoom at ha
  unfold isMid at hb
  tauto

theorem BFSMazeGenerator.genDirs_inv (w h : Nat) (start : Pos) (x y : Int) :
    ∀ (ds : List (Int × Int)), (∀ d ∈ ds, d ∈ dirs2) →
    ∀ (mz : Grid) (queue visited M : List Pos),
      BfsGenInv w h start mz queue visited M →
      ((x, y) : Pos) ∈ visited → ((x, y) : Pos) ∉ queue →
      ∃ M',
        BfsGenInv w h start (BFSMazeGenerator.genDirs w h x y (mz, queue, visited) ds).1
          (BFSMazeGenerator.genDirs w h x y (mz, queue, visited) ds).2.1
          (BFSMazeGenerator.genDirs w h x y (mz, queue, visited) ds).2.2 M' ∧
        (∀ v ∈ visited, v ∈ (BFSMazeGenerator.genDirs w h x y (mz, queue, visited) ds).2.2) ∧
        (∀ v ∈ (BFSMazeGenerator.genDirs w h x y (mz, queue, visited) ds).2.1,
          v ∈ queue ∨ v ∉ visited) ∧
        (∀ v ∈ queue, v ∈ (BFSMazeGenerator.genDirs w h x y (mz, queue, visited) ds).2.1) ∧
        (∀ d ∈ ds, inBounds w h (x + d.1, y + d.2) →
          ((x + d.1, y + d.2) : Pos) ∈
            (BFSMazeGenerator.genDirs w h x y (mz, queue, visited) ds).2.2) ∧
        (∀ v ∈ (BFSMazeGenerator.genDirs w h x y (mz, queue, visited) ds).2.2,
          v ∈ visited ∨ v ∈ (BFSMazeGenerator.genDirs w h x y (mz, queue, visited) ds).2.1) := by
  intro ds
  induction ds with
  | nil =>
    intro _ mz queue visited M hinv _ _
    rw [BFSMazeGenerator.genDirs]
    exact ⟨M, hinv, fun v hv => hv, fun v hv => Or.inl hv, fun v hv => hv,
      fun d hd => (by cases hd), fun v hv => Or.inl hv⟩
  | cons d rest ih =>
    intro hds mz queue visited M hinv hxyv hxyq
    rcases d with ⟨dx, dy⟩
    rw [BFSMazeGenerator.genDirs]
    obtain ⟨hrect, hgw, hgh, hbin, hqv, hvp, hvnd, hqnd, hroomc, hmidc, hMnd, hMlen,
      hMdat, hqconn, hpconn, hstart⟩ := hinv
    have hdd : ((dx, dy) : Int × Int) ∈ dirs2 := hds (dx, dy) (List.mem_cons_self _ _)
    by_cases hg : inBounds w h (x + dx, y + dy) ∧ ((x + dx, y + dy) : Pos) ∉ visited
    · rw [if_pos hg]
      have hxyb := (hvp (x, y) hxyv).1
      have hxyr := (hvp (x, y) hxyv).2
      obtain ⟨hmb, hmid, hroomn⟩ := lattice_step hdd hxyb hxyr hg.1
      obtain ⟨hadj1, hadj2, hne⟩ := @mid_flank_adjacent x y dx dy hdd
      set mm : Pos := (x + dx / 2, y + dy / 2) with hmm
      set n : Pos := (x + dx, y + dy) with hn
      -- the connector is not yet carved
      have hmmM : mm ∉ M := by
        intro hc
        obtain ⟨-, -, u', v', hne', hu', hv', hau', hav'⟩ := hMdat mm hc
        have hxy' : ((x, y) : Pos) = u' ∨ ((x, y) : Pos) = v' :=
          mid_room_neighbors hmid (hvp u' hu').2 (hvp v' hv').2 hxyr hau' hav' hne' hadj1
        have hn' : n = u' ∨ n = v' :=
          mid_room_neighbors hmid (hvp u' hu').2 (hvp v' hv').2 hroomn hau' hav' hne' hadj2
        rcases hxy' with rfl | rfl <;> rcases hn' with hh2 | hh2
        · exact hg.2 (by rw [hh2]; exact hxyv)
        · exact hg.2 (by rw [hh2]; exact hv')
        · exact hg.2 (by rw [hh2]; exact hu')
        · exact hg.2 (by rw [hh2]; exact hxyv)
      have hmmwall : cellAt mz mm = 1 := by
        rcases hbin mm with h0 | h1
        · exact absurd ((hmidc mm hmb hmid).1 h0) hmmM
        · exact h1
      have hnwall : cellAt mz n = 1 := by
        rcases hbin n with h0 | h1
        · exact absurd ((hroomc n hg.1 hroomn).1 h0).1 hg.2
        · exact h1
      have hrect1 := rectangular_setCell hrect mm 0
      have hgw1 : gridWidth (setCell mz mm 0) = w := by rw [gridWidth_setCell]; exact hgw
      have hgh1 : gridHeight (setCell mz mm 0) = h := by rw [gridHeight_setCell]; exact hgh
      have hcarved : Carved mz (setCell mz mm 0) := Carved.setCell_zero mz mm
      have hmmp : passage (setCell mz mm 0) mm := by
        refine ⟨by rw [hgw1, hgh1]; exact hmb, ?_⟩
        exact cellAt_setCell_same 0 hrect (by rw [hgw, hgh]; exact hmb)
      have hreachxy : Reach mz start (x, y) := hpconn (x, y) hxyv hxyq
      have hinv1 : BfsGenInv w h start (setCell mz mm 0) (queue ++ [n]) (n :: visited)
          (mm :: M) := by
        refine ⟨hrect1, hgw1, hgh1, ?_, ?_, ?_, ?_, ?_, ?_, ?_, ?_, ?_, ?_, ?_, ?_, ?_⟩
        · intro p
          rcases cellAt_setCell_cases mz mm p 0 with hc | hc
          · rw [hc]
            exact hbin p
          · rw [hc]
            exact Or.inl rfl
        · intro c hc
          rcases List.mem_append.1 hc with hc | hc
          · exact List.mem_cons_of_mem _ (hqv c hc)
          · have : c = n := by simpa using hc
            rw [this]
            exact List.mem_cons_self _ _
        · intro c hc
          rcases List.mem_cons.1 hc with rfl | hc
          · exact ⟨hg.1, hroomn⟩
          · exact hvp c hc
        · exact List.nodup_cons.2 ⟨hg.2, hvnd⟩
        · refine List.Nodup.append hqnd (List.nodup_singleton n) ?_
          intro a ha hb
          have : a = n := by simpa using hb
          exact hg.2 (this ▸ hqv a ha)
        · intro p hpb hpr
          by_cases hpn : p = n
          · subst hpn
            rw [cellAt_setCell_ne 0 (room_ne_mid hroomn hmid)
              (by rw [hgw, hgh]; exact hmb) (by rw [hgw, hgh]; exact hpb), hnwall]
            constructor
            · intro hc
              cases hc
            · rintro ⟨-, hc⟩
              exact absurd (List.mem_append_right _ (List.mem_singleton_self n)) hc
          · rw [cellAt_setCell_ne 0 (room_ne_mid hpr hmid)
              (by rw [hgw, hgh]; exact hmb) (by rw [hgw, hgh]; exact hpb)]
            rw [hroomc p hpb hpr]
            constructor
            · rintro ⟨h1, h2⟩
              refine ⟨List.mem_cons_of_mem _ h1, ?_⟩
              intro hc
              rcases List.mem_append.1 hc with hc | hc
              · exact h2 hc
              · exact hpn (by simpa using hc)
            · rintro ⟨h1, h2⟩
              refine ⟨?_, fun hc => h2 (List.mem_append_left _ hc)⟩
              rcases List.mem_cons.1 h1 with rfl | h1
              · exact absurd rfl hpn
              · exact h1
        · intro p hpb hpm
          by_cases hpmm : p = mm
          · subst hpmm
            rw [cellAt_setCell_same 0 hrect (by rw [hgw, hgh]; exact hmb)]
            simp
          · rw [cellAt_setCell_ne 0 hpmm
              (by rw [hgw, hgh]; exact hmb) (by rw [hgw, hgh]; exact hpb)]
            rw [hmidc p hpb hpm]
            constructor
            · intro h1
              exact List.mem_cons_of_mem _ h1
            · intro h1
              rcases List.mem_cons.1 h1 with rfl | h1
              · exact absurd rfl hpmm
              · exact h1
        · exact List.nodup_cons.2 ⟨hmmM, hMnd⟩
        · simp only [List.length_cons]
          omega
        · intro mid hmidm
          rcases List.mem_cons.1 hmidm with rfl | hmidm
          · exact ⟨hmid, hmb, (x, y), n, hne, List.mem_cons_of_mem _ hxyv,
              List.mem_cons_self _ _, hadj1, hadj2⟩
          · obtain ⟨h1, h2, u', v', h3, h4, h5, h6, h7⟩ := hMdat mid hmidm
            exact ⟨h1, h2, u', v', h3, List.mem_cons_of_mem _ h4,
              List.mem_cons_of_mem _ h5, h6, h7⟩
        · intro v hv
          rcases List.mem_append.1 hv with hv | hv
          · obtain ⟨mid, hp1, hp2, hp3⟩ := hqconn v hv
            exact ⟨mid, passage_mono hcarved hp1, hp2, hp3.mono hcarved⟩
          · have : v = n := by simpa using hv
            subst this
            exact ⟨mm, hmmp, hadj2, (hreachxy.mono hcarved).step (adjacent_symm hadj1) hmmp⟩
        · intro v hv hvq
          rcases List.mem_cons.1 hv with rfl | hv
          · exact absurd (List.mem_append_right _ (List.mem_singleton_self _)) hvq
          · exact (hpconn v hv fun hc => hvq (List.mem_append_left _ hc)).mono hcarved
        · exact List.mem_cons_of_mem _ hstart
      obtain ⟨M', hinv', hsub', hqchar', hqpres', hcov', hvnew'⟩ :=
        ih (fun d' hd' => hds d' (List.mem_cons_of_mem _ hd'))
          (setCell mz mm 0) (queue ++ [n]) (n :: visited) (mm :: M) hinv1
          (List.mem_cons_of_mem _ hxyv)
          (fun hc => by
            rcases List.mem_append.1 hc with hc | hc
            · exact hxyq hc
            · exact hg.2 ((by simpa using hc : ((x, y) : Pos) = n) ▸ hxyv))
      refine ⟨M', hinv', ?_, ?_, ?_, ?_, ?_⟩
      · intro v hv
        exact hsub' v (List.mem_cons_of_mem _ hv)
      · intro v hv
        rcases hqchar' v hv with hv' | hv'
        · rcases List.mem_append.1 hv' with hv' | hv'
          · exact Or.inl hv'
          · right
            rw [(by simpa using hv' : v = n)]
            exact hg.2
        · right
          intro hc
          exact hv' (List.mem_cons_of_mem _ hc)
      · intro v hv
        exact hqpres' v (List.mem_append_left _ hv)
      · intro d' hd'
        rcases List.mem_cons.1 hd' with hd' | hd'
        · intro hb
          have heq : ((x + d'.1, y + d'.2) : Pos) = n := by
            rw [hd']
          rw [heq]
          exact hsub' n (List.mem_cons_self _ _)
        · exact hcov' d' hd'
      · intro v hv
        rcases hvnew' v hv with hv' | hv'
        · rcases List.mem_cons.1 hv' with rfl | hv'
          · exact Or.inr (hqpres' _ (List.mem_append_right _ (List.mem_singleton_self _)))
          · exact Or.inl hv'
        · exact Or.inr hv'
    · rw [if_neg hg]
      obtain ⟨M', hinv', hsub', hqchar', hqpres', hcov', hvnew'⟩ :=
        ih (fun d' hd' => hds d' (List.mem_cons_of_mem _ hd'))
          mz queue visited M
          ⟨hrect, hgw, hgh, hbin, hqv, hvp, hvnd, hqnd, hroomc, hmidc, hMnd, hMlen,
            hMdat, hqconn, hpconn, hstart⟩ hxyv hxyq
      refine ⟨M', hinv', hsub', hqchar', hqpres', ?_, hvnew'⟩
      intro d' hd'
      rcases List.mem_cons.1 hd' with hd' | hd'
      · intro hb
        subst hd'
        dsimp only at hb hg ⊢
        by_cases hvis : ((x + dx, y + dy) : Pos) ∈ visited
        · exact hsub' _ hvis
        · exact absurd ⟨hb, hvis⟩ hg
      · exact hcov' d' hd'

theorem BfsGenInv.pop {w h : Nat} {start : Pos} {mz : Grid} {x y : Int}
    {rest visited M : List Pos}
    (hinv : BfsGenInv w h start mz ((x, y) :: rest) visited M) :
    BfsGenInv w h start (setCell mz (x, y) 0) rest visited M := by
  obtain ⟨hrect, hgw, hgh, hbin, hqv, hvp, hvnd, hqnd, hroomc, hmidc, hMnd, hMlen,
    hMdat, hqconn, hpconn, hstart⟩ := hinv
  have hxyv : ((x, y) : Pos) ∈ visited := hqv (x, y) (List.mem_cons_self _ _)
  have hxyb := (hvp (x, y) hxyv).1
  have hxyr := (hvp (x, y) hxyv).2
  have hxynr : ((x, y) : Pos) ∉ rest := (List.nodup_cons.1 hqnd).1
  have hrnd : rest.Nodup := (List.nodup_cons.1 hqnd).2
  have hgw1 : gridWidth (setCell mz (x, y) 0) = w := by rw [gridWidth_setCell]; exact hgw
  have hgh1 : gridHeight (setCell mz (x, y) 0) = h := by rw [gridHeight_setCell]; exact hgh
  have hcarved : Carved mz (setCell mz (x, y) 0) := Carved.setCell_zero mz (x, y)
  have hxyp : passage (setCell mz (x, y) 0) (x, y) := by
    refine ⟨by rw [hgw1, hgh1]; exact hxyb, ?_⟩
    exact cellAt_setCell_same 0 hrect (by rw [hgw, hgh]; exact hxyb)
  refine ⟨rectangular_setCell hrect (x, y) 0, hgw1, hgh1, ?_, ?_, hvp, hvnd, hrnd,
    ?_, ?_, hMnd, hMlen, hMdat, ?_, ?_, hstart⟩
  · intro p
    rcases cellAt_setCell_cases mz (x, y) p 0 with hc | hc
    · rw [hc]
      exact hbin p
    · rw [hc]
      exact Or.inl rfl
  · intro c hc
    exact hqv c (List.mem_cons_of_mem _ hc)
  · intro p hpb hpr
    by_cases hpn : p = ((x, y) : Pos)
    · subst hpn
      rw [cellAt_setCell_same 0 hrect (by rw [hgw, hgh]; exact hpb)]
      constructor
      · intro _
        exact ⟨hxyv, hxynr⟩
      · intro _
        rfl
    · rw [cellAt_setCell_ne 0 hpn (by rw [hgw, hgh]; exact hxyb) (by rw [hgw, hgh]; exact hpb)]
      rw [hroomc p hpb hpr]
      constructor
      · rintro ⟨h1, h2⟩
        exact ⟨h1, fun hc => h2 (List.mem_cons_of_mem _ hc)⟩
      · rintro ⟨h1, h2⟩
        refine ⟨h1, ?_⟩
        intro hc
        rcases List.mem_cons.1 hc with hc | hc
        · exact hpn hc
        · exact h2 hc
  · intro p hpb hpm
    rw [cellAt_setCell_ne 0 (Ne.symm (room_ne_mid hxyr hpm))
      (by rw [hgw, hgh]; exact hxyb) (by rw [hgw, hgh]; exact hpb)]
    exact hmidc p hpb hpm
  · intro v hv
    obtain ⟨mid, hp1, hp2, hp3⟩ := hqconn v (List.mem_cons_of_mem _ hv)
    exact ⟨mid, passage_mono hcarved hp1, hp2, hp3.mono hcarved⟩
  · intro v hv hvr
    by_cases hvn : v = ((x, y) : Pos)
    · subst hvn
      obtain ⟨mid, hp1, hp2, hp3⟩ := hqconn (x, y) (List.mem_cons_self _ _)
      exact (hp3.mono hcarved).step hp2 hxyp
    · refine (hpconn v hv ?_).mono hcarved
      intro hc
      rcases List.mem_cons.1 hc with hc | hc
      · exact hvn hc
      · exact hvr hc

theorem BFSMazeGenerator.genLoop_perfect (w h : Nat) (start : Pos) :
    ∀ (fuel : Nat) (r : Rng) (mz : Grid) (queue visited M : List Pos) (g : Grid),
      BfsGenInv w h start mz queue visited M →
      (∀ v ∈ visited, v ∉ queue → ∀ d ∈ dirs2,
        inBounds w h (v.1 + d.1, v.2 + d.2) → ((v.1 + d.1, v.2 + d.2) : Pos) ∈ visited) →
      BFSMazeGenerator.genLoop fuel r w h mz queue visited = some g →
      ∃ visitedF MF,
        BfsGenInv w h start g [] visitedF MF ∧
        (∀ v ∈ visitedF, ∀ d ∈ dirs2,
          inBounds w h (v.1 + d.1, v.2 + d.2) → ((v.1 + d.1, v.2 + d.2) : Pos) ∈ visitedF) := by
  intro fuel
  induction fuel with
  | zero => intro r mz queue visited M g _ _ h0; cases h0
  | succ fuel ih =>
    intro r mz queue visited M g hinv hclosed hgl
    match queue with
    | [] =>
      rw [BFSMazeGenerator.genLoop] at hgl
      injection hgl with hgl
      subst hgl
      exact ⟨visited, M, hinv, fun v hv => hclosed v hv (List.not_mem_nil v)⟩
    | (x, y) :: rest =>
      rw [BFSMazeGenerator.genLoop] at hgl
      have hinv0 : BfsGenInv w h start (setCell mz (x, y) 0) rest visited M := hinv.pop
      have hxyv : ((x, y) : Pos) ∈ visited :=
        hinv.2.2.2.2.1 (x, y) (List.mem_cons_self _ _)
      have hxynr : ((x, y) : Pos) ∉ rest := (List.nodup_cons.1 hinv.2.2.2.2.2.2.2.1).1
      obtain ⟨M', hinv', hsub', hqchar', hqpres', hcov', hvnew'⟩ :=
        BFSMazeGenerator.genDirs_inv w h start x y (shuffle r dirs2).1
          (fun d hd => shuffle_dirs2_mem r hd)
          (setCell mz (x, y) 0) rest visited M hinv0 hxyv hxynr
      refine ih (shuffle r dirs2).2 _ _ _ M' g hinv' ?_ hgl
      intro v hv hvq d hd hb
      rcases hvnew' v hv with hv' | hv'
      · by_cases hvxy : v = ((x, y) : Pos)
        · subst hvxy
          have hd' : d ∈ (shuffle r dirs2).1 :=
            ((shuffle_perm r dirs2).mem_iff).2 hd
          exact hcov' d hd' hb
        · refine hsub' _ (hclosed v hv' ?_ d hd hb)
          intro hc
          rcases List.mem_cons.1 hc with hc | hc
          · exact hvxy hc
          · exact hvq (hqpres' v hc)
      · exact absurd hv' hvq

theorem BFSMazeGenerator.bfs_generate_perfect (r : Rng) (w h : Nat)
    (hw : 2 ≤ w) (hh : 2 ≤ h) (g : Grid)
    (hgen : BFSMazeGenerator.generate r w h = some g) :
    PerfectMaze g (1, 1) := by
  have hlat : OnLattice (1, 1) w h g :=
    BFSMazeGenerator.bfs_generate_lattice r w h hw hh g hgen
  have hb11 : inBounds w h ((1 : Int), (1 : Int)) :=
    ⟨by omega, by dsimp only; omega, by omega, by dsimp only; omega⟩
  have hroom11 : isRoom ((1 : Int), (1 : Int)) ((1 : Int), (1 : Int)) := by decide
  unfold BFSMazeGenerator.generate at hgen
  rw [show w * h + 2 = (w * h + 1) + 1 from rfl] at hgen
  rw [BFSMazeGenerator.genLoop] at hgen
  have hrectm := rectangular_mkMaze w h
  have hgwm : gridWidth (mkMaze w h) = w := gridWidth_mkMaze w h (by omega)
  have hghm : gridHeight (mkMaze w h) = h := gridHeight_mkMaze w h
  have hcell0 : cellAt (setCell (mkMaze w h) ((1 : Int), (1 : Int)) 0) (1, 1) = 0 :=
    cellAt_setCell_same 0 hrectm (by rw [hgwm, hghm]; exact hb11)
  have hgw1 : gridWidth (setCell (mkMaze w h) ((1 : Int), (1 : Int)) 0) = w := by
    rw [gridWidth_setCell]; exact hgwm
  have hgh1 : gridHeight (setCell (mkMaze w h) ((1 : Int), (1 : Int)) 0) = h := by
    rw [gridHeight_setCell]; exact hghm
  have hp11 : passage (setCell (mkMaze w h) ((1 : Int), (1 : Int)) 0) (1, 1) :=
    ⟨by rw [hgw1, hgh1]; exact hb11, hcell0⟩
  have hinv0 : BfsGenInv w h (1, 1) (setCell (mkMaze w h) ((1 : Int), (1 : Int)) 0)
      [] [((1 : Int), (1 : Int))] [] := by
    refine ⟨rectangular_setCell hrectm _ 0, hgw1, hgh1, ?_, ?_, ?_,
      List.nodup_singleton _, List.nodup_nil, ?_, ?_, List.nodup_nil, by simp, ?_, ?_, ?_, ?_⟩
    · intro p
      rcases cellAt_setCell_cases (mkMaze w h) ((1 : Int), (1 : Int)) p 0 with hc | hc
      · rw [hc, cellAt_mkMaze]
        exact Or.inr rfl
      · rw [hc]
        exact Or.inl rfl
    · intro c hc
      cases hc
    · intro c hc
      have : c = ((1 : Int), (1 : Int)) := by simpa using hc
      rw [this]
      exact ⟨hb11, hroom11⟩
    · intro p hpb hpr
      by_cases hpn : p = (((1 : Int), (1 : Int)) : Pos)
      · subst hpn
        rw [hcell0]
        constructor
        · intro _
          exact ⟨List.mem_singleton_self _, List.not_mem_nil _⟩
        · intro _
          rfl
      · rw [cellAt_setCell_ne 0 hpn (by rw [hgwm, hghm]; exact hb11)
          (by rw [hgwm, hghm]; exact hpb), cellAt_mkMaze]
        constructor
        · intro hc
          exact absurd hc (by decide)
        · rintro ⟨h1, -⟩
          exact absurd (by simpa using h1 : p = (((1 : Int), (1 : Int)) : Pos)) hpn
    · intro p hpb hpm
      rw [cellAt_setCell_ne 0 (Ne.symm (room_ne_mid hroom11 hpm))
        (by rw [hgwm, hghm]; exact hb11) (by rw [hgwm, hghm]; exact hpb), cellAt_mkMaze]
      constructor
      · intro hc
        exact absurd hc (by decide)
      · intro hc
        cases hc
    · intro mid hmid
      cases hmid
    · intro v hv
      cases hv
    · intro v hv hvq
      have : v = ((1 : Int), (1 : Int)) := by simpa using hv
      rw [this]
      exact Reach.refl_of_passage hp11
    · exact List.mem_singleton_self _
  obtain ⟨M', hinv', hsub', hqchar', hqpres', hcov', hvnew'⟩ :=
    BFSMazeGenerator.genDirs_inv w h (1, 1) 1 1 (shuffle r dirs2).1
      (fun d hd => shuffle_dirs2_mem r hd)
      (setCell (mkMaze w h) ((1 : Int), (1 : Int)) 0) [] [((1 : Int), (1 : Int))] [] hinv0
      (List.mem_singleton_self _) (List.not_mem_nil _)
  have hclosure : ∀ v ∈ (BFSMazeGenerator.genDirs w h 1 1
      (setCell (mkMaze w h) ((1 : Int), (1 : Int)) 0, [], [((1 : Int), (1 : Int))])
      (shuffle r dirs2).1).2.2,
      v ∉ (BFSMazeGenerator.genDirs w h 1 1
        (setCell (mkMaze w h) ((1 : Int), (1 : Int)) 0, [], [((1 : Int), (1 : Int))])
        (shuffle r dirs2).1).2.1 →
      ∀ d ∈ dirs2, inBounds w h (v.1 + d.1, v.2 + d.2) →
        ((v.1 + d.1, v.2 + d.2) : Pos) ∈ (BFSMazeGenerator.genDirs w h 1 1
          (setCell (mkMaze w h) ((1 : Int), (1 : Int)) 0, [], [((1 : Int), (1 : Int))])
          (shuffle r dirs2).1).2.2 := by
    intro v hv hvq d hd hb
    rcases hvnew' v hv with hv' | hv'
    · have hv1 : v = (((1 : Int), (1 : Int)) : Pos) := by simpa using hv'
      subst hv1
      have hd' : d ∈ (shuffle r dirs2).1 := ((shuffle_perm r dirs2).mem_iff).2 hd
      exact hcov' d hd' hb
    · exact absurd hv' hvq
  obtain ⟨visitedF, MF, hinvF, hclF⟩ :=
    BFSMazeGenerator.genLoop_perfect w h (1, 1) (w * h + 1) (shuffle r dirs2).2
      _ _ _ M' g hinv' hclosure hgen
  obtain ⟨hrectF, hgwF, hghF, hbinF, hqvF, hvpF, hvndF, hqndF, hroomcF, hmidcF,
      hMndF, hMlenF, hMdatF, hqconnF, hpconnF, hstartF⟩ := hinvF
  have hall : ∀ p : Pos, inBounds w h p → isRoom (1, 1) p → p ∈ visitedF :=
    lattice_walk hstartF hb11 hroom11 hclF
  have hpassF : ∀ p : Pos, p ∈ passageList g ↔ (p ∈ visitedF ∨ p ∈ MF) := by
    intro p
    rw [mem_passageList_iff]
    unfold passage
    rw [hgwF, hghF]
    constructor
    · rintro ⟨hb, h0⟩
      rcases hlat p hb h0 with hr | hm
      · exact Or.inl ((hroomcF p hb hr).1 h0).1
      · exact Or.inr ((hmidcF p hb hm).1 h0)
    · intro hc
      rcases hc with hp | hp
      · exact ⟨(hvpF p hp).1,
          (hroomcF p (hvpF p hp).1 (hvpF p hp).2).2 ⟨hp, List.not_mem_nil p⟩⟩
      · obtain ⟨hm, hb2, -⟩ := hMdatF p hp
        exact ⟨hb2, (hmidcF p hb2 hm).2 hp⟩
  refine perfect_of_characterization g (1, 1) (1, 1) visitedF MF ?_ hvndF hMndF
    hpassF (fun p hp => (hMdatF p hp).1) hMlenF ?_ ?_
  · intro p
    rw [hgwF, hghF, mem_roomList_iff]
    constructor
    · intro hp
      exact ⟨(hvpF p hp).1, (hvpF p hp).2⟩
    · rintro ⟨hb, hr⟩
      exact hall p hb hr
  · intro mid hmid
    obtain ⟨hm, hb2, u, v, hne, hu, hv, hau, hav⟩ := hMdatF mid hmid
    refine ⟨u, v, hne, hu, hv, hau, hav, ?_⟩
    intro q hq haq
    exact mid_room_neighbors hm (hvpF u hu).2 (hvpF v hv).2 (hvpF q hq).2 hau hav hne haq
  · intro p hp
    rcases (hpassF p).1 hp with hp' | hp'
    · exact hpconnF p hp' (List.not_mem_nil p)
    · obtain ⟨hm, hb2, u, v, hne, hu, hv, hau, hav⟩ := hMdatF p hp'
      refine (hpconnF u hu (List.not_mem_nil u)).step (adjacent_symm hau) ?_
      exact ⟨by rw [hgwF, hghF]; exact hb2, (hmidcF p hb2 hm).2 hp'⟩

/-- Loop invariant of `DFSMazeGenerator`'s recursive carving with ghost
lists `V` (carved rooms) and `M` (carved connecting cells): shape facts;
a room is carved exactly when in `V`, a connecting cell exactly when in
`M`, each member of `M` joining two distinct carved rooms; `|M| + 1 = |V|`;
every carved room is reachable from `start`. -/
def DfsGenInv (w h : Nat) (start : Pos) (mz : Grid) (V M : List Pos) : Prop :=
  rectangular mz ∧ gridWidth mz = w ∧ gridHeight mz = h ∧
  (∀ p : Pos, cellAt mz p = 0 ∨ cellAt mz p = 1) ∧
  (∀ v ∈ V, inBounds w h v ∧ isRoom (0, 0) v) ∧
  V.Nodup ∧ M.Nodup ∧
  (∀ p : Pos, inBounds w h p → isRoom (0, 0) p → (cellAt mz p = 0 ↔ p ∈ V)) ∧
  (∀ p : Pos, inBounds w h p → isMid (0, 0) p → (cellAt mz p = 0 ↔ p ∈ M)) ∧
  (M.length + 1 = V.length) ∧
  (∀ mid ∈ M, isMid (0, 0) mid ∧ inBounds w h mid ∧
    ∃ u v : Pos, u ≠ v ∧ u ∈ V ∧ v ∈ V ∧ adjacent mid u ∧ adjacent mid v) ∧
  (∀ v ∈ V, Reach mz start v) ∧
  start ∈ V

theorem DFSMazeGenerator.carveDirs_spec (w h : Nat) (start : Pos)
    (recur : Rng → Int → Int → Grid → Option (Grid × Rng))
    (hrec : ∀ (r' : Rng) (x' y' : Int) (mz' : Grid) (res' : Grid × Rng),
      recur r' x' y' mz' = some res' →
      ∀ (V M : List Pos),
        DfsGenInv w h start (setCell mz' (x', y') 0) (((x', y') : Pos) :: V) M →
        ∃ V' M', DfsGenInv w h start res'.1 V' M' ∧
          (∀ v ∈ ((x', y') : Pos) :: V, v ∈ V') ∧
          (∀ d ∈ dirs2, inBounds w h (x' + d.1, y' + d.2) →
            ((x' + d.1, y' + d.2) : Pos) ∈ V') ∧
          (∀ v ∈ V', v ∈ V ∨ ∀ d ∈ dirs2, inBounds w h (v.1 + d.1, v.2 + d.2) →
            ((v.1 + d.1, v.2 + d.2) : Pos) ∈ V')) :
    ∀ (ds : List (Int × Int)), (∀ d ∈ ds, d ∈ dirs2) →
    ∀ (x y : Int) (r : Rng) (mz : Grid) (V M : List Pos) (res : Grid × Rng),
      DfsGenInv w h start mz V M → ((x, y) : Pos) ∈ V →
      DFSMazeGenerator.carveDirs recur w h x y r mz ds = some res →
      ∃ V' M', DfsGenInv w h start res.1 V' M' ∧
        (∀ v ∈ V, v ∈ V') ∧
        (∀ d ∈ ds, inBounds w h (x + d.1, y + d.2) → ((x + d.1, y + d.2) : Pos) ∈ V') ∧
        (∀ v ∈ V', v ∈ V ∨ ∀ d ∈ dirs2, inBounds w h (v.1 + d.1, v.2 + d.2) →
          ((v.1 + d.1, v.2 + d.2) : Pos) ∈ V') := by
  intro ds
  induction ds with
  | nil =>
    intro _ x y r mz V M res hinv _ hcd
    rw [DFSMazeGenerator.carveDirs] at hcd
    injection hcd with hcd
    subst hcd
    exact ⟨V, M, hinv, fun v hv => hv, fun d hd => (by cases hd),
      fun v hv => Or.inl hv⟩
  | cons d rest ih =>
    intro hds x y r mz V M res hinv hxyV hcd
    rcases d with ⟨dx, dy⟩
    rw [DFSMazeGenerator.carveDirs] at hcd
    obtain ⟨hrect, hgw, hgh, hbin, hVp, hVnd, hMnd, hroomc, hmidc, hMlen,
      hMdat, hVreach, hstart⟩ := hinv
    have hdd : ((dx, dy) : Int × Int) ∈ dirs2 := hds (dx, dy) (List.mem_cons_self _ _)
    have hxyb := (hVp (x, y) hxyV).1
    have hxyr := (hVp (x, y) hxyV).2
    by_cases hg : inBounds w h (x + dx, y + dy) ∧ cellAt mz (x + dx, y + dy) = 1
    · rw [if_pos hg] at hcd
      dsimp only at hcd
      obtain ⟨hmb, hmid, hroomn⟩ := lattice_step hdd hxyb hxyr hg.1
      obtain ⟨hadj1, hadj2, hne⟩ := @mid_flank_adjacent x y dx dy hdd
      set mm : Pos := (x + dx / 2, y + dy / 2) with hmm
      set n : Pos := (x + dx, y + dy) with hn
      have hnV : n ∉ V := by
        intro hc
        have h0 : cellAt mz n = 0 := (hroomc n hg.1 hroomn).2 hc
        rw [hg.2] at h0
        cases h0
      have hmmM : mm ∉ M := by
        intro hc
        obtain ⟨-, -, u', v', hne', hu', hv', hau', hav'⟩ := hMdat mm hc
        have hxy' : ((x, y) : Pos) = u' ∨ ((x, y) : Pos) = v' :=
          mid_room_neighbors hmid (hVp u' hu').2 (hVp v' hv').2 hxyr hau' hav' hne' hadj1
        have hn' : n = u' ∨ n = v' :=
          mid_room_neighbors hmid (hVp u' hu').2 (hVp v' hv').2 hroomn hau' hav' hne' hadj2
        rcases hn' with hh2 | hh2
        · exact hnV (by rw [hh2]; exact hu')
        · exact hnV (by rw [hh2]; exact hv')
      have hmmwall : cellAt mz mm = 1 := by
        rcases hbin mm with h0 | h1
        · exact absurd ((hmidc mm hmb hmid).1 h0) hmmM
        · exact h1
      have hrect1 := rectangular_setCell hrect mm 0
      have hgw1 : gridWidth (setCell mz mm 0) = w := by rw [gridWidth_setCell]; exact hgw
      have hgh1 : gridHeight (setCell mz mm 0) = h := by rw [gridHeight_setCell]; exact hgh
      have hrect2 := rectangular_setCell hrect1 n 0
      have hgw2 : gridWidth (setCell (setCell mz mm 0) n 0) = w := by
        rw [gridWidth_setCell]; exact hgw1
      have hgh2 : gridHeight (setCell (setCell mz mm 0) n 0) = h := by
        rw [gridHeight_setCell]; exact hgh1
      have hcarved2 : Carved mz (setCell (setCell mz mm 0) n 0) :=
        (Carved.setCell_zero mz mm).trans (Carved.setCell_zero _ n)
      have hpmm : passage (setCell (setCell mz mm 0) n 0) mm := by
        refine ⟨by rw [hgw2, hgh2]; exact hmb, ?_⟩
        rw [cellAt_setCell_ne 0 (Ne.symm (room_ne_mid hroomn hmid))
          (by rw [hgw1, hgh1]; exact hg.1) (by rw [hgw1, hgh1]; exact hmb)]
        exact cellAt_setCell_same 0 hrect (by rw [hgw, hgh]; exact hmb)
      have hpn : passage (setCell (setCell mz mm 0) n 0) n :=
        ⟨by rw [hgw2, hgh2]; exact hg.1,
          cellAt_setCell_same 0 hrect1 (by rw [hgw1, hgh1]; exact hg.1)⟩
      have hinv2 : DfsGenInv w h start (setCell (setCell mz mm 0) n 0)
          (n :: V) (mm :: M) := by
        refine ⟨hrect2, hgw2, hgh2, ?_, ?_, List.nodup_cons.2 ⟨hnV, hVnd⟩,
          List.nodup_cons.2 ⟨hmmM, hMnd⟩, ?_, ?_, ?_, ?_, ?_, ?_⟩
        · intro p
          rcases cellAt_setCell_cases (setCell mz mm 0) n p 0 with hc | hc
          · rw [hc]
            rcases cellAt_setCell_cases mz mm p 0 with hc2 | hc2
            · rw [hc2]
              exact hbin p
            · rw [hc2]
              exact Or.inl rfl
          · rw [hc]
            exact Or.inl rfl
        · intro c hc
          rcases List.mem_cons.1 hc with rfl | hc
          · exact ⟨hg.1, hroomn⟩
          · exact hVp c hc
        · intro p hpb hpr
          by_cases hpn' : p = n
          · subst hpn'
            rw [cellAt_setCell_same 0 hrect1 (by rw [hgw1, hgh1]; exact hpb)]
            constructor
            · intro _
              exact List.mem_cons_self _ _
            · intro _
              rfl
          · rw [cellAt_setCell_ne 0 hpn' (by rw [hgw1, hgh1]; exact hg.1)
              (by rw [hgw1, hgh1]; exact hpb)]
            rw [cellAt_setCell_ne 0 (room_ne_mid hpr hmid)
              (by rw [hgw, hgh]; exact hmb) (by rw [hgw, hgh]; exact hpb)]
            rw [hroomc p hpb hpr]
            constructor
            · intro h1
              exact List.mem_cons_of_mem _ h1
            · intro h1
              rcases List.mem_cons.1 h1 with h1 | h1
              · exact absurd h1 hpn'
              · exact h1
        · intro p hpb hpm
          have hpn' : p ≠ n := Ne.symm (room_ne_mid hroomn hpm)
          rw [cellAt_setCell_ne 0 hpn' (by rw [hgw1, hgh1]; exact hg.1)
            (by rw [hgw1, hgh1]; exact hpb)]
          by_cases hpmm : p = mm
          · subst hpmm
            rw [cellAt_setCell_same 0 hrect (by rw [hgw, hgh]; exact hpb)]
            constructor
            · intro _
              exact List.mem_cons_self _ _
            · intro _
              rfl
          · rw [cellAt_setCell_ne 0 hpmm (by rw [hgw, hgh]; exact hmb)
              (by rw [hgw, hgh]; exact hpb)]
            rw [hmidc p hpb hpm]
            constructor
            · intro h1
              exact List.mem_cons_of_mem _ h1
            · intro h1
              rcases List.mem_cons.1 h1 with h1 | h1
              · exact absurd h1 hpmm
              · exact h1
        · simp only [List.length_cons]
          omega
        · intro mid hmidm
          rcases List.mem_cons.1 hmidm with rfl | hmidm
          · exact ⟨hmid, hmb, (x, y), n, hne, List.mem_cons_of_mem _ hxyV,
              List.mem_cons_self _ _, hadj1, hadj2⟩
          · obtain ⟨h1, h2, u', v', h3, h4, h5, h6, h7⟩ := hMdat mid hmidm
            exact ⟨h1, h2, u', v', h3, List.mem_cons_of_mem _ h4,
              List.mem_cons_of_mem _ h5, h6, h7⟩
        · intro v hv
          rcases List.mem_cons.1 hv with rfl | hv
          · exact (((hVreach (x, y) hxyV).mono hcarved2).step
              (adjacent_symm hadj1) hpmm).step hadj2 hpn
          · exact (hVreach v hv).mono hcarved2
        · exact List.mem_cons_of_mem _ hstart
      match hcall : recur r (x + dx) (y + dy) (setCell mz mm 0) with
      | none => rw [hcall] at hcd; cases hcd
      | some mr =>
        rw [hcall] at hcd
        obtain ⟨V2, M2, hinv2', hsub2, hcov2, hcl2⟩ := hrec r (x + dx) (y + dy) _ mr hcall V
          (mm :: M) hinv2
        obtain ⟨V3, M3, hinv3, hsub3, hcov3, hcl3⟩ :=
          ih (fun d' hd' => hds d' (List.mem_cons_of_mem _ hd')) x y mr.2 mr.1 V2 M2 res
            hinv2' (hsub2 (x, y) (List.mem_cons_of_mem _ hxyV)) hcd
        refine ⟨V3, M3, hinv3, ?_, ?_, ?_⟩
        · intro v hv
          exact hsub3 v (hsub2 v (List.mem_cons_of_mem _ hv))
        · intro d' hd'
          rcases List.mem_cons.1 hd' with hd' | hd'
          · intro hb
            have heq : ((x + d'.1, y + d'.2) : Pos) = n := by
              rw [hd']
            rw [heq]
            exact hsub3 n (hsub2 n (List.mem_cons_self _ _))
          · exact hcov3 d' hd'
        · intro v hv
          rcases hcl3 v hv with hv' | hv'
          · rcases hcl2 v hv' with hv'' | hv''
            · exact Or.inl hv''
            · right
              intro d' hd' hb
              exact hsub3 _ (hv'' d' hd' hb)
          · exact Or.inr hv'
    · rw [if_neg hg] at hcd
      obtain ⟨V3, M3, hinv3, hsub3, hcov3, hcl3⟩ :=
        ih (fun d' hd' => hds d' (List.mem_cons_of_mem _ hd')) x y r mz V M res
          ⟨hrect, hgw, hgh, hbin, hVp, hVnd, hMnd, hroomc, hmidc, hMlen,
            hMdat, hVreach, hstart⟩ hxyV hcd
      refine ⟨V3, M3, hinv3, hsub3, ?_, hcl3⟩
      intro d' hd'
      rcases List.mem_cons.1 hd' with hd' | hd'
      · subst hd'
        intro hb
        dsimp only at hb hg ⊢
        have hroomn : isRoom (0, 0) ((x + dx, y + dy) : Pos) :=
          (lattice_step hdd hxyb hxyr hb).2.2
        have h0 : cellAt mz (x + dx, y + dy) = 0 := by
          rcases hbin (x + dx, y + dy) with h0 | h1
          · exact h0
          · exact absurd ⟨hb, h1⟩ hg
        exact hsub3 _ ((hroomc (x + dx, y + dy) hb hroomn).1 h0)
      · exact hcov3 d' hd'

theorem DFSMazeGenerator.carvePath_spec (w h : Nat) (start : Pos) :
    ∀ (fuel : Nat) (r : Rng) (x y : Int) (mz : Grid) (res : Grid × Rng),
      DFSMazeGenerator.carvePath fuel w h r x y mz = some res →
      ∀ (V M : List Pos),
        DfsGenInv w h start (setCell mz (x, y) 0) (((x, y) : Pos) :: V) M →
        ∃ V' M', DfsGenInv w h start res.1 V' M' ∧
          (∀ v ∈ ((x, y) : Pos) :: V, v ∈ V') ∧
          (∀ d ∈ dirs2, inBounds w h (x + d.1, y + d.2) →
            ((x + d.1, y + d.2) : Pos) ∈ V') ∧
          (∀ v ∈ V', v ∈ V ∨ ∀ d ∈ dirs2, inBounds w h (v.1 + d.1, v.2 + d.2) →
            ((v.1 + d.1, v.2 + d.2) : Pos) ∈ V') := by
  intro fuel
  induction fuel with
  | zero => intro r x y mz res h0; cases h0
  | succ fuel ih =>
    intro r x y mz res hcp V M hinv
    rw [DFSMazeGenerator.carvePath] at hcp
    obtain ⟨V', M', hinv', hsub', hcov', hcl'⟩ :=
      DFSMazeGenerator.carveDirs_spec w h start
        (fun r' x' y' mz' => DFSMazeGenerator.carvePath fuel w h r' x' y' mz')
        (fun r' x' y' mz' res' hres' V'' M'' hinv'' => ih r' x' y' mz' res' hres' V'' M'' hinv'')
        (shuffle r dirs2).1 (fun d hd => shuffle_dirs2_mem r hd)
        x y (shuffle r dirs2).2 (setCell mz (x, y) 0) (((x, y) : Pos) :: V) M res
        hinv (List.mem_cons_self _ _) hcp
    have hcovAll : ∀ d ∈ dirs2, inBounds w h (x + d.1, y + d.2) →
        ((x + d.1, y + d.2) : Pos) ∈ V' := by
      intro d hd hb
      exact hcov' d (((shuffle_perm r dirs2).mem_iff).2 hd) hb
    refine ⟨V', M', hinv', hsub', hcovAll, ?_⟩
    intro v hv
    rcases hcl' v hv with hv' | hv'
    · rcases List.mem_cons.1 hv' with rfl | hv'
      · right
        intro d hd hb
        exact hcovAll d hd hb
      · exact Or.inl hv'
    · exact Or.inr hv'

theorem DFSMazeGenerator.dfs_generate_perfect (r : Rng) (w h : Nat)
    (hw : 1 ≤ w) (hh : 1 ≤ h) (res : Grid × Rng)
    (hgen : DFSMazeGenerator.generate r w h = some res) :
    PerfectMaze res.1 (0, 0) := by
  have hlat : OnLattice (0, 0) w h res.1 :=
    DFSMazeGenerator.dfs_generate_lattice r w h res hgen
  unfold DFSMazeGenerator.generate at hgen
  dsimp only at hgen
  match h1 : randrange r 0 (w : Int) 2 with
  | none => rw [h1] at hgen; cases hgen
  | some sxr =>
    rw [h1] at hgen
    dsimp only at hgen
    match h2 : randrange sxr.2 0 (h : Int) 2 with
    | none => rw [h2] at hgen; cases hgen
    | some syr =>
      rw [h2] at hgen
      dsimp only at hgen
      obtain ⟨hx0, hxw, hxe⟩ := randrange_even_spec h1
      obtain ⟨hy0, hyh, hye⟩ := randrange_even_spec h2
      have hbst : inBounds w h (sxr.1, syr.1) := by
        unfold inBounds
        dsimp only
        omega
      have hroomst : isRoom (0, 0) ((sxr.1, syr.1) : Pos) := by
        unfold isRoom
        dsimp only
        omega
      have hrectm := rectangular_mkMaze w h
      have hgwm : gridWidth (mkMaze w h) = w := gridWidth_mkMaze w h hh
      have hghm : gridHeight (mkMaze w h) = h := gridHeight_mkMaze w h
      have hcell0 : cellAt (setCell (mkMaze w h) (sxr.1, syr.1) 0) (sxr.1, syr.1) = 0 :=
        cellAt_setCell_same 0 hrectm (by rw [hgwm, hghm]; exact hbst)
      have hgw1 : gridWidth (setCell (mkMaze w h) (sxr.1, syr.1) 0) = w := by
        rw [gridWidth_setCell]; exact hgwm
      have hgh1 : gridHeight (setCell (mkMaze w h) (sxr.1, syr.1) 0) = h := by
        rw [gridHeight_setCell]; exact hghm
      have hinv0 : DfsGenInv w h (sxr.1, syr.1)
          (setCell (mkMaze w h) (sxr.1, syr.1) 0) [((sxr.1, syr.1) : Pos)] [] := by
        refine ⟨rectangular_setCell hrectm _ 0, hgw1, hgh1, ?_, ?_,
          List.nodup_singleton _, List.nodup_nil, ?_, ?_, by simp, ?_, ?_, ?_⟩
        · intro p
          rcases cellAt_setCell_cases (mkMaze w h) (sxr.1, syr.1) p 0 with hc | hc
          · rw [hc, cellAt_mkMaze]
            exact Or.inr rfl
          · rw [hc]
            exact Or.inl rfl
        · intro c hc
          have : c = ((sxr.1, syr.1) : Pos) := by simpa using hc
          rw [this]
          exact ⟨hbst, hroomst⟩
        · intro p hpb hpr
          by_cases hpn : p = ((sxr.1, syr.1) : Pos)
          · subst hpn
            rw [hcell0]
            constructor
            · intro _
              exact List.mem_singleton_self _
            · intro _
              rfl
          · rw [cellAt_setCell_ne 0 hpn (by rw [hgwm, hghm]; exact hbst)
              (by rw [hgwm, hghm]; exact hpb), cellAt_mkMaze]
            constructor
            · intro hc
              exact absurd hc (by decide)
            · intro h1
              exact absurd (by simpa using h1 : p = ((sxr.1, syr.1) : Pos)) hpn
        · intro p hpb hpm
          rw [cellAt_setCell_ne 0 (Ne.symm (room_ne_mid hroomst hpm))
            (by rw [hgwm, hghm]; exact hbst) (by rw [hgwm, hghm]; exact hpb), cellAt_mkMaze]
          constructor
          · intro hc
            exact absurd hc (by decide)
          · intro hc
            cases hc
        · intro mid hmid
          cases hmid
        · intro v hv
          have : v = ((sxr.1, syr.1) : Pos) := by simpa using hv
          rw [this]
          exact Reach.refl_of_passage ⟨by rw [hgw1, hgh1]; exact hbst, hcell0⟩
        · exact List.mem_singleton_self _
      obtain ⟨V', M', hinv', hsub', hcov', hcl'⟩ :=
        DFSMazeGenerator.carvePath_spec w h (sxr.1, syr.1) (w * h + 1) syr.2 sxr.1 syr.1
          (mkMaze w h) res hgen [] [] hinv0
      obtain ⟨hrectF, hgwF, hghF, hbinF, hVpF, hVndF, hMndF, hroomcF, hmidcF,
        hMlenF, hMdatF, hVreachF, hstartF⟩ := hinv'
      have hclosure : ∀ v ∈ V', ∀ d ∈ dirs2, inBounds w h (v.1 + d.1, v.2 + d.2) →
          ((v.1 + d.1, v.2 + d.2) : Pos) ∈ V' := by
        intro v hv
        rcases hcl' v hv with hc | hc
        · exact absurd hc (List.not_mem_nil v)
        · exact hc
      have hall : ∀ p : Pos, inBounds w h p → isRoom (0, 0) p → p ∈ V' :=
        lattice_walk hstartF hbst hroomst hclosure
      have hpassF : ∀ p : Pos, p ∈ passageList res.1 ↔ (p ∈ V' ∨ p ∈ M') := by
        intro p
        rw [mem_passageList_iff]
        unfold passage
        rw [hgwF, hghF]
        constructor
        · rintro ⟨hb, h0⟩
          rcases hlat p hb h0 with hr | hm
          · exact Or.inl ((hroomcF p hb hr).1 h0)
          · exact Or.inr ((hmidcF p hb hm).1 h0)
        · intro hc
          rcases hc with hp | hp
          · exact ⟨(hVpF p hp).1, (hroomcF p (hVpF p hp).1 (hVpF p hp).2).2 hp⟩
          · obtain ⟨hm, hb2, -⟩ := hMdatF p hp
            exact ⟨hb2, (hmidcF p hb2 hm).2 hp⟩
      refine perfect_of_characterization res.1 (0, 0) (sxr.1, syr.1) V' M' ?_ hVndF hMndF
        hpassF (fun p hp => (hMdatF p hp).1) hMlenF ?_ ?_
      · intro p
        rw [hgwF, hghF, mem_roomList_iff]
        constructor
        · intro hp
          exact ⟨(hVpF p hp).1, (hVpF p hp).2⟩
        · rintro ⟨hb, hr⟩
          exact hall p hb hr
      · intro mid hmid
        obtain ⟨hm, hb2, u, v, hne, hu, hv, hau, hav⟩ := hMdatF mid hmid
        refine ⟨u, v, hne, hu, hv, hau, hav, ?_⟩
        intro q hq haq
        exact mid_room_neighbors hm (hVpF u hu).2 (hVpF v hv).2 (hVpF q hq).2 hau hav hne haq
      · intro p hp
        rcases (hpassF p).1 hp with hp' | hp'
        · exact hVreachF p hp'
        · obtain ⟨hm, hb2, u, v, hne, hu, hv, hau, hav⟩ := hMdatF p hp'
          refine (hVreachF u hu).step (adjacent_symm hau) ?_
          exact ⟨by rw [hgwF, hghF]; exact hb2, (hmidcF p hb2 hm).2 hp'⟩

/-- C1 (corrected): not every generator returns a perfect maze — the
A*-ordered generator can stop as soon as its target corner is popped,
leaving a room walled off, and the Prim generator of maze_algorithms can
terminate having carved nothing but its start room (see the
counterexample).  The two generators the control panel actually registers
are perfect: whenever `DFSMazeGenerator.generate` succeeds its passage
cells form a single connected component whose even-anchored rooms are all
carved and whose carved connecting walls number exactly rooms − 1 (a
tree), and the same holds for `BFSMazeGenerator.generate` on its
odd-anchored room lattice. -/
theorem C1_theorem (r : Rng) (w h : Nat) (hw : 3 ≤ w) (hh : 3 ≤ h) :
    (∀ res, DFSMazeGenerator.generate r w h = some res → PerfectMaze res.1 (0, 0)) ∧
    (∀ g, BFSMazeGenerator.generate r w h = some g → PerfectMaze g (1, 1)) :=
  ⟨fun res hres => DFSMazeGenerator.dfs_generate_perfect r w h (by omega) (by omega) res hres,
    fun g hg => BFSMazeGenerator.bfs_generate_perfect r w h (by omega) (by omega) g hg⟩

theorem C1_witness :
    ((3 : Nat) ≤ 5 ∧ (3 : Nat) ≤ 5) ∧
    ((DFSMazeGenerator.generate rng0 5 5).isSome ∧
      (∀ res, DFSMazeGenerator.generate rng0 5 5 = some res → PerfectMaze res.1 (0, 0))) ∧
    (BFSMazeGenerator.generate rng0 5 5 = some bfsGrid55 ∧ PerfectMaze bfsGrid55 (1, 1)) :=
  ⟨⟨by decide, by decide⟩,
    ⟨by decide, (C1_theorem rng0 5 5 (by decide) (by decide)).1⟩,
    ⟨by decide, (C1_theorem rng0 5 5 (by decide) (by decide)).2 bfsGrid55 (by decide)⟩⟩
